import Mathlib

/-!
# PLY to mesh converter (`main.c`)

A shallow embedding of the converter: the C library calls it relies on
(`fgets`, `strcspn`, `strcmp`, `strncmp`, `sscanf`, `fread`, `fwrite`), the
functions of `main.c` (`float_to_int16`, `normalize`, `cross`,
`encode_octahedral`, `import_ply`, `main`), and theorems about them.

Conventions of the embedding.

* A file is the list of its bytes; a `FILE*` open for reading is the list of
  bytes not yet consumed.
* `float` is a type parameter `F` carrying the arithmetic the source uses
  (`FloatArith`) and its 32-bit representation (`FloatRepr`); `Float32` below is
  the IEEE-754 binary32 instance, and `exactArith` is the arithmetic without
  rounding on an ordered field, on which the statements made "in exact
  arithmetic" are read.
* Unsigned machine integers are natural numbers; every place where the C code
  computes in a fixed width carries its `% 2 ^ w`. The one counter kept without
  it is `face_count`, which cannot reach `2 ^ 64` on a file shorter than
  `2 ^ 64` bytes (`face_count_no_wrap`).
* `malloc`/`calloc` are taken to succeed; heap exhaustion is outside the model.
  A read of memory that was never written, or outside the raw vertex block, has
  no defined value in C: the embedding reports it as `ImportResult.undefined`.
* The host is little-endian, as the PLY variant read and the output format
  written both assume.
-/

namespace MeshConverter

/-! ## Bytes and C strings -/

/-- One byte of a file or of a `char` buffer. -/
abbrev Byte := Fin 256

/-- The byte with value `n % 256`. -/
def byte (n : Nat) : Byte := ⟨n % 256, Nat.mod_lt _ (by decide)⟩

/-- The bytes of an ASCII string literal (without the terminating NUL). -/
def str (s : String) : List Byte := s.toList.map (fun c => byte c.toNat)

/-- The macro `BUFFER_SIZE`: `#define BUFFER_SIZE 512`. -/
def BUFFER_SIZE : Nat := 512

/-- The C string held by a `char` array: its bytes up to the first NUL. A list
is read with an implicit NUL after its last byte. -/
def cstr (b : List Byte) : List Byte := b.takeWhile (fun c => c ≠ 0)

/-- Helper of `fgets`: reads at most `n` bytes, stopping after a newline. Returns the
bytes stored and the rest of the stream. -/
def fgetsAux : Nat → List Byte → List Byte × List Byte
  | 0, fp => ([], fp)
  | _ + 1, [] => ([], [])
  | n + 1, c :: fp =>
    if c = 10 then ([c], fp)
    else ((c :: (fgetsAux n fp).1), (fgetsAux n fp).2)

/-- The call `fgets(buff, size, fp)`: `none` at end of file (the buffer is left
unchanged), otherwise the line stored (newline included, at most `size - 1`
bytes) and the rest of the stream. -/
def fgets (size : Nat) (fp : List Byte) : Option (List Byte × List Byte) :=
  match fp with
  | [] => none
  | _ :: _ => some (fgetsAux (size - 1) fp)

/-- The call `strcspn(s, reject)`: length of the initial part of the C string `s` free of
the bytes of `reject`. -/
def strcspn (s reject : List Byte) : Nat :=
  ((cstr s).takeWhile (fun c => !(reject.contains c))).length

/-- The test `strcmp(a, b) == 0`. -/
def strcmp_eq (a b : List Byte) : Bool := cstr a == cstr b

/-- The test `strncmp(a, b, n) == 0`. -/
def strncmp_eq (a b : List Byte) (n : Nat) : Bool :=
  (cstr a).take n == (cstr b).take n

/-- The test `isspace` in the C locale: space, `\t`, `\n`, `\v`, `\f`, `\r`. -/
def isspace (c : Byte) : Bool := c.val == 32 || (9 ≤ c.val && c.val ≤ 13)

/-- The test `isdigit`. -/
def isdigit (c : Byte) : Bool := 48 ≤ c.val && c.val ≤ 57

/-- The literal part of a `scanf` format matched against the input: white space
in the format skips any amount of white space in the input, any other byte must
match exactly. Returns the input left, or `none` on a mismatch. -/
def scanLiteral : List Byte → List Byte → Option (List Byte)
  | [], s => some s
  | f :: fmt, s =>
    if isspace f then scanLiteral fmt (s.dropWhile isspace)
    else
      match s with
      | [] => none
      | c :: s' => if c = f then scanLiteral fmt s' else none

/-- The constant `ULLONG_MAX`. -/
def ULLONG_MAX : Nat := 2 ^ 64 - 1

/-- The value of a run of decimal digits. -/
def digitsValue (ds : List Byte) : Nat :=
  ds.foldl (fun a d => 10 * a + (d.val - 48)) 0

/-- The `%llu` conversion: skips white space, takes an optional sign and a
non-empty run of decimal digits. As `strtoull` does, a value too large is
stored as `ULLONG_MAX` and a leading `-` negates modulo `2 ^ 64`. `none` when
there is no digit (the conversion fails and nothing is stored). -/
def scanULL (s : List Byte) : Option Nat :=
  let s1 := s.dropWhile isspace
  let sign : Bool × List Byte :=
    match s1 with
    | [] => (false, [])
    | c :: t => if c = 45 then (true, t) else if c = 43 then (false, t) else (false, c :: t)
  let ds := sign.2.takeWhile isdigit
  if ds = [] then none
  else
    let v := digitsValue ds
    some (if v > ULLONG_MAX then ULLONG_MAX
          else if sign.1 then (2 ^ 64 - v) % 2 ^ 64 else v)

/-- The call `sscanf(buff, "<lit>%llu", &n)` for a format made of the literal `lit`
followed by `%llu`: the value stored in `n`, or `none` when `n` is left
untouched. -/
def sscanf_llu (buff lit : List Byte) : Option Nat :=
  match scanLiteral lit (cstr buff) with
  | none => none
  | some s => scanULL s

/-- Splits the first `count` complete items of `size` bytes off a stream. -/
def freadItems (size : Nat) : Nat → List Byte → List (List Byte)
  | 0, _ => []
  | count + 1, fp =>
    if size ≤ fp.length then fp.take size :: freadItems size count (fp.drop size)
    else []

/-- The call `fread(ptr, size, count, fp)`: the complete items read (fewer than `count`
when the file ends first) and the rest of the stream. -/
def fread (size count : Nat) (fp : List Byte) : List (List Byte) × List Byte :=
  (freadItems size count fp, fp.drop (size * count))

/-- A little-endian unsigned integer from its bytes. -/
def leValue : List Byte → Nat
  | [] => 0
  | b :: bs => b.val + 256 * leValue bs

/-- The `n` bytes of `v % 256 ^ n`, least significant first: how `fwrite` stores an
`n`-byte unsigned integer on the (little-endian) host. -/
def leBytes : Nat → Nat → List Byte
  | 0, _ => []
  | n + 1, v => byte v :: leBytes n (v / 256)

/-! ## Floating point -/

/-- The arithmetic on `float` that `main.c` uses. `ofInt n` is the float of
integer value `n` (an integer-valued literal such as `1.0f` or `32767.0f`, or an
`int` operand converted by the usual arithmetic conversions); `half` is `0.5f`;
`toInt` is the conversion to an integer type, which truncates toward zero;
`flt`, `fge`, `feq` are the comparisons `<`, `>=`, `==`. -/
class FloatArith (F : Type) extends Neg F, Add F, Sub F, Mul F, Div F where
  ofInt : Int → F
  half : F
  sqrtf : F → F
  fabsf : F → F
  fmaxf : F → F → F
  fminf : F → F → F
  flt : F → F → Bool
  fge : F → F → Bool
  feq : F → F → Bool
  toInt : F → Int

/-- The 32-bit object representation of a `float`, as the unsigned integer that
holds the same four bytes. -/
class FloatRepr (F : Type) where
  ofBits : Nat → F
  toBits : F → Nat

export FloatArith (ofInt half sqrtf fabsf fmaxf fminf flt fge feq toInt)
export FloatRepr (ofBits toBits)

/-- Conversion of an integer value to `int16_t` (two's complement wrap). -/
def toInt16 (z : Int) : Int := (z + 32768) % 65536 - 32768

/-- Conversion of an integer value to `uint16_t`. -/
def toUInt16 (z : Int) : Nat := (z % 65536).toNat

/-- Conversion of an integer value to `uint8_t`. -/
def toUInt8 (z : Int) : Nat := (z % 256).toNat

/-! ## Data types of `main.c` -/

/-- The type `Vec3`: `typedef struct { float x, y, z; } Vec3;` -/
structure Vec3 (F : Type) where
  x : F
  y : F
  z : F
deriving DecidableEq, Repr

/-- The type `float2`: `typedef struct { float x, y; } float2;` -/
structure float2 (F : Type) where
  x : F
  y : F
deriving DecidableEq, Repr

/-- The type `Vertex` (`typedef struct Vertex`): nine 4-byte fields, in declaration order. -/
structure Vertex (F : Type) where
  xPos : F
  yPos : F
  zPos : F
  normal : Nat
  color : Nat
  u : F
  v : F
  data : Nat
  tangent : Nat
deriving DecidableEq, Repr

/-- The type `Mesh` (`typedef struct Mesh`): the two counts and the two arrays they size. -/
structure Mesh (F : Type) where
  vertices_num : Nat
  indices_num : Nat
  vertices : List (Vertex F)
  indices : List Nat
deriving DecidableEq, Repr

/-! ## Geometry helpers -/

section Geometry

variable {F : Type} [FloatArith F]

/-- Function `float_to_int16`: `(int16_t)(fmaxf(-1.0f, fminf(v, 1.0f)) * 32767.0f)`. -/
def float_to_int16 (v : F) : Int :=
  toInt16 (toInt (fmaxf (-(ofInt 1 : F)) (fminf v (ofInt 1)) * ofInt 32767))

/-- Function `normalize`: divides by the Euclidean length; the zero vector when the length
compares equal to zero. -/
def normalize (v : Vec3 F) : Vec3 F :=
  let len : F := sqrtf (v.x * v.x + v.y * v.y + v.z * v.z)
  if feq len (ofInt 0) then ⟨ofInt 0, ofInt 0, ofInt 0⟩
  else ⟨v.x / len, v.y / len, v.z / len⟩

/-- Function `cross`: the vector product. -/
def cross (a b : Vec3 F) : Vec3 F :=
  ⟨a.y * b.z - a.z * b.y,
   a.z * b.x - a.x * b.z,
   a.x * b.y - a.y * b.x⟩

/-- Function `encode_octahedral`: L1-normalises, folds the lower hemisphere, quantises
`x` and `y` with `float_to_int16` and packs them as
`((uint16_t)ix << 16) | ((uint16_t)iy & 0xFFFF)`. -/
def encode_octahedral (n : Vec3 F) : Nat :=
  let invLen : F := ofInt 1 / (fabsf n.x + fabsf n.y + fabsf n.z)
  let v : Vec3 F := ⟨n.x * invLen, n.y * invLen, n.z * invLen⟩
  let xy : F × F :=
    if flt v.z (ofInt 0) then
      ((ofInt 1 - fabsf v.y) * (if fge v.x (ofInt 0) then ofInt 1 else -(ofInt 1)),
       (ofInt 1 - fabsf v.x) * (if fge v.y (ofInt 0) then ofInt 1 else -(ofInt 1)))
    else (v.x, v.y)
  let ix : Int := float_to_int16 xy.1
  let iy : Int := float_to_int16 xy.2
  ((toUInt16 ix <<< 16) ||| (toUInt16 iy &&& 0xFFFF)) % 2 ^ 32

end Geometry

/-! ## `import_ply` -/

/-- The messages `main.c` prints on standard error. -/
inductive ErrMsg where
  | usage
  | cannotOpen
  | notPly
  | notFormat
  | onlyTriangles
  | errorImporting
  | cannotOpenOutput
deriving DecidableEq, Repr

/-- What a call of `import_ply` does: it returns a mesh, or prints `msg` and
returns `NULL`, or its behaviour is not defined by C (it uses a value that no
`fread` stored, or reads outside the raw vertex block). -/
inductive ImportResult (F : Type) where
  | mesh (m : Mesh F)
  | null (msg : ErrMsg)
  | undefined
deriving DecidableEq, Repr

/-- The loop of lines 110-118 over the header lines: `fuel` bounds the number
of lines read (every `fgets` that succeeds consumes a byte, so the length of
the stream is enough). Returns `orig_vertices_num`, `orig_indices_num` and the
stream after the loop. -/
def headerLoop : Nat → List Byte → Nat → Nat → Nat × Nat × List Byte
  | 0, fp, nv, nf => (nv, nf, fp)
  | fuel + 1, fp, nv, nf =>
    match fgets BUFFER_SIZE fp with
    | none => (nv, nf, fp)
    | some (buff, fp') =>
      if strncmp_eq buff (str "element vertex") 14 then
        headerLoop fuel fp' ((sscanf_llu buff (str "element vertex ")).getD nv) nf
      else if strncmp_eq buff (str "element face") 12 then
        headerLoop fuel fp' nv ((sscanf_llu buff (str "element face ")).getD nf)
      else if strncmp_eq buff (str "end_header") 10 then (nv, nf, fp')
      else headerLoop fuel fp' nv nf

/-- What the loop over the face records leaves: `face_indices` filled, or the
early `return NULL` on a record that is not a triangle, or a record that the
file does not hold in full (the count or the indices are then whatever the
memory held before). -/
inductive FaceRead where
  | indices (face_indices : List Nat)
  | notTriangle
  | truncated
deriving DecidableEq, Repr

/-- The loop of lines 125-138 over the face records, `n` iterations to go with
`face_indices` filled so far (`face_count` is its length). Each record is one
count byte and three little-endian `uint32`; the second and third index are
swapped once stored. -/
def readFaces : Nat → List Byte → List Nat → FaceRead
  | 0, _, face_indices => .indices face_indices
  | _ + 1, [], _ => .truncated
  | n + 1, count :: fp, face_indices =>
    if count ≠ 3 then .notTriangle
    else
      match fread 4 3 fp with
      | ([i0, i1, i2], fp') =>
        readFaces n fp' (face_indices ++ [leValue i0, leValue i2, leValue i1])
      | _ => .truncated

section Import

variable {F : Type} [FloatArith F] [FloatRepr F]

/-- The body of the loop of lines 147-163 for one entry `idx` of `face_indices`:
`base = &raw_positions[idx * 8]`, the product taken in 32-bit unsigned
arithmetic. `none` when one of `base[0]`, `base[1]`, `base[2]`, `base[6]`,
`base[7]` lies outside the floats read into `raw_positions`. -/
def initVertex (raw_positions : List F) (idx : Nat) : Option (Vertex F) :=
  let base := (idx * 8) % 2 ^ 32
  match raw_positions[base]?, raw_positions[base + 1]?, raw_positions[base + 2]?,
        raw_positions[base + 6]?, raw_positions[base + 7]? with
  | some b0, some b1, some b2, some b6, some b7 =>
    some { xPos := -b0 * ofInt 16
           yPos := b1 * ofInt 16
           zPos := b2 * ofInt 16
           u := b6
           v := -b7
           color := 0xFFFFFFFF
           data := 0
           normal := 0
           tangent := 0 }
  | _, _, _, _, _ => none

/-- The loop of lines 147-163: `unique_verts`, one vertex per entry of
`face_indices`, or `none` when a read falls outside `raw_positions`. -/
def initVertices (raw_positions : List F) : List Nat → Option (List (Vertex F))
  | [] => some []
  | idx :: rest =>
    match initVertex raw_positions idx, initVertices raw_positions rest with
    | some v, some vs => some (v :: vs)
    | _, _ => none

/-- Lines 171-187: the packed normal of the triangle `v0 v1 v2`. -/
def faceNormal (v0 v1 v2 : Vertex F) : Nat :=
  let p0 : Vec3 F := ⟨v0.xPos, v0.yPos, v0.zPos⟩
  let p1 : Vec3 F := ⟨v1.xPos, v1.yPos, v1.zPos⟩
  let p2 : Vec3 F := ⟨v2.xPos, v2.yPos, v2.zPos⟩
  let edge1 : Vec3 F := ⟨p1.x - p0.x, p1.y - p0.y, p1.z - p0.z⟩
  let edge2 : Vec3 F := ⟨p2.x - p0.x, p2.y - p0.y, p2.z - p0.z⟩
  let face_normal := normalize (cross edge1 edge2)
  (toUInt8 (toInt ((face_normal.x + ofInt 1) * half * ofInt 255)) |||
   (toUInt8 (toInt ((face_normal.y + ofInt 1) * half * ofInt 255)) <<< 8) |||
   (toUInt8 (toInt ((face_normal.z + ofInt 1) * half * ofInt 255)) <<< 16)) % 2 ^ 32

/-- Lines 171-204: the normalised tangent of the triangle `v0 v1 v2`. -/
def faceTangent (v0 v1 v2 : Vertex F) : Vec3 F :=
  let p0 : Vec3 F := ⟨v0.xPos, v0.yPos, v0.zPos⟩
  let p1 : Vec3 F := ⟨v1.xPos, v1.yPos, v1.zPos⟩
  let p2 : Vec3 F := ⟨v2.xPos, v2.yPos, v2.zPos⟩
  let uv0 : float2 F := ⟨v0.u, v0.v⟩
  let uv1 : float2 F := ⟨v1.u, v1.v⟩
  let uv2 : float2 F := ⟨v2.u, v2.v⟩
  let edge1 : Vec3 F := ⟨p1.x - p0.x, p1.y - p0.y, p1.z - p0.z⟩
  let edge2 : Vec3 F := ⟨p2.x - p0.x, p2.y - p0.y, p2.z - p0.z⟩
  let deltaU1 : F := uv1.x - uv0.x
  let deltaV1 : F := uv1.y - uv0.y
  let deltaU2 : F := uv2.x - uv0.x
  let deltaV2 : F := uv2.y - uv0.y
  let f : F := ofInt 1 / (deltaU1 * deltaV2 - deltaU2 * deltaV1)
  normalize ⟨f * (deltaV2 * edge1.x - deltaV1 * edge2.x),
             f * (deltaV2 * edge1.y - deltaV1 * edge2.y),
             f * (deltaV2 * edge1.z - deltaV1 * edge2.z)⟩

/-- The loop of lines 166-209, three vertices per step: every vertex of a face
receives the face's packed normal, and `tangents_temp` receives the face's
tangent three times. -/
def faceLoop : List (Vertex F) → List (Vertex F) × List (Vec3 F)
  | v0 :: v1 :: v2 :: rest =>
    let encoded_normal := faceNormal v0 v1 v2
    let tangent := faceTangent v0 v1 v2
    ({ v0 with normal := encoded_normal } :: { v1 with normal := encoded_normal } ::
        { v2 with normal := encoded_normal } :: (faceLoop rest).1,
     tangent :: tangent :: tangent :: (faceLoop rest).2)
  | vs => (vs, [])

/-- The loop of lines 211-213:
`unique_verts[i].tangent = encode_octahedral(tangents_temp[i])`. -/
def packTangents (unique_verts : List (Vertex F)) (tangents_temp : List (Vec3 F)) :
    List (Vertex F) :=
  List.zipWith (fun v t => { v with tangent := encode_octahedral t }) unique_verts tangents_temp

/-- Lines 141-223: from `raw_positions` and the filled `face_indices` to the
mesh returned. `none` when a read falls outside `raw_positions`.
`remapped_indices[i] = i` stores the 64-bit `i` in a `uint32_t`. -/
def buildMesh (raw_positions : List F) (face_indices : List Nat) : Option (Mesh F) :=
  let face_count := face_indices.length
  match initVertices raw_positions face_indices with
  | none => none
  | some unique_verts0 =>
    let remapped_indices := (List.range face_count).map (fun i => i % 2 ^ 32)
    let fl := faceLoop unique_verts0
    let unique_verts := packTangents fl.1 fl.2
    some { vertices_num := face_count
           indices_num := face_count
           vertices := unique_verts
           indices := remapped_indices }

end Import

/-- The outcome of the format check: the stream after the two lines, or the
message printed before `return NULL`. -/
inductive FormatCheck where
  | passed (rest : List Byte)
  | failed (msg : ErrMsg)
deriving DecidableEq, Repr

/-- Lines 99-107: the two `fgets`/`strcmp` checks. `buff0` is the C string that the
uninitialised `buff` happens to hold on entry: a failed `fgets` leaves the
buffer as it was. `buff[strcspn(buff, "\n")] = 0` cuts the buffer there. -/
def checkFormat (buff0 fp : List Byte) : FormatCheck :=
  let r1 := (fgets BUFFER_SIZE fp).getD (buff0, fp)
  let buff1 := r1.1.take (strcspn r1.1 (str "\n"))
  if !strcmp_eq buff1 (str "ply") then .failed .notPly
  else
    let r2 := (fgets BUFFER_SIZE r1.2).getD (buff1, r1.2)
    let buff2 := r2.1.take (strcspn r2.1 (str "\n"))
    if !strcmp_eq buff2 (str "format binary_little_endian 1.0") then .failed .notFormat
    else .passed r2.2

/-- Lines 109-118: `orig_vertices_num`, `orig_indices_num` (both start at `0`)
and the stream after the header. -/
def readHeader (fp : List Byte) : Nat × Nat × List Byte :=
  headerLoop fp.length fp 0 0

section Import

variable {F : Type} [FloatArith F] [FloatRepr F]

/-- Lines 120-121: `fread(raw_positions, sizeof(float), orig_vertices_num * 8, fp)`,
the count taken in 64-bit unsigned arithmetic. Returns the floats read and the
rest of the stream. -/
def readRaw (orig_vertices_num : Nat) (fp : List Byte) : List F × List Byte :=
  let rd := fread 4 ((orig_vertices_num * 8) % 2 ^ 64) fp
  (rd.1.map (fun b => ofBits (leValue b)), rd.2)

/-- Function `import_ply`. `file` is the content of the file at `path`, `none` when it
cannot be opened; `buff0` is as in `checkFormat`. `face_count` is the length of
`face_indices`: three per face record read, each of which took 13 bytes of the
file. -/
def import_ply (buff0 : List Byte) (file : Option (List Byte)) : ImportResult F :=
  match file with
  | none => .null .cannotOpen
  | some fp =>
    match checkFormat buff0 fp with
    | .failed msg => .null msg
    | .passed fp1 =>
      let h := readHeader fp1
      let orig_vertices_num := h.1
      let orig_indices_num := h.2.1
      let rd : List F × List Byte := readRaw orig_vertices_num h.2.2
      let raw_positions := rd.1
      match readFaces orig_indices_num rd.2 [] with
      | .truncated => .undefined
      | .notTriangle => .null .onlyTriangles
      | .indices face_indices =>
        match buildMesh raw_positions face_indices with
        | none => .undefined
        | some mesh => .mesh mesh

end Import

/-! ## `main` and the output file -/

section Writer

variable {F : Type} [FloatRepr F]

/-- The `fwrite` of one `Vertex`: its nine fields in declaration order, four bytes
each, in host order. -/
def writeVertex (v : Vertex F) : List Byte :=
  leBytes 4 (toBits v.xPos) ++ leBytes 4 (toBits v.yPos) ++ leBytes 4 (toBits v.zPos) ++
  leBytes 4 v.normal ++ leBytes 4 v.color ++
  leBytes 4 (toBits v.u) ++ leBytes 4 (toBits v.v) ++
  leBytes 4 v.data ++ leBytes 4 v.tangent

end Writer

/-- The builtin `__builtin_bswap64` (the macro `bendian`): the eight bytes in reverse order. -/
def bswap64 (x : Nat) : Nat := leValue (leBytes 8 x).reverse

section Main

variable {F : Type} [FloatRepr F]

/-- Lines 238-251 of `main`: the bytes written to the output file. -/
def writeMesh (mesh : Mesh F) : List Byte :=
  let format_indicator := 2
  let dimensions_x := 1
  let dimensions_y := 1
  let dimensions_z := 1
  let meshes_num := 1
  let vertices_num_bendian := bswap64 mesh.vertices_num
  let indices_num_bendian := bswap64 mesh.indices_num
  leBytes 8 format_indicator ++
  leBytes 8 dimensions_x ++
  leBytes 8 dimensions_y ++
  leBytes 8 dimensions_z ++
  leBytes 1 meshes_num ++
  leBytes 8 vertices_num_bendian ++
  leBytes 8 indices_num_bendian ++
  ((mesh.vertices.take mesh.vertices_num).map writeVertex).flatten ++
  ((mesh.indices.take mesh.indices_num).map (leBytes 4)).flatten

/-- How a run of the program ends: the exit status, the messages printed on
standard error, and the content of the output file (`none` when the program
never opened it); or a run whose behaviour C does not define. -/
inductive RunResult where
  | exit (status : Nat) (stderr : List ErrMsg) (output : Option (List Byte))
  | undefined
deriving DecidableEq, Repr

end Main

/-- Function `main`. `argc` is the argument count, `input` the content of the file named
by `argv[1]` (`none` when it cannot be opened), `outputOpens` tells whether
`fopen(argv[2], "wb")` succeeds, `buff0` is as in `import_ply`. -/
def main (F : Type) [FloatArith F] [FloatRepr F] (argc : Nat) (buff0 : List Byte)
    (input : Option (List Byte)) (outputOpens : Bool) : RunResult :=
  if argc < 3 then .exit 1 [.usage] none
  else
    match (import_ply buff0 input : ImportResult F) with
    | .undefined => .undefined
    | .null msg => .exit 1 [msg, .errorImporting] none
    | .mesh mesh =>
      if !outputOpens then .exit 1 [.cannotOpenOutput] none
      else .exit 0 [] (some (writeMesh mesh))

/-! ## IEEE-754 binary32

The instance of `FloatArith` and `FloatRepr` for the `float` of the platforms
the converter is built for: a value is its 32-bit pattern, arithmetic rounds to
nearest, ties to even. Where C leaves the result open the instance follows
x86-64 (SSE): an invalid operation yields the NaN `0xFFC00000`, a NaN operand is
returned with its quiet bit set, and a conversion to integer of a NaN or of a
value outside `int` yields `-2 ^ 31`. -/

/-- A `float` by its bit pattern (read modulo `2 ^ 32`). -/
structure Float32 where
  bits : Nat
deriving DecidableEq, Repr

/-- Floor of the binary logarithm (`0` for `0`), `fuel` bounding the depth. -/
def log2Aux : Nat → Nat → Nat
  | 0, _ => 0
  | fuel + 1, n => if n < 2 then 0 else log2Aux fuel (n / 2) + 1

/-- Floor of the binary logarithm (`0` for `0`). -/
def ilog2 (n : Nat) : Nat := log2Aux n n

/-- Binary search for the integer square root, from bit `k - 1` down. -/
def isqrtAux (n : Nat) : Nat → Nat → Nat
  | 0, acc => acc
  | k + 1, acc => isqrtAux n k (if (acc + 2 ^ k) * (acc + 2 ^ k) ≤ n then acc + 2 ^ k else acc)

/-- Floor of the square root. -/
def isqrt (n : Nat) : Nat := isqrtAux n (ilog2 n / 2 + 1) 0

/-- The fraction `(num * 2 ^ k) / den` as a pair numerator, denominator. -/
def scaleFrac (num den : Nat) (k : Int) : Nat × Nat :=
  if 0 ≤ k then (num * 2 ^ k.toNat, den) else (num, den * 2 ^ (-k).toNat)

/-- Floor of the binary logarithm of `num / den`, for `num`, `den` positive. -/
def fracLog2 (num den : Nat) : Int :=
  let e0 : Int := (ilog2 num : Int) - (ilog2 den : Int)
  let s := scaleFrac num den (-e0)
  if s.2 ≤ s.1 then e0 else e0 - 1

/-- The bit pattern (sign bit clear) of the binary32 nearest to `num / den`,
for `num`, `den` positive; ties go to the even significand, and a value too
large rounds to infinity. -/
def roundBits (num den : Nat) : Nat :=
  let e : Int := max (fracLog2 num den) (-126)
  let s := scaleFrac num den (23 - e)
  let m := s.1 / s.2
  let r := s.1 % s.2
  let m' := if s.2 < 2 * r ∨ (2 * r = s.2 ∧ m % 2 = 1) then m + 1 else m
  let b := (e + 126).toNat * 2 ^ 23 + m'
  if 0x7F800000 ≤ b then 0x7F800000 else b

namespace Float32

/-- The sign bit. -/
def sign (a : Float32) : Bool := a.bits / 2 ^ 31 % 2 == 1

/-- The biased exponent field. -/
def expo (a : Float32) : Nat := a.bits / 2 ^ 23 % 256

/-- The fraction field. -/
def frac (a : Float32) : Nat := a.bits % 2 ^ 23

/-- Not a number. -/
def isNaN (a : Float32) : Bool := a.expo == 255 && a.frac != 0

/-- Plus or minus infinity. -/
def isInf (a : Float32) : Bool := a.expo == 255 && a.frac == 0

/-- Plus or minus zero. -/
def isZero (a : Float32) : Bool := a.expo == 0 && a.frac == 0

/-- The significand of a finite value, as an integer. -/
def mant (a : Float32) : Nat := if a.expo = 0 then a.frac else 2 ^ 23 + a.frac

/-- The exponent of a finite value: its magnitude is `mant * 2 ^ scale`. -/
def scale (a : Float32) : Int := (max a.expo 1 : Nat) - 150

/-- From a sign and a pattern with the sign bit clear. -/
def pack (s : Bool) (b : Nat) : Float32 := ⟨(if s then 2 ^ 31 else 0) + b⟩

/-- Signed zero. -/
def zero (s : Bool) : Float32 := pack s 0

/-- Signed infinity. -/
def inf (s : Bool) : Float32 := pack s 0x7F800000

/-- The NaN produced by an invalid operation. -/
def defaultNaN : Float32 := ⟨0xFFC00000⟩

/-- The operand NaN `a`, made quiet. -/
def quiet (a : Float32) : Float32 := ⟨(a.bits % 2 ^ 32) ||| 0x00400000⟩

/-- The signed value `sign * num / den` rounded to binary32 (`num`, `den` positive). -/
def round (s : Bool) (num den : Nat) : Float32 := pack s (roundBits num den)

/-- Unary minus: flips the sign bit. -/
def neg (a : Float32) : Float32 := ⟨(a.bits % 2 ^ 32) ^^^ 2 ^ 31⟩

/-- Function `fabsf`: clears the sign bit. -/
def abs (a : Float32) : Float32 := ⟨a.bits % 2 ^ 31⟩

/-- Multiplication. -/
def mul (a b : Float32) : Float32 :=
  if a.isNaN then quiet a
  else if b.isNaN then quiet b
  else if (a.isInf && b.isZero) || (a.isZero && b.isInf) then defaultNaN
  else
    let s := a.sign != b.sign
    if a.isInf || b.isInf then inf s
    else if a.mant = 0 || b.mant = 0 then zero s
    else
      let f := scaleFrac (a.mant * b.mant) 1 (a.scale + b.scale)
      round s f.1 f.2

/-- A finite value as an integer multiple of `2 ^ q`, for `q ≤ a.scale`. -/
def units (a : Float32) (q : Int) : Int :=
  (if a.sign then -1 else 1) * ((a.mant * 2 ^ (a.scale - q).toNat : Nat) : Int)

/-- Addition. -/
def add (a b : Float32) : Float32 :=
  if a.isNaN then quiet a
  else if b.isNaN then quiet b
  else if a.isInf then (if b.isInf && a.sign != b.sign then defaultNaN else a)
  else if b.isInf then b
  else
    let q := min a.scale b.scale
    let t : Int := a.units q + b.units q
    if t = 0 then zero (a.sign && b.sign)
    else
      let f := scaleFrac t.natAbs 1 q
      round (decide (t < 0)) f.1 f.2

/-- Subtraction. -/
def sub (a b : Float32) : Float32 :=
  if a.isNaN then quiet a
  else if b.isNaN then quiet b
  else add a (neg b)

/-- Division. -/
def div (a b : Float32) : Float32 :=
  if a.isNaN then quiet a
  else if b.isNaN then quiet b
  else if (a.isInf && b.isInf) || (a.isZero && b.isZero) then defaultNaN
  else
    let s := a.sign != b.sign
    if a.isInf then inf s
    else if b.isInf then zero s
    else if b.isZero then inf s
    else if a.isZero then zero s
    else
      let f := scaleFrac a.mant b.mant (a.scale - b.scale)
      round s f.1 f.2

/-- Function `sqrtf`, correctly rounded. -/
def sqrt (a : Float32) : Float32 :=
  if a.isNaN then quiet a
  else if a.isZero then a
  else if a.sign then defaultNaN
  else if a.isInf then a
  else
    -- the value is `m * 2 ^ e` with `e` even
    let odd := a.scale % 2 != 0
    let m := if odd then 2 * a.mant else a.mant
    let e := if odd then a.scale - 1 else a.scale
    let r := isqrt (m * 4 ^ 30)
    let f := scaleFrac (2 * r + (if r * r = m * 4 ^ 30 then 0 else 1)) 2 (e / 2 - 30)
    round false f.1 f.2

/-- The order key of a value that is not a NaN: the sign-magnitude pattern as an
integer, both zeros at `0`. -/
def key (a : Float32) : Int :=
  if a.sign then -((a.bits % 2 ^ 31 : Nat) : Int) else ((a.bits % 2 ^ 31 : Nat) : Int)

/-- The comparison `a < b`. -/
def lt (a b : Float32) : Bool := !a.isNaN && !b.isNaN && decide (a.key < b.key)

/-- The comparison `a <= b`. -/
def le (a b : Float32) : Bool := !a.isNaN && !b.isNaN && decide (a.key ≤ b.key)

/-- The comparison `a == b`. -/
def eq (a b : Float32) : Bool := !a.isNaN && !b.isNaN && decide (a.key = b.key)

/-- Function `fmaxf`: `(x >= y || isnan(y)) ? x : y`. -/
def max (x y : Float32) : Float32 := if le y x || y.isNaN then x else y

/-- Function `fminf`: `(x <= y || isnan(y)) ? x : y`. -/
def min (x y : Float32) : Float32 := if le x y || y.isNaN then x else y

/-- Conversion from an integer. -/
def ofInt (n : Int) : Float32 := if n = 0 then zero false else round (decide (n < 0)) n.natAbs 1

/-- Conversion to a 32-bit integer, truncating toward zero. -/
def toInt (a : Float32) : Int :=
  if a.isNaN || a.isInf then -2 ^ 31
  else
    let f := scaleFrac a.mant 1 a.scale
    let t : Int := (if a.sign then -1 else 1) * ((f.1 / f.2 : Nat) : Int)
    if t < -2 ^ 31 ∨ 2 ^ 31 ≤ t then -2 ^ 31 else t

end Float32

instance : FloatArith Float32 where
  neg := Float32.neg
  add := Float32.add
  sub := Float32.sub
  mul := Float32.mul
  div := Float32.div
  ofInt := Float32.ofInt
  half := ⟨0x3F000000⟩
  sqrtf := Float32.sqrt
  fabsf := Float32.abs
  fmaxf := Float32.max
  fminf := Float32.min
  flt := Float32.lt
  fge := fun a b => Float32.le b a
  feq := Float32.eq
  toInt := Float32.toInt

instance : FloatRepr Float32 where
  ofBits := fun n => ⟨n % 2 ^ 32⟩
  toBits := fun a => a.bits % 2 ^ 32

/-! ## Layout of the files -/

/-- The 49 bytes that open the output file of a mesh with `n` vertices and `m`
indices, written out one by one. -/
def headerBytes (n m : Nat) : List Byte :=
  [0x02, 0x00, 0x00, 0x00, 0x00, 0x00, 0x00, 0x00,
   0x01, 0x00, 0x00, 0x00, 0x00, 0x00, 0x00, 0x00,
   0x01, 0x00, 0x00, 0x00, 0x00, 0x00, 0x00, 0x00,
   0x01, 0x00, 0x00, 0x00, 0x00, 0x00, 0x00, 0x00,
   0x01,
   byte (n / 2 ^ 56), byte (n / 2 ^ 48), byte (n / 2 ^ 40), byte (n / 2 ^ 32),
   byte (n / 2 ^ 24), byte (n / 2 ^ 16), byte (n / 2 ^ 8), byte n,
   byte (m / 2 ^ 56), byte (m / 2 ^ 48), byte (m / 2 ^ 40), byte (m / 2 ^ 32),
   byte (m / 2 ^ 24), byte (m / 2 ^ 16), byte (m / 2 ^ 8), byte m]


/-! ## A sample input -/

/-- A PLY file with three vertices `(0,0,0)`, `(1,0,0)`, `(0,1,0)`, all with
normal `(0,0,1)` and texture coordinates `(0,0)`, `(1,0)`, `(0,1)`, and the
single face `(0,1,2)`. -/
def samplePly : List Byte :=
  str "ply\nformat binary_little_endian 1.0\nelement vertex 3\nelement face 1\nend_header\n" ++
  -- three records of eight floats: x y z, nx ny nz, u v (`0x3F800000` is `1.0f`)
  (([0, 0, 0, 0, 0, 0x3F800000, 0, 0,
     0x3F800000, 0, 0, 0, 0, 0x3F800000, 0x3F800000, 0,
     0, 0x3F800000, 0, 0, 0, 0x3F800000, 0, 0x3F800000].map (leBytes 4)).flatten) ++
  -- one face record: the corner count, then the corners 0, 1, 2
  [3] ++ leBytes 4 0 ++ leBytes 4 1 ++ leBytes 4 2

/-- The mesh `import_ply` returns for `samplePly`. -/
def sampleMesh : Mesh Float32 :=
  { vertices_num := 3
    indices_num := 3
    vertices :=
      [{ xPos := ⟨0x80000000⟩, yPos := ⟨0⟩, zPos := ⟨0⟩, normal := 0xFF7F7F,
         color := 0xFFFFFFFF, u := ⟨0⟩, v := ⟨0x80000000⟩, data := 0,
         tangent := 0x80010000 },
       { xPos := ⟨0x80000000⟩, yPos := ⟨0x41800000⟩, zPos := ⟨0⟩, normal := 0xFF7F7F,
         color := 0xFFFFFFFF, u := ⟨0⟩, v := ⟨0xBF800000⟩, data := 0,
         tangent := 0x80010000 },
       { xPos := ⟨0xC1800000⟩, yPos := ⟨0⟩, zPos := ⟨0⟩, normal := 0xFF7F7F,
         color := 0xFFFFFFFF, u := ⟨0x3F800000⟩, v := ⟨0x80000000⟩, data := 0,
         tangent := 0x80010000 }]
    indices := [0, 1, 2] }


/-! ## Layout of the input after the header

The stream that follows `end_header` holds the raw vertex block and then the
face records. The definitions below name the places `import_ply` reads. -/

/-- The stream left after the `fread` of the raw vertex block: where the face
records start. -/
def faceStream (orig_vertices_num : Nat) (data : List Byte) : List Byte :=
  (fread 4 ((orig_vertices_num * 8) % 2 ^ 64) data).2

/-- Corner `j` (`0`, `1` or `2`, in file order) of the `k`-th record of a stream
of triangle records: a record is 13 bytes, the count and three little-endian
`uint32`. -/
def cornerAt (faces : List Byte) (k j : Nat) : Nat :=
  leValue ((faces.drop (13 * k + 1 + 4 * j)).take 4)

/-- The corners of the first `n` triangle records, each record with its second
and third corner exchanged. -/
def swappedCorners (faces : List Byte) (n : Nat) : List Nat :=
  (List.range n).flatMap (fun k => [cornerAt faces k 0, cornerAt faces k 2, cornerAt faces k 1])


/-- The number of floats the `fread` of the raw vertex block stores in
`raw_positions`: the count asked for, or what the file still holds. -/
def rawCount (orig_vertices_num : Nat) (data : List Byte) : Nat :=
  (freadItems 4 ((orig_vertices_num * 8) % 2 ^ 64) data).length


/-- The first line of a stream: its bytes before the first newline, all of them
when it has none. -/
def firstLine (fp : List Byte) : List Byte := fp.takeWhile (fun c => c ≠ 10)

/-- The stream after its first line and the newline that ends it. -/
def afterFirstLine (fp : List Byte) : List Byte := (fp.dropWhile (fun c => c ≠ 10)).drop 1

/-- The second line of a stream. -/
def secondLine (fp : List Byte) : List Byte := firstLine (afterFirstLine fp)


/-- A file whose first line is `ply`, a NUL byte and more text. -/
def sampleNulPly : List Byte :=
  str "ply\x00junk\nformat binary_little_endian 1.0\nend_header\n"

/-- The header of an ASCII PLY file. -/
def sampleAsciiPly : List Byte :=
  str "ply\nformat ascii 1.0\nelement vertex 0\nelement face 0\nend_header\n"


/-! ## Lines of the header -/

/-- The face record of the triangle `(0, 0, 0)`: the count 3 and twelve zero
bytes. -/
def zeroTriangle : List Byte := 3 :: List.replicate 12 0

/-- The body of `hugePly`: one raw vertex record of eight floats `0.0f`, then
1431655766 records `zeroTriangle`. -/
def hugeBody : List Byte :=
  List.replicate 32 0 ++ (List.replicate 1431655766 zeroTriangle).flatten

/-- A PLY file of one vertex and 1431655766 faces, that is 4294967298 corners. -/
def hugePly : List Byte :=
  str "ply\nformat binary_little_endian 1.0\n" ++
    (str "element vertex 1\nelement face 1431655766\nend_header\n" ++ hugeBody)


/-! ## A mesh of more than `2 ^ 29` vertices -/

/-- The raw vertex block of `hugeVertexPly`: `2 ^ 29 + 1` records of eight
floats; record `0` has `x = 1.0f`, every other float is `0.0f`. -/
def hugeVertexBlock : List Byte :=
  leBytes 4 0x3F800000 ++ List.replicate 17179869212 0

/-- The face record of the triangle whose three corners are the last vertex,
number `2 ^ 29`. -/
def lastVertexTriangle : List Byte :=
  [3] ++ leBytes 4 536870912 ++ leBytes 4 536870912 ++ leBytes 4 536870912

/-- A PLY file of `2 ^ 29 + 1` vertices and one face. -/
def hugeVertexPly : List Byte :=
  str "ply\nformat binary_little_endian 1.0\n" ++
    (str "element vertex 536870913\nelement face 1\nend_header\n" ++
      (hugeVertexBlock ++ lastVertexTriangle))


/-- The decimal digits of `n`, as ASCII bytes. -/
def decimal (n : Nat) : List Byte :=
  if n = 0 then [48] else (Nat.digits 10 n).reverse.map (fun d => byte (48 + d))

/-- The header line `<keyword> <n>` (without its newline), for example
`element vertex 12`. -/
def countLine (keyword : String) (n : Nat) : List Byte :=
  str keyword ++ [32] ++ decimal n

/-! ## A corner outside the vertex block -/

/-- The sample file with the last corner of its face changed to `3`: the file
declares three vertices, so vertex `3` does not exist. -/
def sampleStrayPly : List Byte :=
  samplePly.take (samplePly.length - 4) ++ leBytes 4 3

/-! ## Exact arithmetic

The claims made "in exact arithmetic" are read on an ordered field `K` in place
of `float`: no operation rounds, `fmaxf`, `fminf` and `fabsf` are the maximum,
minimum and absolute value, and the conversion to an integer truncates toward
zero. The square root is a parameter, since a field such as `ℚ` has none that is
exact everywhere. -/

/-- Truncation toward zero: the conversion of a `float` to an integer type. -/
def truncate {K : Type} [LinearOrderedField K] [FloorRing K] (a : K) : Int :=
  if 0 ≤ a then ⌊a⌋ else ⌈a⌉

/-- The operations of `main.c` on an ordered field `K`, none of them rounding;
`sqrt` stands for `sqrtf`. -/
@[reducible] def exactArith (K : Type) [LinearOrderedField K] [FloorRing K] (sqrt : K → K) :
    FloatArith K where
  neg := fun a => -a
  add := fun a b => a + b
  sub := fun a b => a - b
  mul := fun a b => a * b
  div := fun a b => a / b
  ofInt := fun n => (n : K)
  half := 1 / 2
  sqrtf := sqrt
  fabsf := fun a => |a|
  fmaxf := fun a b => max a b
  fminf := fun a b => min a b
  flt := fun a b => decide (a < b)
  fge := fun a b => decide (b ≤ a)
  feq := fun a b => decide (a = b)
  toInt := truncate

/-- A square root on the rationals, exact on the squares of rationals. -/
def sqrtRat (q : ℚ) : ℚ := (isqrt q.num.toNat : ℚ) / (isqrt q.den : ℚ)

/-- Exact arithmetic on the rationals. -/
@[reducible] def exactRat : FloatArith ℚ := exactArith ℚ sqrtRat

section Packing

variable {F : Type} [FloatArith F]

/-- Lines 184-187: the three components of `face_normal` packed into
`encoded_normal`, each converted by `(uint8_t)((c + 1.f) * 0.5f * 255)`. -/
def packNormal (face_normal : Vec3 F) : Nat :=
  (toUInt8 (toInt ((face_normal.x + ofInt 1) * half * ofInt 255)) |||
   (toUInt8 (toInt ((face_normal.y + ofInt 1) * half * ofInt 255)) <<< 8) |||
   (toUInt8 (toInt ((face_normal.z + ofInt 1) * half * ofInt 255)) <<< 16)) % 2 ^ 32

/-- Lines 175-180: an edge of the triangle, from `v0` to `v1`. -/
def faceEdge (v0 v1 : Vertex F) : Vec3 F :=
  ⟨v1.xPos - v0.xPos, v1.yPos - v0.yPos, v1.zPos - v0.zPos⟩

/-- Lines 190-193: the difference of the `u` coordinates of two vertices. -/
def deltaU (v0 v1 : Vertex F) : F := v1.u - v0.u

/-- Lines 190-193: the difference of the `v` coordinates of two vertices. -/
def deltaV (v0 v1 : Vertex F) : F := v1.v - v0.v

/-- Lines 195-201: the tangent of the triangle `v0 v1 v2` before `normalize`. -/
def rawTangent (v0 v1 v2 : Vertex F) : Vec3 F :=
  let edge1 := faceEdge v0 v1
  let edge2 := faceEdge v0 v2
  let deltaU1 := deltaU v0 v1
  let deltaV1 := deltaV v0 v1
  let deltaU2 := deltaU v0 v2
  let deltaV2 := deltaV v0 v2
  let f : F := ofInt 1 / (deltaU1 * deltaV2 - deltaU2 * deltaV1)
  ⟨f * (deltaV2 * edge1.x - deltaV1 * edge2.x),
   f * (deltaV2 * edge1.y - deltaV1 * edge2.y),
   f * (deltaV2 * edge1.z - deltaV1 * edge2.z)⟩

end Packing

/-! ## Octahedral decoding -/

section Decode

variable {F : Type} [FloatArith F]

/-- Modelled from the spec: the octahedral decode that corresponds to
`encode_octahedral`. The repository holds the encoder only; the decoder is the
one the specification describes: `ix` and `iy` are the signed high and low half
of the packed word, `x = ix / 32767`, `y = iy / 32767`, `z = 1 - |x| - |y|`, and
when `z < 0` the fold of the encoder is undone. -/
def decode_octahedral (w : Nat) : Vec3 F :=
  let ix : Int := toInt16 (w / 2 ^ 16 % 2 ^ 16)
  let iy : Int := toInt16 (w % 2 ^ 16)
  let x : F := ofInt ix / ofInt 32767
  let y : F := ofInt iy / ofInt 32767
  let z : F := ofInt 1 - fabsf x - fabsf y
  if flt z (ofInt 0) then
    ⟨(ofInt 1 - fabsf y) * (if fge x (ofInt 0) then ofInt 1 else -(ofInt 1)),
     (ofInt 1 - fabsf x) * (if fge y (ofInt 0) then ofInt 1 else -(ofInt 1)), z⟩
  else ⟨x, y, z⟩

/-- The six axis-aligned unit vectors. -/
def axisVectors : List (Vec3 F) :=
  [⟨ofInt 1, ofInt 0, ofInt 0⟩, ⟨-(ofInt 1), ofInt 0, ofInt 0⟩,
   ⟨ofInt 0, ofInt 1, ofInt 0⟩, ⟨ofInt 0, -(ofInt 1), ofInt 0⟩,
   ⟨ofInt 0, ofInt 0, ofInt 1⟩, ⟨ofInt 0, ofInt 0, -(ofInt 1)⟩]

end Decode

/-! ## The octahedral map -/

section Octahedral

variable {F : Type} [FloatArith F]

/-- Lines 57-68 of `encode_octahedral`: the point `(x, y)` that is quantised,
the vector scaled by `invLen` and folded when its `z` is negative. -/
def octahedralPoint (n : Vec3 F) : F × F :=
  let invLen : F := ofInt 1 / (fabsf n.x + fabsf n.y + fabsf n.z)
  let v : Vec3 F := ⟨n.x * invLen, n.y * invLen, n.z * invLen⟩
  if flt v.z (ofInt 0) then
    ((ofInt 1 - fabsf v.y) * (if fge v.x (ofInt 0) then ofInt 1 else -(ofInt 1)),
     (ofInt 1 - fabsf v.x) * (if fge v.y (ofInt 0) then ofInt 1 else -(ofInt 1)))
  else (v.x, v.y)

end Octahedral

section OctahedralSpec

variable {K : Type} [LinearOrderedField K]

/-- The sign of the specification: `+1` for `t ≥ 0` and `-1` otherwise. -/
def signOf (t : K) : K := if 0 ≤ t then 1 else -1

/-- The point `(x, y)` in the words of the specification: with `s` the L1 norm
and `(x0, y0, z0) = n / s`, it is `(x0, y0)` if `z0 ≥ 0` and
`((1 - |y0|) * sign x0, (1 - |x0|) * sign y0)` if `z0 < 0`. -/
def octahedralPointSpec (n : Vec3 K) : K × K :=
  let s := |n.x| + |n.y| + |n.z|
  let x0 := n.x / s
  let y0 := n.y / s
  let z0 := n.z / s
  if 0 ≤ z0 then (x0, y0) else ((1 - |y0|) * signOf x0, (1 - |x0|) * signOf y0)

/-- The square root `sqrt` is exact at `q`. -/
def ExactAt (sqrt : K → K) (q : K) : Prop := 0 ≤ sqrt q ∧ sqrt q * sqrt q = q

/-- The vector `k * n`. -/
def scaleVec (k : K) (n : Vec3 K) : Vec3 K := ⟨k * n.x, k * n.y, k * n.z⟩

end OctahedralSpec

/-! ## The tangent of a face, in the words of the specification -/

section TangentSpec

variable {K : Type} [LinearOrderedField K]

/-- The bitangent of the specification, `B = (1 / d) * (dU1 * e2 - dU2 * e1)`
with `d = dU1 * dV2 - dU2 * dV1`, the deltas and edges taken from the vertices
`v0`, `v1`, `v2` of the face. -/
def bitangentSpec (v0 v1 v2 : Vertex K) : Vec3 K :=
  let dU1 := v1.u - v0.u
  let dV1 := v1.v - v0.v
  let dU2 := v2.u - v0.u
  let dV2 := v2.v - v0.v
  let d := dU1 * dV2 - dU2 * dV1
  ⟨1 / d * (dU1 * (v2.xPos - v0.xPos) - dU2 * (v1.xPos - v0.xPos)),
   1 / d * (dU1 * (v2.yPos - v0.yPos) - dU2 * (v1.yPos - v0.yPos)),
   1 / d * (dU1 * (v2.zPos - v0.zPos) - dU2 * (v1.zPos - v0.zPos))⟩

/-- The vector `a * T + b * B`. -/
def combine (a : K) (T : Vec3 K) (b : K) (B : Vec3 K) : Vec3 K :=
  ⟨a * T.x + b * B.x, a * T.y + b * B.y, a * T.z + b * B.z⟩

/-- The three vertices of the sample file after the expansion, in exact
arithmetic: positions `(0,0,0)`, `(0,16,0)`, `(-16,0,0)` and texture
coordinates `(0,0)`, `(0,-1)`, `(1,0)`. -/
def sampleCorners : List (Vertex ℚ) :=
  [{ xPos := 0, yPos := 0, zPos := 0, normal := 0, color := 0xFFFFFFFF, u := 0, v := 0,
     data := 0, tangent := 0 },
   { xPos := 0, yPos := 16, zPos := 0, normal := 0, color := 0xFFFFFFFF, u := 0, v := -1,
     data := 0, tangent := 0 },
   { xPos := -16, yPos := 0, zPos := 0, normal := 0, color := 0xFFFFFFFF, u := 1, v := 0,
     data := 0, tangent := 0 }]

end TangentSpec

/-! ## Clamping, in the words of the specification -/

/-- The value `clamp(v, lo, hi)` on an ordered field. -/
def clamp {K : Type} [LinearOrderedField K] (v lo hi : K) : K :=
  if v < lo then lo else if hi < v then hi else v

/-- The value `clamp(v, -1, 1)` in binary32, by the comparisons of `float`;
`0xBF800000` is `-1.0f` and `0x3F800000` is `1.0f`. -/
def clampBinary32 (v : Float32) : Float32 :=
  if Float32.lt v ⟨0xBF800000⟩ then ⟨0xBF800000⟩
  else if Float32.lt ⟨0x3F800000⟩ v then ⟨0x3F800000⟩ else v

/-! ## A header given line by line -/

/-- The text of the lines `ls`, each followed by its newline. -/
def joinLines (ls : List (List Byte)) : List Byte := (ls.map (fun l => l ++ [10])).flatten

/-- The sample file with the last corner of its face changed to `536870911`
(`2 ^ 29 - 1`): the file declares three vertices. -/
def sampleFarPly : List Byte :=
  samplePly.take (samplePly.length - 4) ++ leBytes 4 536870911

/-! ## The packed tangent, in the words of the specification -/

section ClaimFormula

variable {F : Type} [FloatArith F]

/-- The packed word in the words of the specification, evaluated in the
arithmetic `F`: with `s` the L1 norm and `(x0, y0, z0) = n / s`, the point
`(x, y)` is `(x0, y0)` if `z0 ≥ 0` and
`((1 - |y0|) * sign x0, (1 - |x0|) * sign y0)` otherwise, `sign t` being `+1`
for `t ≥ 0` and `-1` otherwise; the word is `((uint16) ix << 16) | (uint16) iy`
with `ix = float_to_int16 x` and `iy = float_to_int16 y`. -/
def octahedralFormula (n : Vec3 F) : Nat :=
  let s : F := fabsf n.x + fabsf n.y + fabsf n.z
  let x0 : F := n.x / s
  let y0 : F := n.y / s
  let z0 : F := n.z / s
  let xy : F × F :=
    if fge z0 (ofInt 0) then (x0, y0)
    else ((ofInt 1 - fabsf y0) * (if fge x0 (ofInt 0) then ofInt 1 else -(ofInt 1)),
          (ofInt 1 - fabsf x0) * (if fge y0 (ofInt 0) then ofInt 1 else -(ofInt 1)))
  (toUInt16 (float_to_int16 xy.1) <<< 16) ||| toUInt16 (float_to_int16 xy.2)

end ClaimFormula

/-! # Theorems -/

/-! ## Serialisation lemmas -/

theorem byte_val (n : Nat) : (byte n).val = n % 256 := rfl

theorem byte_of_val (b : Byte) (v : Nat) : byte (b.val + 256 * v) = b := by
  apply Fin.ext
  simp [byte_val, Nat.add_mul_mod_self_left, Nat.mod_eq_of_lt b.isLt]

theorem leBytes_length (n v : Nat) : (leBytes n v).length = n := by
  induction n generalizing v with
  | zero => rfl
  | succ k ih => simp [leBytes, ih]

theorem leBytes_leValue (bs : List Byte) : leBytes bs.length (leValue bs) = bs := by
  induction bs with
  | nil => rfl
  | cons b bs ih =>
    have h : (b.val + 256 * leValue bs) / 256 = leValue bs := by
      have := b.isLt
      omega
    simp [leBytes, leValue, byte_of_val, h, ih]

theorem leBytes_bswap64 (x : Nat) : leBytes 8 (bswap64 x) = (leBytes 8 x).reverse := by
  have h := leBytes_leValue (leBytes 8 x).reverse
  simpa [bswap64, leBytes_length] using h

theorem leBytes8_reverse (x : Nat) :
    (leBytes 8 x).reverse =
      [byte (x / 2 ^ 56), byte (x / 2 ^ 48), byte (x / 2 ^ 40), byte (x / 2 ^ 32),
       byte (x / 2 ^ 24), byte (x / 2 ^ 16), byte (x / 2 ^ 8), byte x] := by
  simp [leBytes, Nat.div_div_eq_div_mul]

theorem flatten_map_length {α β : Type} (f : α → List β) (c : Nat)
    (h : ∀ a, (f a).length = c) (l : List α) : ((l.map f).flatten).length = c * l.length := by
  induction l with
  | nil => simp
  | cons a l ih => simp [ih, h, Nat.mul_succ, Nat.add_comm]

theorem flatten_map_slice {α β : Type} (f : α → List β) (c : Nat)
    (h : ∀ a, (f a).length = c) (l : List α) (i : Nat) (a : α) (hi : l[i]? = some a) :
    (((l.map f).flatten).drop (c * i)).take c = f a := by
  induction l generalizing i with
  | nil => simp at hi
  | cons b l ih =>
    cases i with
    | zero =>
      simp at hi
      subst hi
      simp [List.take_append_eq_append_take, h]
    | succ i =>
      simp at hi
      have hb : c * (i + 1) = (f b).length + c * i := by rw [h b]; ring
      simp only [List.map_cons, List.flatten_cons, hb, List.drop_append]
      exact ih i hi

section WriterFacts

variable {F : Type} [FloatRepr F]

theorem writeVertex_length (v : Vertex F) : (writeVertex v).length = 36 := by
  simp [writeVertex, leBytes_length]

theorem writeMesh_eq (mesh : Mesh F) :
    writeMesh mesh =
      headerBytes mesh.vertices_num mesh.indices_num ++
      (((mesh.vertices.take mesh.vertices_num).map writeVertex).flatten ++
       ((mesh.indices.take mesh.indices_num).map (leBytes 4)).flatten) := by
  have h8 : ∀ x, leBytes 8 (bswap64 x) =
      [byte (x / 2 ^ 56), byte (x / 2 ^ 48), byte (x / 2 ^ 40), byte (x / 2 ^ 32),
       byte (x / 2 ^ 24), byte (x / 2 ^ 16), byte (x / 2 ^ 8), byte x] := fun x => by
    rw [leBytes_bswap64, leBytes8_reverse]
  have h2 : leBytes 8 2 = [2, 0, 0, 0, 0, 0, 0, 0] := by decide
  have h1 : leBytes 8 1 = [1, 0, 0, 0, 0, 0, 0, 0] := by decide
  have h0 : leBytes 1 1 = [1] := by decide
  simp only [writeMesh, h8, h2, h1, h0, headerBytes, List.append_assoc, List.cons_append,
    List.nil_append]

theorem headerBytes_length (n m : Nat) : (headerBytes n m).length = 49 := rfl

/-- C7. Whatever the mesh, the output file opens with these 49 bytes: the
little-endian 64-bit words 2, 1, 1, 1, the byte 1, then `vertices_num` and
`indices_num` most significant byte first. Only the two counts are swapped. -/
theorem writeMesh_first_49_bytes (mesh : Mesh F) :
    (writeMesh mesh).take 49 =
      [0x02, 0x00, 0x00, 0x00, 0x00, 0x00, 0x00, 0x00,
       0x01, 0x00, 0x00, 0x00, 0x00, 0x00, 0x00, 0x00,
       0x01, 0x00, 0x00, 0x00, 0x00, 0x00, 0x00, 0x00,
       0x01, 0x00, 0x00, 0x00, 0x00, 0x00, 0x00, 0x00,
       0x01,
       byte (mesh.vertices_num / 2 ^ 56), byte (mesh.vertices_num / 2 ^ 48),
       byte (mesh.vertices_num / 2 ^ 40), byte (mesh.vertices_num / 2 ^ 32),
       byte (mesh.vertices_num / 2 ^ 24), byte (mesh.vertices_num / 2 ^ 16),
       byte (mesh.vertices_num / 2 ^ 8), byte mesh.vertices_num,
       byte (mesh.indices_num / 2 ^ 56), byte (mesh.indices_num / 2 ^ 48),
       byte (mesh.indices_num / 2 ^ 40), byte (mesh.indices_num / 2 ^ 32),
       byte (mesh.indices_num / 2 ^ 24), byte (mesh.indices_num / 2 ^ 16),
       byte (mesh.indices_num / 2 ^ 8), byte mesh.indices_num] := by
  rw [writeMesh_eq, List.take_left' (headerBytes_length _ _)]
  rfl

end WriterFacts


/-! ## The sample input, evaluated -/

set_option maxRecDepth 100000 in
theorem import_samplePly : import_ply [] (some samplePly) = .mesh sampleMesh := by
  decide

section WriterLayout

variable {F : Type} [FloatRepr F]

/-- C9. For a mesh with `n` vertices and `n` indices the output file is
`49 + 36 * n + 4 * n` bytes long; vertex `i` is the 36 bytes at offset
`49 + 36 * i`, its nine fields four bytes each in declaration order; index `i`
is the four little-endian bytes at offset `49 + 36 * n + 4 * i`. -/
theorem writeMesh_layout (mesh : Mesh F) (n : Nat)
    (hvn : mesh.vertices_num = n) (hin : mesh.indices_num = n)
    (hvl : mesh.vertices.length = n) (hil : mesh.indices.length = n) :
    (writeMesh mesh).length = 49 + 36 * n + 4 * n ∧
    (∀ i v, mesh.vertices[i]? = some v →
      ((writeMesh mesh).drop (49 + 36 * i)).take 36 =
        leBytes 4 (toBits v.xPos) ++ leBytes 4 (toBits v.yPos) ++ leBytes 4 (toBits v.zPos) ++
        leBytes 4 v.normal ++ leBytes 4 v.color ++
        leBytes 4 (toBits v.u) ++ leBytes 4 (toBits v.v) ++
        leBytes 4 v.data ++ leBytes 4 v.tangent) ∧
    (∀ i x, mesh.indices[i]? = some x →
      ((writeMesh mesh).drop (49 + 36 * n + 4 * i)).take 4 =
        [byte x, byte (x / 2 ^ 8), byte (x / 2 ^ 16), byte (x / 2 ^ 24)]) := by
  have hv : mesh.vertices.take mesh.vertices_num = mesh.vertices := by
    rw [hvn, ← hvl, List.take_length]
  have hi : mesh.indices.take mesh.indices_num = mesh.indices := by
    rw [hin, ← hil, List.take_length]
  have hlen36 := flatten_map_length (writeVertex (F := F)) 36 writeVertex_length mesh.vertices
  have hlen4 := flatten_map_length (leBytes 4) 4 (leBytes_length 4) mesh.indices
  rw [writeMesh_eq, hv, hi]
  refine ⟨?_, ?_, ?_⟩
  · simp only [List.length_append, headerBytes_length, hlen36, hlen4, hvl, hil]
    omega
  · intro i v hiv
    have hlt : i < mesh.vertices.length := by
      rcases List.getElem?_eq_some_iff.mp hiv with ⟨h, _⟩
      exact h
    have h1 : 49 + 36 * i = (headerBytes mesh.vertices_num mesh.indices_num).length + 36 * i := by
      rw [headerBytes_length]
    have h2 : 36 * i ≤ (mesh.vertices.map writeVertex).flatten.length := by
      rw [hlen36]; omega
    rw [h1, List.drop_append, List.drop_append_of_le_length h2, List.take_append_of_le_length,
      flatten_map_slice writeVertex 36 writeVertex_length _ i v hiv]
    · rfl
    · rw [List.length_drop, hlen36]
      omega
  · intro i x hix
    have h1 : 49 + 36 * n + 4 * i =
        (headerBytes mesh.vertices_num mesh.indices_num).length +
          ((mesh.vertices.map writeVertex).flatten.length + 4 * i) := by
      rw [headerBytes_length, hlen36, hvl]
      ring
    rw [h1, List.drop_append, List.drop_append,
      flatten_map_slice (leBytes 4) 4 (leBytes_length 4) _ i x hix]
    simp [leBytes, Nat.div_div_eq_div_mul]

end WriterLayout

/-- C9, at the sample mesh. -/
theorem writeMesh_layout_witness :
    sampleMesh.vertices_num = 3 ∧ sampleMesh.indices_num = 3 ∧
    sampleMesh.vertices.length = 3 ∧ sampleMesh.indices.length = 3 ∧
    (writeMesh sampleMesh).length = 49 + 36 * 3 + 4 * 3 :=
  ⟨rfl, rfl, rfl, rfl, (writeMesh_layout sampleMesh 3 rfl rfl rfl rfl).1⟩


set_option maxRecDepth 100000 in
/-- C8, as the specification states it, fails: the output written for the
sample triangle does not open with the word `02 00 00 00 00 00 00 00` four
times; the second, third and fourth word are `01 00 00 00 00 00 00 00`. -/
theorem first_33_bytes_not_four_twos :
    main Float32 3 [] (some samplePly) true = .exit 0 [] (some (writeMesh sampleMesh)) ∧
    (writeMesh sampleMesh).take 33 ≠
      [0x02, 0x00, 0x00, 0x00, 0x00, 0x00, 0x00, 0x00,
       0x02, 0x00, 0x00, 0x00, 0x00, 0x00, 0x00, 0x00,
       0x02, 0x00, 0x00, 0x00, 0x00, 0x00, 0x00, 0x00,
       0x02, 0x00, 0x00, 0x00, 0x00, 0x00, 0x00, 0x00,
       0x01] := by
  constructor
  · simp only [main, import_samplePly]
    decide
  · decide

section WriterMinimal

variable {F : Type} [FloatRepr F]

/-- C8, amended. For a mesh of one triangle (three vertices, three indices)
the first 33 bytes of the output are the little-endian 64-bit words 2, 1, 1, 1
and the byte 1; the next 16 bytes are the two counts, most significant byte
first. -/
theorem writeMesh_first_33_bytes (mesh : Mesh F)
    (hvn : mesh.vertices_num = 3) (hin : mesh.indices_num = 3) :
    (writeMesh mesh).take 33 =
      [0x02, 0x00, 0x00, 0x00, 0x00, 0x00, 0x00, 0x00,
       0x01, 0x00, 0x00, 0x00, 0x00, 0x00, 0x00, 0x00,
       0x01, 0x00, 0x00, 0x00, 0x00, 0x00, 0x00, 0x00,
       0x01, 0x00, 0x00, 0x00, 0x00, 0x00, 0x00, 0x00,
       0x01] ∧
    ((writeMesh mesh).drop 33).take 16 =
      [0x00, 0x00, 0x00, 0x00, 0x00, 0x00, 0x00, 0x03,
       0x00, 0x00, 0x00, 0x00, 0x00, 0x00, 0x00, 0x03] := by
  rw [writeMesh_eq, hvn, hin]
  exact ⟨rfl, rfl⟩

end WriterMinimal

/-- C8, amended, at the sample mesh. -/
theorem writeMesh_first_33_bytes_witness :
    sampleMesh.vertices_num = 3 ∧ sampleMesh.indices_num = 3 ∧
    (writeMesh sampleMesh).take 33 =
      [0x02, 0x00, 0x00, 0x00, 0x00, 0x00, 0x00, 0x00,
       0x01, 0x00, 0x00, 0x00, 0x00, 0x00, 0x00, 0x00,
       0x01, 0x00, 0x00, 0x00, 0x00, 0x00, 0x00, 0x00,
       0x01, 0x00, 0x00, 0x00, 0x00, 0x00, 0x00, 0x00,
       0x01] :=
  ⟨rfl, rfl, (writeMesh_first_33_bytes sampleMesh rfl rfl).1⟩


/-! ## The face records -/

theorem fread_4_3 (fp : List Byte) (h : 12 ≤ fp.length) :
    fread 4 3 fp = ([fp.take 4, (fp.drop 4).take 4, (fp.drop 8).take 4], fp.drop 12) := by
  have h1 : 4 ≤ fp.length := by omega
  have h2 : 4 ≤ (fp.drop 4).length := by rw [List.length_drop]; omega
  have h3 : 4 ≤ (fp.drop (4 + 4)).length := by rw [List.length_drop]; omega
  simp only [fread, freadItems, h1, h2, h3, if_true, List.drop_drop]

theorem cornerAt_cons_zero (c : Byte) (fp : List Byte) (j : Nat) :
    cornerAt (c :: fp) 0 j = leValue ((fp.drop (4 * j)).take 4) := by
  simp [cornerAt, Nat.add_comm 1]

theorem cornerAt_drop (faces : List Byte) (k j : Nat) :
    cornerAt (faces.drop 13) k j = cornerAt faces (k + 1) j := by
  simp only [cornerAt, List.drop_drop]
  congr 3
  omega

theorem swappedCorners_succ (faces : List Byte) (n : Nat) :
    swappedCorners faces (n + 1) =
      [cornerAt faces 0 0, cornerAt faces 0 2, cornerAt faces 0 1] ++
        swappedCorners (faces.drop 13) n := by
  simp only [swappedCorners, List.range_succ_eq_map, List.flatMap_cons, List.flatMap_map,
    cornerAt_drop]

theorem swappedCorners_length (faces : List Byte) (n : Nat) :
    (swappedCorners faces n).length = 3 * n := by
  induction n generalizing faces with
  | zero => rfl
  | succ n ih => rw [swappedCorners_succ, List.length_append, ih]; simp; omega

/-- Entry `3 * k + j` of the expanded index stream. -/
theorem swappedCorners_get (faces : List Byte) (n k : Nat) (hk : k < n) :
    (swappedCorners faces n)[3 * k]? = some (cornerAt faces k 0) ∧
    (swappedCorners faces n)[3 * k + 1]? = some (cornerAt faces k 2) ∧
    (swappedCorners faces n)[3 * k + 2]? = some (cornerAt faces k 1) := by
  induction n generalizing faces k with
  | zero => omega
  | succ n ih =>
    rw [swappedCorners_succ]
    cases k with
    | zero => simp
    | succ k =>
      have h := ih (faces.drop 13) k (by omega)
      simp only [cornerAt_drop] at h
      have e0 : 3 * (k + 1) = 3 * k + 3 := by ring
      have e1 : 3 * (k + 1) + 1 = 3 * k + 1 + 3 := by ring
      have e2 : 3 * (k + 1) + 2 = 3 * k + 2 + 3 := by ring
      rw [e1, e2, e0]
      simpa [List.getElem?_append_right] using h

/-- The loop over the face records runs to its end on `n` complete triangle
records. -/
theorem readFaces_triangles (n : Nat) (faces : List Byte) (acc : List Nat)
    (hlen : 13 * n ≤ faces.length) (htri : ∀ k, k < n → faces[13 * k]? = some 3) :
    readFaces n faces acc = .indices (acc ++ swappedCorners faces n) := by
  induction n generalizing faces acc with
  | zero => simp [readFaces, swappedCorners]
  | succ n ih =>
    match faces, hlen, htri with
    | [], hlen, _ => simp at hlen
    | c :: fp, hlen, htri =>
      have hc : c = 3 := by simpa using htri 0 (by omega)
      have h12 : 12 ≤ fp.length := by simp at hlen; omega
      have hlen' : 13 * n ≤ (fp.drop 12).length := by
        simp at hlen; rw [List.length_drop]; omega
      have htri' : ∀ k, k < n → (fp.drop 12)[13 * k]? = some 3 := by
        intro k hk
        have := htri (k + 1) (by omega)
        have e : 13 * (k + 1) = (12 + 13 * k) + 1 := by ring
        rw [e, List.getElem?_cons_succ] at this
        rw [List.getElem?_drop]
        exact this
      rw [readFaces, if_neg (by simp [hc]), fread_4_3 fp h12]
      simp only
      rw [ih (fp.drop 12) _ hlen' htri', swappedCorners_succ]
      simp [cornerAt_cons_zero, List.append_assoc]

section BuildFacts

variable {F : Type} [FloatArith F]

/-- What `initVertex` returns, when it returns: the vertex built from the five
floats at `base = idx * 8 % 2 ^ 32`. -/
theorem initVertex_some (raw : List F) (idx : Nat) (v : Vertex F)
    (h : initVertex raw idx = some v) :
    ∃ b0 b1 b2 b6 b7,
      raw[idx * 8 % 2 ^ 32]? = some b0 ∧ raw[idx * 8 % 2 ^ 32 + 1]? = some b1 ∧
      raw[idx * 8 % 2 ^ 32 + 2]? = some b2 ∧ raw[idx * 8 % 2 ^ 32 + 6]? = some b6 ∧
      raw[idx * 8 % 2 ^ 32 + 7]? = some b7 ∧
      v = { xPos := -b0 * ofInt 16, yPos := b1 * ofInt 16, zPos := b2 * ofInt 16,
            u := b6, v := -b7, color := 0xFFFFFFFF, data := 0, normal := 0, tangent := 0 } := by
  unfold initVertex at h
  simp only at h
  split at h
  · rename_i b0 b1 b2 b6 b7 h0 h1 h2 h6 h7
    exact ⟨b0, b1, b2, b6, b7, h0, h1, h2, h6, h7, (Option.some.inj h).symm⟩
  · cases h

/-- The reads of `initVertex` are inside `raw` as soon as the last one is. -/
theorem initVertex_inBounds (raw : List F) (idx : Nat)
    (h : idx * 8 % 2 ^ 32 + 7 < raw.length) : ∃ v, initVertex raw idx = some v := by
  have g : ∀ k, k ≤ 7 → ∃ b, raw[idx * 8 % 2 ^ 32 + k]? = some b := fun k hk =>
    ⟨raw[idx * 8 % 2 ^ 32 + k], List.getElem?_eq_getElem (by omega)⟩
  obtain ⟨b0, h0⟩ := g 0 (by omega)
  obtain ⟨b1, h1⟩ := g 1 (by omega)
  obtain ⟨b2, h2⟩ := g 2 (by omega)
  obtain ⟨b6, h6⟩ := g 6 (by omega)
  obtain ⟨b7, h7⟩ := g 7 (by omega)
  rw [Nat.add_zero] at h0
  exact ⟨{ xPos := -b0 * ofInt 16, yPos := b1 * ofInt 16, zPos := b2 * ofInt 16,
           u := b6, v := -b7, color := 0xFFFFFFFF, data := 0, normal := 0, tangent := 0 },
    by simp only [initVertex, h0, h1, h2, h6, h7]⟩

theorem initVertices_inBounds (raw : List F) (fi : List Nat)
    (h : ∀ idx, idx ∈ fi → idx * 8 % 2 ^ 32 + 7 < raw.length) :
    ∃ vs, initVertices raw fi = some vs := by
  induction fi with
  | nil => exact ⟨[], rfl⟩
  | cons idx rest ih =>
    obtain ⟨v, hv⟩ := initVertex_inBounds raw idx (h idx (by simp))
    obtain ⟨vs, hvs⟩ := ih (fun i hi => h i (by simp [hi]))
    exact ⟨v :: vs, by simp only [initVertices, hv, hvs]⟩

theorem initVertices_get (raw : List F) (fi : List Nat) (vs : List (Vertex F))
    (h : initVertices raw fi = some vs) :
    vs.length = fi.length ∧
    ∀ (i idx : Nat), fi[i]? = some idx →
      ∃ v, vs[i]? = some v ∧ initVertex raw idx = some v := by
  induction fi generalizing vs with
  | nil =>
    simp only [initVertices, Option.some.injEq] at h
    subst h
    simp
  | cons idx rest ih =>
    unfold initVertices at h
    split at h
    · rename_i v vs' hv hvs
      cases h
      obtain ⟨hl, hg⟩ := ih vs' hvs
      refine ⟨by simp [hl], ?_⟩
      intro i j hij
      cases i with
      | zero =>
        simp at hij
        subst hij
        exact ⟨v, by simp, hv⟩
      | succ i =>
        simp at hij
        simpa using hg i j hij
    · cases h

theorem faceLoop_fst (vs : List (Vertex F)) :
    (faceLoop vs).1.length = vs.length ∧
    ∀ (i : Nat) (v : Vertex F), vs[i]? = some v →
      ∃ n, (faceLoop vs).1[i]? = some { v with normal := n } := by
  induction vs using faceLoop.induct with
  | case1 v0 v1 v2 rest ih =>
    obtain ⟨hl, hg⟩ := ih
    refine ⟨by simp [faceLoop, hl], ?_⟩
    intro i v hi
    match i, hi with
    | 0, hi => simp at hi; subst hi; exact ⟨faceNormal v0 v1 v2, by simp [faceLoop]⟩
    | 1, hi => simp at hi; subst hi; exact ⟨faceNormal v0 v1 v2, by simp [faceLoop]⟩
    | 2, hi => simp at hi; subst hi; exact ⟨faceNormal v0 v1 v2, by simp [faceLoop]⟩
    | i + 3, hi =>
      simp at hi
      obtain ⟨n, hn⟩ := hg i v hi
      exact ⟨n, by simpa [faceLoop] using hn⟩
  | case2 vs hvs =>
    have e : faceLoop vs = (vs, []) := by
      unfold faceLoop
      split
      · exact absurd rfl (hvs _ _ _ _)
      · rfl
    rw [e]
    refine ⟨rfl, ?_⟩
    intro i v hi
    exact ⟨v.normal, by simpa using hi⟩

theorem faceLoop_snd_length (vs : List (Vertex F)) (h : vs.length % 3 = 0) :
    (faceLoop vs).2.length = vs.length := by
  induction vs using faceLoop.induct with
  | case1 v0 v1 v2 rest ih =>
    have h' : rest.length % 3 = 0 := by simp at h; omega
    simp [faceLoop, ih h']
  | case2 vs hvs =>
    match vs, hvs, h with
    | [], _, _ => simp [faceLoop]
    | [_], _, h => simp at h
    | [_, _], _, h => simp at h
    | v0 :: v1 :: v2 :: rest, hvs, _ => exact absurd rfl (hvs v0 v1 v2 rest)

theorem packTangents_get (vs : List (Vertex F)) (ts : List (Vec3 F)) (h : ts.length = vs.length) :
    (packTangents vs ts).length = vs.length ∧
    ∀ (i : Nat) (v : Vertex F), vs[i]? = some v →
      ∃ t, (packTangents vs ts)[i]? = some { v with tangent := t } := by
  refine ⟨by simp [packTangents, h], ?_⟩
  intro i v hi
  have hlt : i < ts.length := by
    rcases List.getElem?_eq_some_iff.mp hi with ⟨hlt, _⟩
    omega
  refine ⟨encode_octahedral ts[i], ?_⟩
  simp [packTangents, List.getElem?_zipWith, hi, List.getElem?_eq_getElem hlt]

end BuildFacts


/-- When the loop over the face records runs to its end, the stream held `n`
complete records, all triangles. -/
theorem readFaces_indices (n : Nat) (faces : List Byte) (acc fi : List Nat)
    (h : readFaces n faces acc = .indices fi) :
    13 * n ≤ faces.length ∧ (∀ k, k < n → faces[13 * k]? = some 3) ∧
    fi = acc ++ swappedCorners faces n := by
  induction n generalizing faces acc with
  | zero =>
    simp only [readFaces, FaceRead.indices.injEq] at h
    subst h
    exact ⟨by omega, fun k hk => by omega, by simp [swappedCorners]⟩
  | succ n ih =>
    match faces, h with
    | [], h => simp [readFaces] at h
    | c :: fp, h =>
      rw [readFaces] at h
      split at h
      · cases h
      · rename_i hc
        have hc3 : c = 3 := by simpa using hc
        by_cases h12 : 12 ≤ fp.length
        · rw [fread_4_3 fp h12] at h
          simp only at h
          obtain ⟨hl, ht, hf⟩ := ih (fp.drop 12) _ h
          rw [List.length_drop] at hl
          refine ⟨by simp; omega, ?_, ?_⟩
          · intro k hk
            cases k with
            | zero => simp [hc3]
            | succ k =>
              have := ht k (by omega)
              rw [List.getElem?_drop] at this
              have e : 13 * (k + 1) = (12 + 13 * k) + 1 := by ring
              rw [e, List.getElem?_cons_succ]
              exact this
          · rw [hf, swappedCorners_succ]
            simp [cornerAt_cons_zero, List.append_assoc]
        · exfalso
          have hshort : (freadItems 4 3 fp).length < 3 := by
            simp only [freadItems]
            split
            · split
              · split
                · rename_i h1 h2 h3
                  rw [List.length_drop] at h2
                  rw [List.length_drop, List.length_drop] at h3
                  omega
                · simp
              · simp
            · simp
          revert h
          simp only [fread]
          split
          · rename_i i0 i1 i2 fp' heq
            have := congrArg (fun p => p.1.length) heq
            simp at this
            omega
          · intro h; cases h

section BuildMeshFacts

variable {F : Type} [FloatArith F]

/-- What `buildMesh` returns, when it returns. -/
theorem buildMesh_some (raw : List F) (fi : List Nat) (m : Mesh F)
    (h : buildMesh raw fi = some m) :
    m.vertices_num = fi.length ∧ m.indices_num = fi.length ∧
    m.indices = (List.range fi.length).map (fun i => i % 2 ^ 32) ∧
    (fi.length % 3 = 0 →
      m.vertices.length = fi.length ∧
      ∀ (i idx : Nat), fi[i]? = some idx →
        ∃ v0 n t, initVertex raw idx = some v0 ∧
          m.vertices[i]? = some { v0 with normal := n, tangent := t }) := by
  unfold buildMesh at h
  simp only at h
  split at h
  · cases h
  · rename_i vs hvs
    cases h
    obtain ⟨hl, hg⟩ := initVertices_get raw fi vs hvs
    refine ⟨rfl, rfl, rfl, ?_⟩
    intro h3
    obtain ⟨hfl, hfg⟩ := faceLoop_fst vs
    have hts : (faceLoop vs).2.length = (faceLoop vs).1.length := by
      rw [faceLoop_snd_length vs (by rw [hl]; exact h3), hfl]
    obtain ⟨hpl, hpg⟩ := packTangents_get (faceLoop vs).1 (faceLoop vs).2 hts
    refine ⟨by simp only [hpl, hfl, hl], ?_⟩
    intro i idx hi
    obtain ⟨v0, hv0, hinit⟩ := hg i idx hi
    obtain ⟨n, hn⟩ := hfg i v0 hv0
    obtain ⟨t, ht⟩ := hpg i _ hn
    exact ⟨v0, n, t, hinit, ht⟩

theorem buildMesh_inBounds (raw : List F) (fi : List Nat)
    (h : ∀ idx, idx ∈ fi → idx * 8 % 2 ^ 32 + 7 < raw.length) :
    ∃ m, buildMesh raw fi = some m := by
  obtain ⟨vs, hvs⟩ := initVertices_inBounds raw fi h
  refine ⟨{ vertices_num := fi.length, indices_num := fi.length,
             vertices := packTangents (faceLoop vs).1 (faceLoop vs).2,
             indices := (List.range fi.length).map (fun i => i % 2 ^ 32) }, ?_⟩
  simp only [buildMesh, hvs]

end BuildMeshFacts


/-! ## `import_ply`, stage by stage -/

theorem freadItems_length (size count : Nat) (fp : List Byte) (hs : 0 < size) :
    (freadItems size count fp).length = min count (fp.length / size) := by
  induction count generalizing fp with
  | zero => simp [freadItems]
  | succ n ih =>
    unfold freadItems
    split
    · rename_i h
      rw [List.length_cons, ih, List.length_drop]
      have h1 : fp.length / size = (fp.length - size) / size + 1 := by
        rw [← Nat.sub_add_cancel h, Nat.add_sub_cancel, Nat.add_div_right _ hs]
      omega
    · rename_i h
      have : fp.length / size = 0 := Nat.div_eq_of_lt (by omega)
      simp [this]

/-- The raw vertex block holds as many floats as were asked for, unless the file
ends first. -/
theorem rawCount_eq (N : Nat) (data : List Byte) :
    rawCount N data = min (N * 8 % 2 ^ 64) (data.length / 4) :=
  freadItems_length 4 _ data (by decide)

theorem mem_swappedCorners (faces : List Byte) (n idx : Nat)
    (h : idx ∈ swappedCorners faces n) :
    ∃ k j, k < n ∧ j < 3 ∧ idx = cornerAt faces k j := by
  simp only [swappedCorners, List.mem_flatMap, List.mem_range] at h
  obtain ⟨k, hk, hmem⟩ := h
  simp only [List.mem_cons, List.mem_singleton, List.not_mem_nil, or_false] at hmem
  rcases hmem with h0 | h2 | h1
  · exact ⟨k, 0, hk, by omega, h0⟩
  · exact ⟨k, 2, hk, by omega, h2⟩
  · exact ⟨k, 1, hk, by omega, h1⟩

theorem readRaw_length {F : Type} [FloatRepr F] (N : Nat) (data : List Byte) :
    ((readRaw N data).1 : List F).length = rawCount N data := by
  simp [readRaw, fread, rawCount]

section ImportFacts

variable {F : Type} [FloatArith F] [FloatRepr F]

/-- What `import_ply` does once the format check has passed and the header is read. -/
theorem import_ply_of_header (buff0 fp body data : List Byte) (N nf : Nat)
    (hfmt : checkFormat buff0 fp = .passed body) (hhdr : readHeader body = (N, nf, data)) :
    (import_ply buff0 (some fp) : ImportResult F) =
      match readFaces nf (faceStream N data) [] with
      | .truncated => .undefined
      | .notTriangle => .null .onlyTriangles
      | .indices face_indices =>
        match buildMesh (readRaw N data).1 face_indices with
        | none => .undefined
        | some mesh => .mesh mesh := by
  simp only [import_ply, hfmt, hhdr]
  rfl

/-- A mesh returned by `import_ply` comes from a file that passed the format
check and held all the face records its header announced, all triangles. -/
theorem import_ply_mesh (buff0 : List Byte) (file : Option (List Byte)) (m : Mesh F)
    (h : import_ply buff0 file = .mesh m) :
    ∃ fp body, file = some fp ∧ checkFormat buff0 fp = .passed body ∧
      buildMesh ((readRaw (readHeader body).1 (readHeader body).2.2).1 : List F)
        (swappedCorners (faceStream (readHeader body).1 (readHeader body).2.2)
          (readHeader body).2.1) = some m := by
  match file, h with
  | some fp, h =>
    match hfmt : checkFormat buff0 fp with
    | .failed msg => simp [import_ply, hfmt] at h
    | .passed body =>
      refine ⟨fp, body, rfl, hfmt, ?_⟩
      rw [import_ply_of_header buff0 fp body (readHeader body).2.2 (readHeader body).1
        (readHeader body).2.1 hfmt rfl] at h
      split at h
      · cases h
      · cases h
      · rename_i fi hfi
        obtain ⟨_, _, hfi'⟩ := readFaces_indices _ _ _ _ hfi
        rw [List.nil_append] at hfi'
        subst hfi'
        split at h
        · cases h
        · rename_i mesh hm
          cases h
          exact hm

end ImportFacts


section ImportClaims

variable {F : Type} [FloatArith F] [FloatRepr F]

/-- On a file that passes the format check, whose header announces `nf` faces,
that holds `nf` complete triangle records whose corners all address floats
read into the raw vertex block, `import_ply` returns the mesh that `buildMesh`
makes of the raw block and of the corners in swapped order. -/
theorem import_ply_triangles (buff0 fp body data : List Byte) (N nf : Nat)
    (hfmt : checkFormat buff0 fp = .passed body)
    (hhdr : readHeader body = (N, nf, data))
    (hlen : 13 * nf ≤ (faceStream N data).length)
    (htri : ∀ k, k < nf → (faceStream N data)[13 * k]? = some 3)
    (hidx : ∀ k, k < nf → ∀ j, j < 3 →
      cornerAt (faceStream N data) k j * 8 % 2 ^ 32 + 7 < rawCount N data) :
    ∃ m : Mesh F, import_ply buff0 (some fp) = .mesh m ∧
      buildMesh ((readRaw N data).1 : List F) (swappedCorners (faceStream N data) nf) = some m := by
  have hb : ∀ idx, idx ∈ swappedCorners (faceStream N data) nf →
      idx * 8 % 2 ^ 32 + 7 < ((readRaw N data).1 : List F).length := by
    intro idx hmem
    obtain ⟨k, j, hk, hj, rfl⟩ := mem_swappedCorners _ _ _ hmem
    rw [readRaw_length]
    exact hidx k hk j hj
  obtain ⟨m, hm⟩ := buildMesh_inBounds _ _ hb
  refine ⟨m, ?_, hm⟩
  rw [import_ply_of_header buff0 fp body data N nf hfmt hhdr,
    readFaces_triangles nf _ [] hlen htri]
  simp only [List.nil_append, hm]

end ImportClaims

section WindingClaims

variable {F : Type} [FloatArith F] [FloatRepr F]

end WindingClaims


section IndexClaims

variable {F : Type} [FloatArith F] [FloatRepr F]

/-- C2, amended. In every mesh `import_ply` returns, the index array has
`indices_num` entries and entry `i` is `i` reduced to 32 bits; it is `i` itself
for every `i` below `2 ^ 32`. -/
theorem import_ply_indices (buff0 : List Byte) (file : Option (List Byte)) (m : Mesh F)
    (h : import_ply buff0 file = .mesh m) :
    m.indices.length = m.indices_num ∧
    ∀ i, i < m.indices_num →
      m.indices[i]? = some (i % 2 ^ 32) ∧ (i < 2 ^ 32 → m.indices[i]? = some i) := by
  obtain ⟨fp, body, -, -, hm⟩ := import_ply_mesh buff0 file m h
  obtain ⟨-, hi, hind, -⟩ := buildMesh_some _ _ m hm
  rw [hi, hind]
  refine ⟨by simp, ?_⟩
  intro i hlt
  have h1 : ((List.range (swappedCorners (faceStream (readHeader body).1 (readHeader body).2.2)
      (readHeader body).2.1).length).map (fun i => i % 2 ^ 32))[i]? = some (i % 2 ^ 32) := by
    rw [List.getElem?_map, List.getElem?_range hlt]
    rfl
  refine ⟨h1, ?_⟩
  intro h32
  rw [h1, Nat.mod_eq_of_lt h32]

end IndexClaims

/-- C2, amended, at the sample file. -/
theorem import_ply_indices_witness :
    (import_ply [] (some samplePly) : ImportResult Float32) = .mesh sampleMesh ∧
    sampleMesh.indices.length = sampleMesh.indices_num ∧
    ∀ i, i < sampleMesh.indices_num →
      sampleMesh.indices[i]? = some (i % 2 ^ 32) ∧
        (i < 2 ^ 32 → sampleMesh.indices[i]? = some i) :=
  ⟨import_samplePly, import_ply_indices [] (some samplePly) sampleMesh import_samplePly⟩

section ExpansionClaims

variable {F : Type} [FloatArith F]

/-- The vertex `initVertex` builds from an index below `2 ^ 29`: position and
texture coordinates come from the `idx`-th record of eight floats. -/
theorem initVertex_record (raw : List F) (idx : Nat) (v : Vertex F)
    (h : initVertex raw idx = some v) (hidx : idx < 2 ^ 29) :
    ∃ rawX rawY rawZ rawU rawV,
      raw[8 * idx]? = some rawX ∧ raw[8 * idx + 1]? = some rawY ∧
      raw[8 * idx + 2]? = some rawZ ∧ raw[8 * idx + 6]? = some rawU ∧
      raw[8 * idx + 7]? = some rawV ∧
      v.xPos = -rawX * ofInt 16 ∧ v.yPos = rawY * ofInt 16 ∧ v.zPos = rawZ * ofInt 16 ∧
      v.u = rawU ∧ v.v = -rawV ∧ v.color = 0xFFFFFFFF ∧ v.data = 0 := by
  obtain ⟨b0, b1, b2, b6, b7, h0, h1, h2, h6, h7, hv⟩ := initVertex_some raw idx v h
  have hb : idx * 8 % 2 ^ 32 = 8 * idx := by
    rw [Nat.mod_eq_of_lt (by omega)]
    omega
  rw [hb] at h0 h1 h2 h6 h7
  subst hv
  exact ⟨b0, b1, b2, b6, b7, h0, h1, h2, h6, h7, rfl, rfl, rfl, rfl, rfl, rfl, rfl⟩

/-- The product `idx * 8` wraps at 32 bits: the index `2 ^ 29` is expanded from
the floats at offset `0`. -/
theorem initVertex_index_wraps (raw : List F) :
    initVertex raw 536870912 = initVertex raw 0 := rfl

/-- The floats 3, 4, 5 of the raw records (the normal stored in the file) are
never read: two raw blocks that agree elsewhere give the same vertex. -/
theorem initVertex_ignores_normal (raw raw' : List F) (idx : Nat)
    (h : ∀ p, p % 8 ≠ 3 → p % 8 ≠ 4 → p % 8 ≠ 5 → raw[p]? = raw'[p]?) :
    initVertex raw idx = initVertex raw' idx := by
  have hb : idx * 8 % 2 ^ 32 % 8 = 0 := by omega
  have h0 := h (idx * 8 % 2 ^ 32) (by omega) (by omega) (by omega)
  have h1 := h (idx * 8 % 2 ^ 32 + 1) (by omega) (by omega) (by omega)
  have h2 := h (idx * 8 % 2 ^ 32 + 2) (by omega) (by omega) (by omega)
  have h6 := h (idx * 8 % 2 ^ 32 + 6) (by omega) (by omega) (by omega)
  have h7 := h (idx * 8 % 2 ^ 32 + 7) (by omega) (by omega) (by omega)
  simp only [initVertex, h0, h1, h2, h6, h7]

theorem initVertices_ignores_normal (raw raw' : List F) (fi : List Nat)
    (h : ∀ p, p % 8 ≠ 3 → p % 8 ≠ 4 → p % 8 ≠ 5 → raw[p]? = raw'[p]?) :
    initVertices raw fi = initVertices raw' fi := by
  induction fi with
  | nil => rfl
  | cons idx rest ih => simp only [initVertices, initVertex_ignores_normal raw raw' idx h, ih]

/-- The mesh does not depend on the normals stored in the file. -/
theorem buildMesh_ignores_normal (raw raw' : List F) (fi : List Nat)
    (h : ∀ p, p % 8 ≠ 3 → p % 8 ≠ 4 → p % 8 ≠ 5 → raw[p]? = raw'[p]?) :
    buildMesh raw fi = buildMesh raw' fi := by
  simp only [buildMesh, initVertices_ignores_normal raw raw' fi h]

end ExpansionClaims


section ExpansionImport

variable {F : Type} [FloatArith F] [FloatRepr F]

/-- The expansion through `import_ply`, for corner indices below `2 ^ 29`: on a
file as in C1, output vertex `i` has the position and texture coordinates of the
raw record that entry `i` of `face_indices` names, transformed as in lines
151-157. -/
theorem import_ply_expansion (buff0 fp body data : List Byte) (N nf : Nat)
    (hfmt : checkFormat buff0 fp = .passed body)
    (hhdr : readHeader body = (N, nf, data))
    (hlen : 13 * nf ≤ (faceStream N data).length)
    (htri : ∀ k, k < nf → (faceStream N data)[13 * k]? = some 3)
    (hidx : ∀ k, k < nf → ∀ j, j < 3 →
      cornerAt (faceStream N data) k j * 8 % 2 ^ 32 + 7 < rawCount N data) :
    ∃ m : Mesh F, import_ply buff0 (some fp) = .mesh m ∧
      ∀ (i idx : Nat), (swappedCorners (faceStream N data) nf)[i]? = some idx → idx < 2 ^ 29 →
        ∃ rawX rawY rawZ rawU rawV v,
          ((readRaw N data).1 : List F)[8 * idx]? = some rawX ∧
          ((readRaw N data).1 : List F)[8 * idx + 1]? = some rawY ∧
          ((readRaw N data).1 : List F)[8 * idx + 2]? = some rawZ ∧
          ((readRaw N data).1 : List F)[8 * idx + 6]? = some rawU ∧
          ((readRaw N data).1 : List F)[8 * idx + 7]? = some rawV ∧
          m.vertices[i]? = some v ∧
          v.xPos = -rawX * ofInt 16 ∧ v.yPos = rawY * ofInt 16 ∧ v.zPos = rawZ * ofInt 16 ∧
          v.u = rawU ∧ v.v = -rawV ∧ v.color = 0xFFFFFFFF ∧ v.data = 0 := by
  obtain ⟨m, him, hm⟩ :=
    (import_ply_triangles buff0 fp body data N nf hfmt hhdr hlen htri hidx :
      ∃ m : Mesh F, _ ∧ _)
  obtain ⟨-, -, -, hrest⟩ := buildMesh_some _ _ m hm
  have h3 : (swappedCorners (faceStream N data) nf).length = 3 * nf := swappedCorners_length _ _
  obtain ⟨-, hget⟩ := hrest (by omega)
  refine ⟨m, him, ?_⟩
  intro i idx hi h29
  obtain ⟨v0, n, t, hv0, hmv⟩ := hget i idx hi
  obtain ⟨rawX, rawY, rawZ, rawU, rawV, g0, g1, g2, g6, g7, e⟩ :=
    initVertex_record _ idx v0 hv0 h29
  exact ⟨rawX, rawY, rawZ, rawU, rawV, _, g0, g1, g2, g6, g7, hmv, e⟩

end ExpansionImport

/-! ## `fgets` and the format check -/

theorem fgetsAux_takeWhile (n : Nat) (fp : List Byte) :
    (fgetsAux n fp).1.takeWhile (fun c => c ≠ 10) = (firstLine fp).take n := by
  induction n generalizing fp with
  | zero => simp [fgetsAux]
  | succ n ih =>
    cases fp with
    | nil => simp [fgetsAux, firstLine]
    | cons c fp =>
      by_cases hc : c = 10
      · simp [fgetsAux, firstLine, hc]
      · have := ih fp
        simp only [firstLine] at this
        simpa [fgetsAux, firstLine, hc] using this

theorem fgetsAux_rest (n : Nat) (fp : List Byte) (h : (firstLine fp).length < n) :
    (fgetsAux n fp).2 = afterFirstLine fp := by
  induction n generalizing fp with
  | zero => omega
  | succ n ih =>
    cases fp with
    | nil => simp [fgetsAux, afterFirstLine]
    | cons c fp =>
      by_cases hc : c = 10
      · simp [fgetsAux, afterFirstLine, hc]
      · have h' : (firstLine fp).length < n := by
          simp [firstLine, hc] at h
          simpa [firstLine] using h
        have := ih fp h'
        simp only [afterFirstLine] at this
        simpa [fgetsAux, afterFirstLine, hc] using this

/-- The cut `buff[strcspn(buff, "\n")] = 0` leaves the C string that ends at the first
NUL or newline of the buffer. -/
theorem cstr_cut (buff : List Byte) :
    cstr (buff.take (strcspn buff (str "\n"))) =
      (buff.takeWhile (fun c => c ≠ 10)).takeWhile (fun c => c ≠ 0) := by
  have hs : str "\n" = [10] := by decide
  rw [hs]
  induction buff with
  | nil => simp [cstr, strcspn]
  | cons c buff ih =>
    by_cases h0 : c = 0
    · simp [cstr, strcspn, h0]
    · by_cases h10 : c = 10
      · simp [cstr, strcspn, h10]
      · simp only [cstr, strcspn] at ih
        simpa [cstr, strcspn, h0, h10] using ih

theorem takeWhile_eq_self_of_not_mem (l : List Byte) (h : (0 : Byte) ∉ l) :
    l.takeWhile (fun c => c ≠ 0) = l := by
  induction l with
  | nil => rfl
  | cons c l ih =>
    have hc : c ≠ 0 := fun e => h (by simp [e])
    have hl : (0 : Byte) ∉ l := fun e => h (by simp [e])
    rw [List.takeWhile_cons_of_pos (by simpa using hc), ih hl]

theorem take_eq_iff_of_short (l t : List Byte) (n : Nat) (ht : t.length < n) :
    l.take n = t ↔ l = t := by
  constructor
  · intro h
    have hl : (l.take n).length = t.length := by rw [h]
    rw [List.length_take] at hl
    have : l.length < n := by omega
    rw [List.take_of_length_le (by omega)] at h
    exact h
  · intro h
    subst h
    exact List.take_of_length_le (by omega)

/-- One `fgets` and `strcmp` of the format check, on a stream that is not at its
end: the comparison with `t` succeeds exactly when the first line, up to its
first NUL, is `t`. -/
theorem fgets_line_check (fp t : List Byte) (ht0 : (0 : Byte) ∉ t) :
    strcmp_eq ((fgetsAux 511 fp).1.take (strcspn (fgetsAux 511 fp).1 (str "\n"))) t = true ↔
      ((firstLine fp).take 511).takeWhile (fun c => c ≠ 0) = t := by
  simp only [strcmp_eq, beq_iff_eq, cstr_cut, fgetsAux_takeWhile]
  have : cstr t = t := takeWhile_eq_self_of_not_mem t ht0
  rw [this]


theorem takeWhile_comm (l : List Byte) (p q : Byte → Bool) :
    (l.takeWhile p).takeWhile q = (l.takeWhile q).takeWhile p := by
  induction l with
  | nil => rfl
  | cons c l ih =>
    by_cases hp : p c <;> by_cases hq : q c <;> simp [List.takeWhile_cons, hp, hq, ih]

/-- After `buff[strcspn(buff, "\n")] = 0` the buffer holds its former C string
up to the first newline. -/
theorem cstr_cut' (buff : List Byte) :
    cstr (buff.take (strcspn buff (str "\n"))) = (cstr buff).takeWhile (fun c => c ≠ 10) := by
  rw [cstr_cut, takeWhile_comm]
  rfl

/-- A buffer that already compared equal to `ply` does not compare equal to the
format line when `fgets` leaves it unchanged. -/
theorem stale_buffer_fails (buff : List Byte) (h : strcmp_eq buff (str "ply") = true) :
    strcmp_eq (buff.take (strcspn buff (str "\n"))) (str "format binary_little_endian 1.0") =
      false := by
  simp only [strcmp_eq, beq_iff_eq] at h
  have h' : cstr (str "ply") = str "ply" := by decide
  rw [h'] at h
  simp only [strcmp_eq, cstr_cut', h]
  decide

/-- An empty file fails the format check, whatever the buffer held. -/
theorem checkFormat_nil (buff0 : List Byte) :
    checkFormat buff0 [] = .failed .notPly ∨ checkFormat buff0 [] = .failed .notFormat := by
  simp only [checkFormat, fgets, Option.getD_none]
  by_cases h : strcmp_eq (buff0.take (strcspn buff0 (str "\n"))) (str "ply") = true
  · right
    simp only [h, Bool.not_true, Bool.false_eq_true, if_false, stale_buffer_fails _ h,
      Bool.not_false, if_true]
  · left
    rw [Bool.not_eq_true] at h
    simp only [h, Bool.not_false, if_true]

/-- The C string `fgets` and the cut leave in the buffer for the first line of
a stream: the line, at most 511 bytes of it, up to its first NUL. -/
theorem checkFormat_cons (buff0 : List Byte) (fp : List Byte) (hfp : fp ≠ []) :
    checkFormat buff0 fp =
      if ((firstLine fp).take 511).takeWhile (fun c => c ≠ 0) ≠ str "ply" then .failed .notPly
      else if (fgetsAux 511 fp).2 = [] then .failed .notFormat
      else if ((firstLine (fgetsAux 511 fp).2).take 511).takeWhile (fun c => c ≠ 0) ≠
          str "format binary_little_endian 1.0" then .failed .notFormat
      else .passed (fgetsAux 511 (fgetsAux 511 fp).2).2 := by
  have hply0 : (0 : Byte) ∉ str "ply" := by decide
  have hfmt0 : (0 : Byte) ∉ str "format binary_little_endian 1.0" := by decide
  have hg : fgets BUFFER_SIZE fp = some (fgetsAux 511 fp) := by
    cases fp with
    | nil => exact absurd rfl hfp
    | cons c fp => rfl
  have h1 := fgets_line_check fp (str "ply") hply0
  simp only [checkFormat, hg, Option.getD_some]
  by_cases hP : ((firstLine fp).take 511).takeWhile (fun c => c ≠ 0) = str "ply"
  · have h1' := h1.mpr hP
    rw [if_neg (not_not.mpr hP)]
    simp only [h1', Bool.not_true, Bool.false_eq_true, if_false]
    by_cases hE : (fgetsAux 511 fp).2 = []
    · rw [if_pos hE]
      simp only [hE, fgets, Option.getD_none, stale_buffer_fails _ h1', Bool.not_false, if_true]
    · rw [if_neg hE]
      have hg2 : fgets BUFFER_SIZE (fgetsAux 511 fp).2 = some (fgetsAux 511 (fgetsAux 511 fp).2) := by
        cases h : (fgetsAux 511 fp).2 with
        | nil => exact absurd h hE
        | cons c fp => rfl
      have h2 := fgets_line_check (fgetsAux 511 fp).2 (str "format binary_little_endian 1.0") hfmt0
      simp only [hg2, Option.getD_some]
      by_cases hQ : ((firstLine (fgetsAux 511 fp).2).take 511).takeWhile (fun c => c ≠ 0) =
          str "format binary_little_endian 1.0"
      · rw [if_neg (not_not.mpr hQ)]
        simp only [h2.mpr hQ, Bool.not_true, Bool.false_eq_true, if_false]
      · have hf : strcmp_eq ((fgetsAux 511 (fgetsAux 511 fp).2).1.take
            (strcspn (fgetsAux 511 (fgetsAux 511 fp).2).1 (str "\n")))
            (str "format binary_little_endian 1.0") = false := by
          rw [Bool.eq_false_iff]
          exact fun h => hQ (h2.mp h)
        rw [if_pos hQ]
        simp only [hf, Bool.not_false, if_true]
  · have hf : strcmp_eq ((fgetsAux 511 fp).1.take (strcspn (fgetsAux 511 fp).1 (str "\n")))
        (str "ply") = false := by
      rw [Bool.eq_false_iff]
      exact fun h => hP (h1.mp h)
    rw [if_pos hP]
    simp only [hf, Bool.not_false, if_true]


/-- A first line that is exactly `t` (shorter than the buffer, free of NUL) is
what the buffer holds after `fgets` and the cut. -/
theorem line_exact (fp t : List Byte) (ht : t.length < 511) (ht0 : (0 : Byte) ∉ t)
    (h : firstLine fp = t) :
    ((firstLine fp).take 511).takeWhile (fun c => c ≠ 0) = t ∧
    (fgetsAux 511 fp).2 = afterFirstLine fp := by
  refine ⟨?_, fgetsAux_rest 511 fp (by rw [h]; exact ht)⟩
  rw [h, List.take_of_length_le (by omega)]
  exact takeWhile_eq_self_of_not_mem t ht0

/-- Conversely, when the first line holds no NUL. -/
theorem line_exact_conv (fp t : List Byte) (ht : t.length < 511) (h0 : (0 : Byte) ∉ firstLine fp)
    (h : ((firstLine fp).take 511).takeWhile (fun c => c ≠ 0) = t) : firstLine fp = t := by
  have h0' : (0 : Byte) ∉ (firstLine fp).take 511 := fun hm => h0 (List.mem_of_mem_take hm)
  rw [takeWhile_eq_self_of_not_mem _ h0'] at h
  exact (take_eq_iff_of_short _ _ 511 ht).mp h

/-- The format check passes on two matching lines, and leaves the stream after
them. -/
theorem checkFormat_passed (buff0 fp : List Byte) (h1 : firstLine fp = str "ply")
    (h2 : secondLine fp = str "format binary_little_endian 1.0") :
    checkFormat buff0 fp = .passed (afterFirstLine (afterFirstLine fp)) := by
  have hfp : fp ≠ [] := by
    intro e
    rw [e] at h1
    exact absurd h1 (by decide)
  obtain ⟨a1, a2⟩ := line_exact fp (str "ply") (by decide) (by decide) h1
  have hne : afterFirstLine fp ≠ [] := by
    intro e
    rw [secondLine, e] at h2
    exact absurd h2 (by decide)
  obtain ⟨b1, b2⟩ := line_exact (afterFirstLine fp) (str "format binary_little_endian 1.0")
    (by decide) (by decide) h2
  rw [checkFormat_cons buff0 fp hfp, if_neg (not_not.mpr a1), a2, if_neg hne,
    if_neg (not_not.mpr b1), b2]

/-- The format check fails when one of the first two lines differs, provided
they hold no NUL byte. -/
theorem checkFormat_failed (buff0 fp : List Byte)
    (h0 : (0 : Byte) ∉ firstLine fp) (h0' : (0 : Byte) ∉ secondLine fp)
    (h : firstLine fp ≠ str "ply" ∨ secondLine fp ≠ str "format binary_little_endian 1.0") :
    checkFormat buff0 fp = .failed .notPly ∨ checkFormat buff0 fp = .failed .notFormat := by
  by_cases hfp : fp = []
  · rw [hfp]
    exact checkFormat_nil buff0
  · rw [checkFormat_cons buff0 fp hfp]
    split
    · exact Or.inl rfl
    · rename_i hP
      have hP' := not_not.mp hP
      have a1 : firstLine fp = str "ply" := line_exact_conv fp _ (by decide) h0 hP'
      have a2 := (line_exact fp (str "ply") (by decide) (by decide) a1).2
      rw [a2]
      split
      · exact Or.inr rfl
      · split
        · exact Or.inr rfl
        · rename_i hQ
          have b1 : secondLine fp = str "format binary_little_endian 1.0" :=
            line_exact_conv (afterFirstLine fp) _ (by decide) h0' (not_not.mp hQ)
          rcases h with h | h
          · exact absurd a1 h
          · exact absurd b1 h

section FormatClaims

variable {F : Type} [FloatArith F] [FloatRepr F]

theorem import_ply_failed (buff0 fp : List Byte) (msg : ErrMsg)
    (h : checkFormat buff0 fp = .failed msg) :
    (import_ply buff0 (some fp) : ImportResult F) = .null msg := by
  simp only [import_ply, h]

theorem import_ply_passed (buff0 fp body : List Byte) (h : checkFormat buff0 fp = .passed body) :
    (import_ply buff0 (some fp) : ImportResult F) = .undefined ∨
    (import_ply buff0 (some fp) : ImportResult F) = .null .onlyTriangles ∨
    ∃ m, (import_ply buff0 (some fp) : ImportResult F) = .mesh m := by
  rw [import_ply_of_header buff0 fp body (readHeader body).2.2 (readHeader body).1
    (readHeader body).2.1 h rfl]
  split
  · exact Or.inl rfl
  · exact Or.inr (Or.inl rfl)
  · split
    · exact Or.inl rfl
    · exact Or.inr (Or.inr ⟨_, rfl⟩)

theorem main_of_null (argc : Nat) (buff0 : List Byte) (input : Option (List Byte))
    (outputOpens : Bool) (msg : ErrMsg)
    (h : (import_ply buff0 input : ImportResult F) = .null msg) :
    ∃ stderr, main F argc buff0 input outputOpens = .exit 1 stderr none := by
  by_cases ha : argc < 3
  · exact ⟨[.usage], by simp only [main, if_pos ha]⟩
  · exact ⟨[msg, .errorImporting], by simp only [main, if_neg ha, h]⟩

/-- C5, amended. When both lines match, the format check passes and
`import_ply` does not fail with a format error. When the first two lines hold no
NUL byte and one of them differs, `import_ply` fails with one of the two format
messages and `main` exits with status 1 without opening the output file. -/
theorem import_ply_format_check (buff0 fp : List Byte) :
    (firstLine fp = str "ply" → secondLine fp = str "format binary_little_endian 1.0" →
      checkFormat buff0 fp = .passed (afterFirstLine (afterFirstLine fp)) ∧
      (import_ply buff0 (some fp) : ImportResult F) ≠ .null .notPly ∧
      (import_ply buff0 (some fp) : ImportResult F) ≠ .null .notFormat) ∧
    ((0 : Byte) ∉ firstLine fp → (0 : Byte) ∉ secondLine fp →
      (firstLine fp ≠ str "ply" ∨ secondLine fp ≠ str "format binary_little_endian 1.0") →
      ((import_ply buff0 (some fp) : ImportResult F) = .null .notPly ∨
       (import_ply buff0 (some fp) : ImportResult F) = .null .notFormat) ∧
      ∀ argc outputOpens, ∃ stderr,
        main F argc buff0 (some fp) outputOpens = .exit 1 stderr none) := by
  constructor
  · intro h1 h2
    have hp := checkFormat_passed buff0 fp h1 h2
    refine ⟨hp, ?_, ?_⟩ <;>
    · rcases import_ply_passed (F := F) buff0 fp _ hp with h | h | ⟨m, h⟩ <;>
      · rw [h]
        intro e
        cases e
  · intro h0 h0' h
    rcases checkFormat_failed buff0 fp h0 h0' h with hf | hf
    · have hi := import_ply_failed (F := F) buff0 fp _ hf
      exact ⟨Or.inl hi, fun argc o => main_of_null argc buff0 (some fp) o _ hi⟩
    · have hi := import_ply_failed (F := F) buff0 fp _ hf
      exact ⟨Or.inr hi, fun argc o => main_of_null argc buff0 (some fp) o _ hi⟩

end FormatClaims


set_option maxRecDepth 100000 in
/-- C5, as stated, fails: the first line of `sampleNulPly` is not exactly
`ply`, yet `import_ply` returns a mesh (the empty one) and `main` writes the
output file. `strcmp` stops at the NUL byte. -/
theorem format_check_stops_at_nul :
    firstLine sampleNulPly ≠ str "ply" ∧
    (import_ply [] (some sampleNulPly) : ImportResult Float32) =
      .mesh { vertices_num := 0, indices_num := 0, vertices := [], indices := [] } ∧
    main Float32 3 [] (some sampleNulPly) true =
      .exit 0 [] (some (headerBytes 0 0)) := by
  decide

set_option maxRecDepth 100000 in
/-- C5, amended, at the sample file (both lines match) and at an ASCII PLY
header (the second line differs). -/
theorem import_ply_format_check_witness :
    (firstLine samplePly = str "ply" ∧
     secondLine samplePly = str "format binary_little_endian 1.0" ∧
     checkFormat [] samplePly = .passed (afterFirstLine (afterFirstLine samplePly))) ∧
    ((0 : Byte) ∉ firstLine sampleAsciiPly ∧ (0 : Byte) ∉ secondLine sampleAsciiPly ∧
     secondLine sampleAsciiPly ≠ str "format binary_little_endian 1.0" ∧
     ((import_ply [] (some sampleAsciiPly) : ImportResult Float32) = .null .notPly ∨
      (import_ply [] (some sampleAsciiPly) : ImportResult Float32) = .null .notFormat)) :=
  ⟨⟨by decide, by decide,
    ((import_ply_format_check (F := Float32) [] samplePly).1 (by decide) (by decide)).1⟩,
   ⟨by decide, by decide, by decide,
    ((import_ply_format_check (F := Float32) [] sampleAsciiPly).2 (by decide) (by decide)
      (Or.inr (by decide))).1⟩⟩


/-! ## The header loop -/

/-- A line cannot start with both `element vertex` and `element face`. -/
theorem vertex_line_not_face (buff : List Byte)
    (h : strncmp_eq buff (str "element vertex") 14 = true) :
    strncmp_eq buff (str "element face") 12 = false := by
  simp only [strncmp_eq, beq_iff_eq] at h
  have e : (cstr buff).take 12 = ((cstr buff).take 14).take 12 := by
    rw [List.take_take]
    rfl
  rw [Bool.eq_false_iff]
  intro hf
  simp only [strncmp_eq, beq_iff_eq] at hf
  rw [e, h] at hf
  exact absurd hf (by decide)

theorem fgetsAux_rest_length (n : Nat) (fp : List Byte) :
    (fgetsAux n fp).2.length ≤ fp.length := by
  induction n generalizing fp with
  | zero => simp [fgetsAux]
  | succ n ih =>
    cases fp with
    | nil => simp [fgetsAux]
    | cons c fp =>
      by_cases hc : c = 10
      · simp [fgetsAux, hc]
      · have := ih fp
        simp [fgetsAux, hc]
        omega

/-- A successful `fgets` consumes at least one byte. -/
theorem fgets_consumes (fp buff fp' : List Byte) (h : fgets BUFFER_SIZE fp = some (buff, fp')) :
    fp'.length < fp.length := by
  cases fp with
  | nil => simp [fgets] at h
  | cons c fp =>
    simp only [fgets, BUFFER_SIZE, Option.some.injEq] at h
    have h2 : fp' = (fgetsAux 511 (c :: fp)).2 := by rw [h]
    rw [h2]
    by_cases hc : c = 10
    · simp [fgetsAux, hc]
    · have := fgetsAux_rest_length 510 fp
      simp [fgetsAux, hc]
      omega

/-- The header loop does not depend on its fuel once there is as much of it as
bytes in the stream: the loop of the C program ends. -/
theorem headerLoop_fuel (fuel fuel' : Nat) (fp : List Byte) (nv nf : Nat)
    (h : fp.length ≤ fuel) (h' : fp.length ≤ fuel') :
    headerLoop fuel fp nv nf = headerLoop fuel' fp nv nf := by
  induction fuel generalizing fuel' fp nv nf with
  | zero =>
    have hfp : fp = [] := List.length_eq_zero.mp (by omega)
    subst hfp
    cases fuel' with
    | zero => rfl
    | succ k => simp [headerLoop, fgets]
  | succ fuel ih =>
    cases fuel' with
    | zero =>
      have hfp : fp = [] := List.length_eq_zero.mp (by omega)
      subst hfp
      simp [headerLoop, fgets]
    | succ k =>
      unfold headerLoop
      cases hg : fgets BUFFER_SIZE fp with
      | none => rfl
      | some r =>
        obtain ⟨buff, fp'⟩ := r
        have hlt := fgets_consumes fp buff fp' hg
        simp only
        rw [ih k fp' _ nf (by omega) (by omega), ih k fp' nv _ (by omega) (by omega),
          ih k fp' nv nf (by omega) (by omega)]

theorem fgetsAux_complete_line (n : Nat) (l rest : List Byte) (h10 : (10 : Byte) ∉ l)
    (hlen : l.length < n) : fgetsAux n (l ++ 10 :: rest) = (l ++ [10], rest) := by
  induction l generalizing n with
  | nil =>
    cases n with
    | zero => simp at hlen
    | succ n => simp [fgetsAux]
  | cons c l ih =>
    cases n with
    | zero => simp at hlen
    | succ n =>
      have hc : c ≠ 10 := fun e => h10 (by simp [e])
      have hl : (10 : Byte) ∉ l := fun e => h10 (by simp [e])
      have := ih n hl (by simpa using hlen)
      simp [fgetsAux, hc, this]

/-- The call of `fgets` on a stream that starts with a complete line of fewer than 512
bytes. -/
theorem fgets_complete_line (l rest : List Byte) (h10 : (10 : Byte) ∉ l) (hlen : l.length < 511) :
    fgets BUFFER_SIZE (l ++ 10 :: rest) = some (l ++ [10], rest) := by
  have h := fgetsAux_complete_line 511 l rest h10 hlen
  cases l with
  | nil => simpa [fgets, BUFFER_SIZE] using h
  | cons c l => simpa [fgets, BUFFER_SIZE] using h

/-- One turn of the header loop on a stream that starts with a complete line. -/
theorem readHeader_line (l rest : List Byte) (nv nf : Nat) (h10 : (10 : Byte) ∉ l)
    (hlen : l.length < 511) :
    headerLoop (l ++ 10 :: rest).length (l ++ 10 :: rest) nv nf =
      if strncmp_eq (l ++ [10]) (str "element vertex") 14 then
        headerLoop rest.length rest ((sscanf_llu (l ++ [10]) (str "element vertex ")).getD nv) nf
      else if strncmp_eq (l ++ [10]) (str "element face") 12 then
        headerLoop rest.length rest nv ((sscanf_llu (l ++ [10]) (str "element face ")).getD nf)
      else if strncmp_eq (l ++ [10]) (str "end_header") 10 then (nv, nf, rest)
      else headerLoop rest.length rest nv nf := by
  have e : (l ++ 10 :: rest).length = (l.length + rest.length) + 1 := by
    simp only [List.length_append, List.length_cons]
    omega
  rw [e, headerLoop, fgets_complete_line l rest h10 hlen]
  simp only
  rw [headerLoop_fuel (l.length + rest.length) rest.length rest _ nf (by omega) (le_refl _),
    headerLoop_fuel (l.length + rest.length) rest.length rest nv _ (by omega) (le_refl _),
    headerLoop_fuel (l.length + rest.length) rest.length rest nv nf (by omega) (le_refl _)]

/-- A vertex count line and a face count line, in either order and followed by
the `end_header` line, give the two counts. -/
theorem readHeader_either_order (lv lf rest : List Byte) (N nf : Nat)
    (hv10 : (10 : Byte) ∉ lv) (hf10 : (10 : Byte) ∉ lf)
    (hvlen : lv.length < 511) (hflen : lf.length < 511)
    (hv : strncmp_eq (lv ++ [10]) (str "element vertex") 14 = true)
    (hf : strncmp_eq (lf ++ [10]) (str "element face") 12 = true)
    (hN : sscanf_llu (lv ++ [10]) (str "element vertex ") = some N)
    (hF : sscanf_llu (lf ++ [10]) (str "element face ") = some nf) :
    readHeader (lv ++ 10 :: (lf ++ 10 :: (str "end_header\n" ++ rest))) = (N, nf, rest) ∧
    readHeader (lf ++ 10 :: (lv ++ 10 :: (str "end_header\n" ++ rest))) = (N, nf, rest) := by
  have hfv : strncmp_eq (lf ++ [10]) (str "element vertex") 14 = false := by
    rw [Bool.eq_false_iff]
    intro h
    have := vertex_line_not_face _ h
    rw [hf] at this
    cases this
  have hend : ∀ a b : Nat, headerLoop (str "end_header\n" ++ rest).length
      (str "end_header\n" ++ rest) a b = (a, b, rest) := by
    intro a b
    have e : str "end_header\n" ++ rest = str "end_header" ++ 10 :: rest := by
      have : str "end_header\n" = str "end_header" ++ [10] := by decide
      rw [this, List.append_assoc]
      rfl
    rw [e, readHeader_line (str "end_header") rest a b (by decide) (by decide)]
    have h1 : strncmp_eq (str "end_header" ++ [10]) (str "element vertex") 14 = false := by decide
    have h2 : strncmp_eq (str "end_header" ++ [10]) (str "element face") 12 = false := by decide
    have h3 : strncmp_eq (str "end_header" ++ [10]) (str "end_header") 10 = true := by decide
    simp only [h1, h2, h3, if_true, Bool.false_eq_true, if_false]
  constructor
  · rw [readHeader, readHeader_line lv _ 0 0 hv10 hvlen, if_pos hv,
      readHeader_line lf _ _ 0 hf10 hflen, if_neg (by simp [hfv]), if_pos hf, hend, hN, hF]
    rfl
  · rw [readHeader, readHeader_line lf _ 0 0 hf10 hflen, if_neg (by simp [hfv]), if_pos hf,
      readHeader_line lv _ 0 _ hv10 hvlen, if_pos hv, hend, hN, hF]
    rfl


section HeaderClaims

variable {F : Type} [FloatArith F] [FloatRepr F]

end HeaderClaims

/-! ## More than `2 ^ 32` corners -/

theorem firstLine_append (l rest : List Byte) (h : (10 : Byte) ∉ l) :
    firstLine (l ++ 10 :: rest) = l ∧ afterFirstLine (l ++ 10 :: rest) = rest := by
  induction l with
  | nil => simp [firstLine, afterFirstLine]
  | cons c l ih =>
    have hc : c ≠ 10 := fun e => h (by simp [e])
    have hl : (10 : Byte) ∉ l := fun e => h (by simp [e])
    obtain ⟨i1, i2⟩ := ih hl
    simp only [firstLine, afterFirstLine] at i1 i2
    constructor
    · simpa [firstLine, hc] using i1
    · simpa [afterFirstLine, hc] using i2

theorem zeroTriangles_length (n : Nat) :
    ((List.replicate n zeroTriangle).flatten).length = 13 * n := by
  induction n with
  | zero => rfl
  | succ n ih =>
    rw [List.replicate_succ, List.flatten_cons, List.length_append, ih]
    simp [zeroTriangle]
    omega

theorem zeroTriangles_count (n k : Nat) (hk : k < n) :
    ((List.replicate n zeroTriangle).flatten)[13 * k]? = some 3 := by
  induction n generalizing k with
  | zero => omega
  | succ n ih =>
    rw [List.replicate_succ, List.flatten_cons]
    cases k with
    | zero => simp [zeroTriangle]
    | succ k =>
      have h13 : zeroTriangle.length = 13 := by simp [zeroTriangle]
      have hl : zeroTriangle.length ≤ 13 * (k + 1) := by omega
      rw [List.getElem?_append_right hl]
      have e : 13 * (k + 1) - zeroTriangle.length = 13 * k := by omega
      rw [e]
      exact ih k (by omega)

theorem zeroTriangles_corner (n k j : Nat) (hk : k < n) (hj : j < 3) :
    cornerAt ((List.replicate n zeroTriangle).flatten) k j = 0 := by
  induction n generalizing k with
  | zero => omega
  | succ n ih =>
    rw [List.replicate_succ, List.flatten_cons]
    cases k with
    | zero =>
      have h13 : zeroTriangle.length = 13 := by simp [zeroTriangle]
      have hle : 13 * 0 + 1 + 4 * j ≤ zeroTriangle.length := by omega
      rw [cornerAt, List.drop_append_of_le_length hle, List.take_append_of_le_length
        (by rw [List.length_drop]; omega)]
      interval_cases j <;> rfl
    | succ k =>
      have e : (zeroTriangle ++ (List.replicate n zeroTriangle).flatten).drop 13 =
          (List.replicate n zeroTriangle).flatten := by
        apply List.drop_left'
        simp [zeroTriangle]
      rw [← cornerAt_drop, e]
      exact ih k (by omega)


theorem hugeHeader_split (X : List Byte) :
    str "ply\nformat binary_little_endian 1.0\n" ++
        (str "element vertex 1\nelement face 1431655766\nend_header\n" ++ X) =
      str "ply" ++ 10 :: (str "format binary_little_endian 1.0" ++ 10 ::
        (str "element vertex 1" ++ 10 :: (str "element face 1431655766" ++ 10 ::
          (str "end_header\n" ++ X)))) := by
  rfl

theorem checkFormat_hugePly :
    checkFormat [] hugePly =
      .passed (str "element vertex 1" ++ 10 :: (str "element face 1431655766" ++ 10 ::
        (str "end_header\n" ++ hugeBody))) := by
  have h1 := firstLine_append (str "ply") (str "format binary_little_endian 1.0" ++ 10 ::
    (str "element vertex 1" ++ 10 :: (str "element face 1431655766" ++ 10 ::
      (str "end_header\n" ++ hugeBody)))) (by decide)
  have h2 := firstLine_append (str "format binary_little_endian 1.0")
    (str "element vertex 1" ++ 10 :: (str "element face 1431655766" ++ 10 ::
      (str "end_header\n" ++ hugeBody))) (by decide)
  have h := checkFormat_passed [] hugePly
    (by rw [hugePly, hugeHeader_split]; exact h1.1)
    (by rw [hugePly, hugeHeader_split, secondLine, h1.2]; exact h2.1)
  rw [h, hugePly, hugeHeader_split, h1.2, h2.2]

theorem readHeader_hugePly :
    readHeader (str "element vertex 1" ++ 10 :: (str "element face 1431655766" ++ 10 ::
        (str "end_header\n" ++ hugeBody))) = (1, 1431655766, hugeBody) :=
  (readHeader_either_order (str "element vertex 1") (str "element face 1431655766") hugeBody
    1 1431655766 (by decide) (by decide) (by decide) (by decide) (by decide) (by decide)
    (by decide) (by decide)).1

theorem faceStream_hugeBody :
    faceStream 1 hugeBody = (List.replicate 1431655766 zeroTriangle).flatten := by
  rw [faceStream, fread, hugeBody]
  exact List.drop_left' (by simp)

theorem rawCount_hugeBody : rawCount 1 hugeBody = 8 := by
  rw [rawCount_eq, hugeBody, List.length_append, zeroTriangles_length, List.length_replicate]
  decide

/-- C2, as stated, fails on a mesh of more than `2 ^ 32` corners: `import_ply`
returns a mesh for `hugePly`, with 4294967298 indices, and entry `2 ^ 32` of the
index array is 0. -/
theorem index_truncated_at_2_32 :
    ∃ m : Mesh Float32, import_ply [] (some hugePly) = .mesh m ∧
      4294967296 < m.indices_num ∧
      m.indices[4294967296]? = some 0 ∧ m.indices[4294967296]? ≠ some 4294967296 := by
  obtain ⟨m, him, hm⟩ := import_ply_triangles (F := Float32) [] hugePly _ hugeBody 1 1431655766
    checkFormat_hugePly readHeader_hugePly
    (by rw [faceStream_hugeBody, zeroTriangles_length])
    (by rw [faceStream_hugeBody]; exact fun k hk => zeroTriangles_count _ k hk)
    (by
      rw [faceStream_hugeBody, rawCount_hugeBody]
      intro k hk j hj
      rw [zeroTriangles_corner _ k j hk hj]
      decide)
  obtain ⟨-, hi, hind, -⟩ := buildMesh_some _ _ m hm
  rw [swappedCorners_length] at hi hind
  have h0 : m.indices[4294967296]? = some 0 := by
    rw [hind, List.getElem?_map, List.getElem?_range (by decide)]
    rfl
  refine ⟨m, him, by rw [hi]; decide, h0, ?_⟩
  rw [h0]
  decide


/-! ## `face_count` does not wrap

`face_count` is a `uint64_t` that the embedding keeps as the length of
`face_indices`. Every face record read took 13 bytes of the file, so on a file
shorter than `2 ^ 64` bytes the counter stays below `2 ^ 64`. -/

theorem fgets_getD_length (buff fp : List Byte) :
    ((fgets BUFFER_SIZE fp).getD (buff, fp)).2.length ≤ fp.length := by
  cases h : fgets BUFFER_SIZE fp with
  | none => simp
  | some r =>
    obtain ⟨b, fp'⟩ := r
    have := fgets_consumes fp b fp' h
    simp only [Option.getD_some]
    omega

theorem checkFormat_passed_length (buff0 fp body : List Byte)
    (h : checkFormat buff0 fp = .passed body) : body.length ≤ fp.length := by
  unfold checkFormat at h
  simp only at h
  split at h
  · cases h
  · split at h
    · cases h
    · cases h
      exact le_trans (fgets_getD_length _ _) (fgets_getD_length _ _)

theorem headerLoop_rest_length (fuel : Nat) (fp : List Byte) (nv nf : Nat) :
    (headerLoop fuel fp nv nf).2.2.length ≤ fp.length := by
  induction fuel generalizing fp nv nf with
  | zero => simp [headerLoop]
  | succ fuel ih =>
    unfold headerLoop
    cases hg : fgets BUFFER_SIZE fp with
    | none => simp
    | some r =>
      obtain ⟨buff, fp'⟩ := r
      have hlt := fgets_consumes fp buff fp' hg
      simp only
      split
      · exact le_trans (ih fp' _ nf) (by omega)
      · split
        · exact le_trans (ih fp' nv _) (by omega)
        · split
          · simp only; omega
          · exact le_trans (ih fp' nv nf) (by omega)

theorem faceStream_length (N : Nat) (data : List Byte) :
    (faceStream N data).length ≤ data.length := by
  simp [faceStream, fread]

section NoWrap

variable {F : Type} [FloatArith F] [FloatRepr F]

/-- A mesh returned by `import_ply` has at most three corners per 13 bytes of
the file: on a file shorter than `2 ^ 64` bytes `face_count` cannot wrap. -/
theorem face_count_no_wrap (buff0 : List Byte) (file : Option (List Byte)) (m : Mesh F)
    (h : import_ply buff0 file = .mesh m) :
    ∃ fp, file = some fp ∧ 13 * m.vertices_num ≤ 3 * fp.length ∧
      (fp.length < 2 ^ 64 → m.vertices_num < 2 ^ 64) := by
  match file, h with
  | some fp, h =>
    match hfmt : checkFormat buff0 fp with
    | .failed msg => simp [import_ply, hfmt] at h
    | .passed body =>
      rw [import_ply_of_header buff0 fp body (readHeader body).2.2 (readHeader body).1
        (readHeader body).2.1 hfmt rfl] at h
      split at h
      · cases h
      · cases h
      · rename_i fi hfi
        obtain ⟨hl, -, hfi'⟩ := readFaces_indices _ _ _ _ hfi
        rw [List.nil_append] at hfi'
        split at h
        · cases h
        · rename_i mesh hm
          cases h
          obtain ⟨hv, -, -, -⟩ := buildMesh_some _ _ m hm
          rw [hfi', swappedCorners_length] at hv
          have h1 := faceStream_length (readHeader body).1 (readHeader body).2.2
          have h2 : (readHeader body).2.2.length ≤ body.length :=
            headerLoop_rest_length body.length body 0 0
          have h3 := checkFormat_passed_length buff0 fp body hfmt
          refine ⟨fp, rfl, by omega, fun _ => by omega⟩

end NoWrap


/-! ## More than `2 ^ 29` vertices -/

/-- Item `i` of an `fread` of 4-byte items. -/
theorem freadItems_get (count i : Nat) (fp : List Byte) (hi : i < count)
    (hlen : 4 * i + 4 ≤ fp.length) :
    (freadItems 4 count fp)[i]? = some ((fp.drop (4 * i)).take 4) := by
  induction count generalizing i fp with
  | zero => omega
  | succ n ih =>
    have h4 : 4 ≤ fp.length := by omega
    rw [freadItems, if_pos h4]
    cases i with
    | zero => simp
    | succ i =>
      have := ih i (fp.drop 4) (by omega) (by rw [List.length_drop]; omega)
      rw [List.getElem?_cons_succ, this, List.drop_drop]
      congr 3
      omega

theorem hugeVertexBlock_length : hugeVertexBlock.length = 17179869216 := by
  rw [hugeVertexBlock, List.length_append, leBytes_length, List.length_replicate]

theorem hugeVertexHeader_split (X : List Byte) :
    str "ply\nformat binary_little_endian 1.0\n" ++
        (str "element vertex 536870913\nelement face 1\nend_header\n" ++ X) =
      str "ply" ++ 10 :: (str "format binary_little_endian 1.0" ++ 10 ::
        (str "element vertex 536870913" ++ 10 :: (str "element face 1" ++ 10 ::
          (str "end_header\n" ++ X)))) := by
  rfl

theorem checkFormat_hugeVertexPly :
    checkFormat [] hugeVertexPly =
      .passed (str "element vertex 536870913" ++ 10 :: (str "element face 1" ++ 10 ::
        (str "end_header\n" ++ (hugeVertexBlock ++ lastVertexTriangle)))) := by
  have h1 := firstLine_append (str "ply") (str "format binary_little_endian 1.0" ++ 10 ::
    (str "element vertex 536870913" ++ 10 :: (str "element face 1" ++ 10 ::
      (str "end_header\n" ++ (hugeVertexBlock ++ lastVertexTriangle))))) (by decide)
  have h2 := firstLine_append (str "format binary_little_endian 1.0")
    (str "element vertex 536870913" ++ 10 :: (str "element face 1" ++ 10 ::
      (str "end_header\n" ++ (hugeVertexBlock ++ lastVertexTriangle)))) (by decide)
  have h := checkFormat_passed [] hugeVertexPly
    (by rw [hugeVertexPly, hugeVertexHeader_split]; exact h1.1)
    (by rw [hugeVertexPly, hugeVertexHeader_split, secondLine, h1.2]; exact h2.1)
  rw [h, hugeVertexPly, hugeVertexHeader_split, h1.2, h2.2]

theorem readHeader_hugeVertexPly :
    readHeader (str "element vertex 536870913" ++ 10 :: (str "element face 1" ++ 10 ::
        (str "end_header\n" ++ (hugeVertexBlock ++ lastVertexTriangle)))) =
      (536870913, 1, hugeVertexBlock ++ lastVertexTriangle) :=
  (readHeader_either_order (str "element vertex 536870913") (str "element face 1")
    (hugeVertexBlock ++ lastVertexTriangle) 536870913 1 (by decide) (by decide) (by decide)
    (by decide) (by decide) (by decide) (by decide) (by decide)).1

theorem faceStream_hugeVertex :
    faceStream 536870913 (hugeVertexBlock ++ lastVertexTriangle) = lastVertexTriangle := by
  have e : 4 * (536870913 * 8 % 2 ^ 64) = hugeVertexBlock.length := by
    rw [hugeVertexBlock_length]
    norm_num
  simp only [faceStream, fread]
  rw [e, List.drop_left]

theorem rawCount_hugeVertex :
    rawCount 536870913 (hugeVertexBlock ++ lastVertexTriangle) = 4294967304 := by
  have hl : lastVertexTriangle.length = 13 := by decide
  rw [rawCount_eq, List.length_append, hugeVertexBlock_length, hl]
  norm_num

/-- The floats `fread` stores for `hugeVertexPly`: `1.0f` at offset `0`, and
`0.0f` at every other offset. -/
theorem readRaw_hugeVertex (i : Nat) (hi : i < 4294967304) :
    ((readRaw 536870913 (hugeVertexBlock ++ lastVertexTriangle)).1 : List Float32)[i]? =
      some (if i = 0 then ⟨0x3F800000⟩ else ⟨0⟩) := by
  have hcnt : 536870913 * 8 % 2 ^ 64 = 4294967304 := by norm_num
  have hlen : 4 * i + 4 ≤ (hugeVertexBlock ++ lastVertexTriangle).length := by
    rw [List.length_append, hugeVertexBlock_length]
    omega
  simp only [readRaw, fread, List.getElem?_map, hcnt,
    freadItems_get 4294967304 i _ hi hlen, Option.map_some']
  have hin : 4 * i + 4 ≤ hugeVertexBlock.length := by
    rw [hugeVertexBlock_length]
    omega
  rw [List.drop_append_of_le_length (by omega),
    List.take_append_of_le_length (by rw [List.length_drop]; omega)]
  cases i with
  | zero =>
    rw [hugeVertexBlock, Nat.mul_zero, List.drop_zero,
      List.take_left' (leBytes_length 4 _), if_pos rfl]
    decide
  | succ i =>
    have e : 4 * (i + 1) = (leBytes 4 0x3F800000).length + 4 * i := by
      rw [leBytes_length]
      ring
    rw [hugeVertexBlock, e, List.drop_append, List.drop_replicate, List.take_replicate,
      if_neg (by omega)]
    have hm : min 4 (17179869212 - 4 * i) = 4 := by omega
    rw [hm]
    decide


set_option maxRecDepth 100000 in
/-- C10, on a file of `2 ^ 29 + 1` vertices. The face of `hugeVertexPly` names
the last vertex, whose record is all zero, so its three output vertices should
have `xPos = -0.0f` (`0x80000000`); the mesh `import_ply` returns has
`xPos = -16.0f` (`0xC1800000`) there, computed from record `0`, because
`idx * 8` wraps at 32 bits. -/
theorem import_ply_hugeVertexPly :
    (∀ j, j < 3 → cornerAt lastVertexTriangle 0 j = 536870912) ∧
    (∀ k, k < 8 →
      ((readRaw 536870913 (hugeVertexBlock ++ lastVertexTriangle)).1 : List Float32)[
        8 * 536870912 + k]? = some ⟨0⟩) ∧
    -(⟨0⟩ : Float32) * ofInt 16 = ⟨0x80000000⟩ ∧
    ∃ m : Mesh Float32, import_ply [] (some hugeVertexPly) = .mesh m ∧
      ∀ i, i < 3 → ∃ v, m.vertices[i]? = some v ∧ v.xPos = ⟨0xC1800000⟩ := by
  refine ⟨by decide, ?_, by decide, ?_⟩
  · intro k hk
    rw [readRaw_hugeVertex _ (by omega), if_neg (by omega)]
  · have hc : ∀ j, j < 3 → cornerAt lastVertexTriangle 0 j = 536870912 := by decide
    obtain ⟨m, him, hm⟩ := import_ply_triangles (F := Float32) [] hugeVertexPly _
      (hugeVertexBlock ++ lastVertexTriangle) 536870913 1
      checkFormat_hugeVertexPly readHeader_hugeVertexPly
      (by rw [faceStream_hugeVertex]; decide)
      (by rw [faceStream_hugeVertex]; decide)
      (by
        rw [faceStream_hugeVertex, rawCount_hugeVertex]
        intro k hk j hj
        have hk0 : k = 0 := by omega
        rw [hk0, hc j hj]
        norm_num)
    refine ⟨m, him, ?_⟩
    obtain ⟨-, -, -, hrest⟩ := buildMesh_some _ _ m hm
    rw [faceStream_hugeVertex] at hrest
    have hfi : swappedCorners lastVertexTriangle 1 = [536870912, 536870912, 536870912] := by
      decide
    rw [hfi] at hrest
    obtain ⟨-, hget⟩ := hrest (by decide)
    intro i hi
    have hfi_i : ([536870912, 536870912, 536870912] : List Nat)[i]? = some 536870912 := by
      interval_cases i <;> rfl
    obtain ⟨v0, n, t, hv0, hmv⟩ := hget i 536870912 hfi_i
    obtain ⟨b0, b1, b2, b6, b7, h0, -, -, -, -, hv⟩ := initVertex_some _ _ v0 hv0
    have hz : 536870912 * 8 % 2 ^ 32 = 0 := by norm_num
    rw [hz, readRaw_hugeVertex 0 (by omega), if_pos rfl] at h0
    cases h0
    refine ⟨_, hmv, ?_⟩
    rw [hv]
    show -(⟨0x3F800000⟩ : Float32) * ofInt 16 = ⟨0xC1800000⟩
    decide


/-! ## Corner indices out of range -/

theorem initVertex_outOfBounds {F : Type} [FloatArith F] (raw : List F) (idx : Nat)
    (h : raw.length ≤ idx * 8 % 2 ^ 32 + 7) : initVertex raw idx = none := by
  have h7 : raw[idx * 8 % 2 ^ 32 + 7]? = none := List.getElem?_eq_none h
  unfold initVertex
  simp only [h7]
  split
  · rename_i heq
    cases heq
  · rfl

theorem initVertices_outOfBounds {F : Type} [FloatArith F] (raw : List F) (fi : List Nat)
    (idx : Nat) (hmem : idx ∈ fi) (h : raw.length ≤ idx * 8 % 2 ^ 32 + 7) :
    initVertices raw fi = none := by
  induction fi with
  | nil => simp at hmem
  | cons i rest ih =>
    unfold initVertices
    rcases List.mem_cons.mp hmem with e | hr
    · subst e
      rw [initVertex_outOfBounds raw idx h]
    · rw [ih hr]
      split
      · rename_i heq
        cases heq
      · rfl

section OutOfRange

variable {F : Type} [FloatArith F] [FloatRepr F]

/-- On a file as in C1 but with a corner whose reads leave the raw vertex
block, the embedding gives no result: C does not define what the program reads
there. -/
theorem import_ply_outOfBounds (buff0 fp body data : List Byte) (N nf k j : Nat)
    (hfmt : checkFormat buff0 fp = .passed body)
    (hhdr : readHeader body = (N, nf, data))
    (hlen : 13 * nf ≤ (faceStream N data).length)
    (htri : ∀ k, k < nf → (faceStream N data)[13 * k]? = some 3)
    (hk : k < nf) (hj : j < 3)
    (hout : rawCount N data ≤ cornerAt (faceStream N data) k j * 8 % 2 ^ 32 + 7) :
    (import_ply buff0 (some fp) : ImportResult F) = .undefined := by
  have hmem : cornerAt (faceStream N data) k j ∈ swappedCorners (faceStream N data) nf := by
    obtain ⟨g0, g1, g2⟩ := swappedCorners_get (faceStream N data) nf k hk
    have hj' : j = 0 ∨ j = 1 ∨ j = 2 := by omega
    rcases hj' with e | e | e
    · rw [e]; exact List.getElem?_mem g0
    · rw [e]; exact List.getElem?_mem g2
    · rw [e]; exact List.getElem?_mem g1
  have hnone : buildMesh ((readRaw N data).1 : List F)
      (swappedCorners (faceStream N data) nf) = none := by
    have := initVertices_outOfBounds ((readRaw N data).1 : List F) _ _ hmem
      (by rw [readRaw_length]; exact hout)
    simp only [buildMesh, this]
  rw [import_ply_of_header buff0 fp body data N nf hfmt hhdr,
    readFaces_triangles nf _ [] hlen htri]
  simp only [List.nil_append, hnone]

end OutOfRange


section CountClaims

variable {F : Type} [FloatArith F] [FloatRepr F]

/-- C1, amended. On a file that passes the format check and holds `nf` face
records that all declare three corners: if every corner addresses floats read
into the raw vertex block (the offset `idx * 8`, taken in 32 bits, plus 7 is
below the number of floats read), `import_ply` returns a mesh with
`vertices_num = indices_num = 3 * nf`, and the two arrays have that many
elements, whatever else the declared vertex count is. The condition cannot be
dropped: when the read of some corner falls outside the block the import has no
defined result. In neither case does `import_ply` print a message and return
`NULL`. -/
theorem import_ply_counts (buff0 fp body data : List Byte) (N nf : Nat)
    (hfmt : checkFormat buff0 fp = .passed body)
    (hhdr : readHeader body = (N, nf, data))
    (hlen : 13 * nf ≤ (faceStream N data).length)
    (htri : ∀ k, k < nf → (faceStream N data)[13 * k]? = some 3) :
    ((∀ k, k < nf → ∀ j, j < 3 →
        cornerAt (faceStream N data) k j * 8 % 2 ^ 32 + 7 < rawCount N data) →
      ∃ m : Mesh F, import_ply buff0 (some fp) = .mesh m ∧
        m.vertices_num = 3 * nf ∧ m.indices_num = 3 * nf ∧
        m.vertices.length = 3 * nf ∧ m.indices.length = 3 * nf) ∧
    ((∃ k j, k < nf ∧ j < 3 ∧
        rawCount N data ≤ cornerAt (faceStream N data) k j * 8 % 2 ^ 32 + 7) →
      (import_ply buff0 (some fp) : ImportResult F) = .undefined) ∧
    (∀ msg, (import_ply buff0 (some fp) : ImportResult F) ≠ .null msg) := by
  have hin : (∀ k, k < nf → ∀ j, j < 3 →
        cornerAt (faceStream N data) k j * 8 % 2 ^ 32 + 7 < rawCount N data) →
      ∃ m : Mesh F, import_ply buff0 (some fp) = .mesh m ∧
        m.vertices_num = 3 * nf ∧ m.indices_num = 3 * nf ∧
        m.vertices.length = 3 * nf ∧ m.indices.length = 3 * nf := by
    intro hidx
    obtain ⟨m, him, hm⟩ :=
      (import_ply_triangles buff0 fp body data N nf hfmt hhdr hlen htri hidx :
        ∃ m : Mesh F, _ ∧ _)
    obtain ⟨hv, hi, hind, hrest⟩ := buildMesh_some _ _ m hm
    have h3 : (swappedCorners (faceStream N data) nf).length = 3 * nf :=
      swappedCorners_length _ _
    rw [h3] at hv hi hind hrest
    refine ⟨m, him, hv, hi, (hrest (by omega)).1, ?_⟩
    rw [hind]
    simp
  have hout : (∃ k j, k < nf ∧ j < 3 ∧
        rawCount N data ≤ cornerAt (faceStream N data) k j * 8 % 2 ^ 32 + 7) →
      (import_ply buff0 (some fp) : ImportResult F) = .undefined := by
    rintro ⟨k, j, hk, hj, h⟩
    exact import_ply_outOfBounds buff0 fp body data N nf k j hfmt hhdr hlen htri hk hj h
  refine ⟨hin, hout, ?_⟩
  intro msg hnull
  by_cases hall : ∀ k, k < nf → ∀ j, j < 3 →
      cornerAt (faceStream N data) k j * 8 % 2 ^ 32 + 7 < rawCount N data
  · obtain ⟨m, hm, -⟩ := hin hall
    rw [hm] at hnull
    cases hnull
  · have hex : ∃ k j, k < nf ∧ j < 3 ∧
        rawCount N data ≤ cornerAt (faceStream N data) k j * 8 % 2 ^ 32 + 7 := by
      by_contra hno
      apply hall
      intro k hk j hj
      by_contra hlt
      exact hno ⟨k, j, hk, hj, Nat.le_of_not_lt hlt⟩
    rw [hout hex] at hnull
    cases hnull

end CountClaims

set_option maxRecDepth 100000 in
/-- C1, at the sample file: one face, three vertices and three indices. -/
theorem import_ply_counts_witness :
    checkFormat [] samplePly = .passed (samplePly.drop 36) ∧
    readHeader (samplePly.drop 36) = (3, 1, samplePly.drop 79) ∧
    13 * 1 ≤ (faceStream 3 (samplePly.drop 79)).length ∧
    (∀ k, k < 1 → (faceStream 3 (samplePly.drop 79))[13 * k]? = some 3) ∧
    (∀ k, k < 1 → ∀ j, j < 3 →
      cornerAt (faceStream 3 (samplePly.drop 79)) k j * 8 % 2 ^ 32 + 7 <
        rawCount 3 (samplePly.drop 79)) ∧
    ∃ m : Mesh Float32, import_ply [] (some samplePly) = .mesh m ∧
      m.vertices_num = 3 * 1 ∧ m.indices_num = 3 * 1 ∧
      m.vertices.length = 3 * 1 ∧ m.indices.length = 3 * 1 :=
  ⟨by decide, by decide, by decide, by decide, by decide,
   (import_ply_counts [] samplePly (samplePly.drop 36) (samplePly.drop 79) 3 1
     (by decide) (by decide) (by decide) (by decide)).1 (by decide)⟩

set_option maxRecDepth 100000 in
/-- C1 as stated fails: the file `sampleFarPly` passes the format check, its
header announces three vertices and one face, and its one face record declares
three corners; but its last corner is `536870911`, so `base` points
`4294967288` floats into a block of 24 floats and the read of `base[0]` has no
defined result: `import_ply` does not return a mesh of three vertices. -/
theorem import_ply_sampleFarPly :
    checkFormat [] sampleFarPly = .passed (sampleFarPly.drop 36) ∧
    readHeader (sampleFarPly.drop 36) = (3, 1, sampleFarPly.drop 79) ∧
    13 * 1 ≤ (faceStream 3 (sampleFarPly.drop 79)).length ∧
    (faceStream 3 (sampleFarPly.drop 79))[13 * 0]? = some 3 ∧
    cornerAt (faceStream 3 (sampleFarPly.drop 79)) 0 2 = 536870911 ∧
    536870911 * 8 % 2 ^ 32 = 4294967288 ∧
    rawCount 3 (sampleFarPly.drop 79) = 24 ∧
    (import_ply [] (some sampleFarPly) : ImportResult Float32) = .undefined := by
  decide

/-! ## Count lines in decimal -/

theorem decimal_digit (n : Nat) (c : Byte) (h : c ∈ decimal n) : 48 ≤ c.val ∧ c.val ≤ 57 := by
  unfold decimal at h
  split at h
  · simp at h
    subst h
    decide
  · simp only [List.mem_map, List.mem_reverse] at h
    obtain ⟨d, hd, rfl⟩ := h
    have := Nat.digits_lt_base (by decide : 1 < 10) hd
    simp only [byte_val]
    omega

theorem decimal_ne_nil (n : Nat) : decimal n ≠ [] := by
  unfold decimal
  split
  · simp
  · rename_i h
    simpa using Nat.digits_ne_nil_iff_ne_zero.mpr h

theorem foldl_digits (l : List Nat) (h : ∀ d, d ∈ l → d < 10) :
    (l.reverse.map (fun d => byte (48 + d))).foldl (fun a (d : Byte) => 10 * a + (d.val - 48)) 0 =
      Nat.ofDigits 10 l := by
  induction l with
  | nil => rfl
  | cons d l ih =>
    have hd : d < 10 := h d (by simp)
    have hb : (byte (48 + d)).val - 48 = d := by
      simp only [byte_val]
      omega
    rw [List.reverse_cons, List.map_append, List.foldl_append, ih (fun x hx => h x (by simp [hx]))]
    simp only [List.map_cons, List.map_nil, List.foldl_cons, List.foldl_nil, hb, Nat.ofDigits_cons]
    omega

theorem digitsValue_decimal (n : Nat) : digitsValue (decimal n) = n := by
  unfold decimal digitsValue
  split
  · rename_i h
    subst h
    rfl
  · rw [foldl_digits _ (fun d hd => Nat.digits_lt_base (by decide) hd), Nat.ofDigits_digits]

theorem decimal_length (n : Nat) (h : n < 2 ^ 64) : (decimal n).length ≤ 20 := by
  unfold decimal
  split
  · simp
  · rename_i hn
    simp only [List.length_map, List.length_reverse]
    have h1 := Nat.base_pow_length_digits_le 10 n (by decide) hn
    by_contra hc
    have h2 : 10 ^ 21 ≤ 10 ^ (Nat.digits 10 n).length :=
      Nat.pow_le_pow_right (by decide) (by omega)
    have h3 : (10 : Nat) ^ 21 ≤ 10 * n := le_trans h2 h1
    norm_num at h3 h
    omega

theorem takeWhile_isdigit_decimal (n : Nat) (rest : List Byte) :
    (decimal n ++ 10 :: rest).takeWhile isdigit = decimal n := by
  have h : ∀ l : List Byte, (∀ c, c ∈ l → isdigit c = true) →
      (l ++ 10 :: rest).takeWhile isdigit = l := by
    intro l hl
    induction l with
    | nil =>
      have : isdigit 10 = false := by decide
      simp [List.takeWhile_cons, this]
    | cons c l ih =>
      have hc := hl c (by simp)
      simp [List.takeWhile_cons, hc, ih (fun x hx => hl x (by simp [hx]))]
  apply h
  intro c hc
  have := decimal_digit n c hc
  simp [isdigit, this.1, this.2]


theorem decimal_head (n : Nat) (rest : List Byte) :
    ∃ c T, decimal n ++ 10 :: rest = c :: T ∧ 48 ≤ c.val ∧ c.val ≤ 57 := by
  cases h : decimal n with
  | nil => exact absurd h (decimal_ne_nil n)
  | cons c T =>
    have := decimal_digit n c (by rw [h]; simp)
    exact ⟨c, T ++ 10 :: rest, rfl, this⟩

/-- The `%llu` conversion reads back a number written in decimal. -/
theorem scanULL_decimal (n : Nat) (hn : n < 2 ^ 64) (rest : List Byte) :
    scanULL (decimal n ++ 10 :: rest) = some n := by
  obtain ⟨c, T, hT, h48, h57⟩ := decimal_head n rest
  have hsp : isspace c = false := by
    simp only [isspace, Bool.or_eq_false_iff, Bool.and_eq_false_iff, beq_eq_false_iff_ne,
      decide_eq_false_iff_not]
    omega
  have h45 : c ≠ 45 := fun e => by rw [e] at h48; revert h48; decide
  have h43 : c ≠ 43 := fun e => by rw [e] at h48; revert h48; decide
  have hds : (c :: T).takeWhile isdigit = decimal n := by
    rw [← hT]
    exact takeWhile_isdigit_decimal n rest
  have hv : ¬ n > ULLONG_MAX := by
    simp only [ULLONG_MAX]
    omega
  unfold scanULL
  rw [hT]
  simp only [List.dropWhile_cons, hsp, Bool.false_eq_true, if_false, h45, h43, hds,
    decimal_ne_nil n, digitsValue_decimal, hv]

theorem cstr_eq_self (l : List Byte) (h : (0 : Byte) ∉ l) : cstr l = l :=
  takeWhile_eq_self_of_not_mem l h

theorem decimal_no_nul (n : Nat) : (0 : Byte) ∉ decimal n := fun h =>
  absurd (decimal_digit n 0 h).1 (by decide)

theorem decimal_no_newline (n : Nat) : (10 : Byte) ∉ decimal n := fun h =>
  absurd (decimal_digit n 10 h).1 (by decide)

theorem scanLiteral_match (f : Byte) (fmt s : List Byte) (h : isspace f = false) :
    scanLiteral (f :: fmt) (f :: s) = scanLiteral fmt s := by
  simp [scanLiteral, h]

theorem scanLiteral_space (fmt s : List Byte) :
    scanLiteral (32 :: fmt) s = scanLiteral fmt (s.dropWhile isspace) := by
  have : isspace 32 = true := by decide
  simp [scanLiteral, this]

theorem dropWhile_space (c : Byte) (s : List Byte) (h : isspace c = false) :
    (32 :: c :: s).dropWhile isspace = c :: s := by
  have : isspace 32 = true := by decide
  simp [List.dropWhile_cons, this, h]

/-- The line `element vertex <n>` is one the header loop takes as the vertex
count, and its `sscanf` stores `n`. -/
theorem countLine_vertex (n : Nat) (hn : n < 2 ^ 64) :
    (10 : Byte) ∉ countLine "element vertex" n ∧
    (countLine "element vertex" n).length < 511 ∧
    strncmp_eq (countLine "element vertex" n ++ [10]) (str "element vertex") 14 = true ∧
    sscanf_llu (countLine "element vertex" n ++ [10]) (str "element vertex ") = some n := by
  have hk10 : (10 : Byte) ∉ str "element vertex" := by decide
  have hk0 : (0 : Byte) ∉ str "element vertex" := by decide
  have hklen : (str "element vertex").length = 14 := by decide
  have hline0 : (0 : Byte) ∉ countLine "element vertex" n ++ [10] := by
    simp only [countLine, List.mem_append, List.mem_singleton, not_or]
    exact ⟨⟨⟨hk0, by decide⟩, decimal_no_nul n⟩, by decide⟩
  have hshape : countLine "element vertex" n ++ [10] =
      str "element vertex" ++ 32 :: (decimal n ++ 10 :: []) := by
    simp [countLine]
  refine ⟨?_, ?_, ?_, ?_⟩
  · simp only [countLine, List.mem_append, List.mem_singleton, not_or]
    exact ⟨⟨hk10, by decide⟩, decimal_no_newline n⟩
  · have := decimal_length n hn
    simp only [countLine, List.length_append, hklen, List.length_singleton]
    omega
  · simp only [strncmp_eq, beq_iff_eq, cstr_eq_self _ hline0, cstr_eq_self _ hk0]
    rw [hshape, List.take_left' hklen, ← hklen, List.take_length]
  · obtain ⟨c, T, hT, h48, h57⟩ := decimal_head n []
    have hsp : isspace c = false := by
      simp only [isspace, Bool.or_eq_false_iff, Bool.and_eq_false_iff, beq_eq_false_iff_ne,
        decide_eq_false_iff_not]
      omega
    have hscan : scanLiteral (str "element vertex ")
        (str "element vertex" ++ 32 :: c :: T) = some (c :: T) := by
      have e1 : str "element vertex " =
          [101, 108, 101, 109, 101, 110, 116, 32, 118, 101, 114, 116, 101, 120, 32] := by decide
      have e2 : str "element vertex" =
          [101, 108, 101, 109, 101, 110, 116, 32, 118, 101, 114, 116, 101, 120] := by decide
      have hv : isspace 118 = false := by decide
      rw [e1, e2]
      simp only [List.cons_append, List.nil_append]
      rw [scanLiteral_match _ _ _ (by decide), scanLiteral_match _ _ _ (by decide),
        scanLiteral_match _ _ _ (by decide), scanLiteral_match _ _ _ (by decide),
        scanLiteral_match _ _ _ (by decide), scanLiteral_match _ _ _ (by decide),
        scanLiteral_match _ _ _ (by decide), scanLiteral_space, dropWhile_space _ _ hv,
        scanLiteral_match _ _ _ (by decide), scanLiteral_match _ _ _ (by decide),
        scanLiteral_match _ _ _ (by decide), scanLiteral_match _ _ _ (by decide),
        scanLiteral_match _ _ _ (by decide), scanLiteral_match _ _ _ (by decide),
        scanLiteral_space, dropWhile_space _ _ hsp, scanLiteral]
    rw [sscanf_llu, cstr_eq_self _ hline0, hshape, hT, hscan]
    simp only
    rw [← hT]
    exact scanULL_decimal n hn []


/-- The line `element face <n>` is one the header loop takes as the face count,
and its `sscanf` stores `n`. -/
theorem countLine_face (n : Nat) (hn : n < 2 ^ 64) :
    (10 : Byte) ∉ countLine "element face" n ∧
    (countLine "element face" n).length < 511 ∧
    strncmp_eq (countLine "element face" n ++ [10]) (str "element face") 12 = true ∧
    sscanf_llu (countLine "element face" n ++ [10]) (str "element face ") = some n := by
  have hk10 : (10 : Byte) ∉ str "element face" := by decide
  have hk0 : (0 : Byte) ∉ str "element face" := by decide
  have hklen : (str "element face").length = 12 := by decide
  have hline0 : (0 : Byte) ∉ countLine "element face" n ++ [10] := by
    simp only [countLine, List.mem_append, List.mem_singleton, not_or]
    exact ⟨⟨⟨hk0, by decide⟩, decimal_no_nul n⟩, by decide⟩
  have hshape : countLine "element face" n ++ [10] =
      str "element face" ++ 32 :: (decimal n ++ 10 :: []) := by
    simp [countLine]
  refine ⟨?_, ?_, ?_, ?_⟩
  · simp only [countLine, List.mem_append, List.mem_singleton, not_or]
    exact ⟨⟨hk10, by decide⟩, decimal_no_newline n⟩
  · have := decimal_length n hn
    simp only [countLine, List.length_append, hklen, List.length_singleton]
    omega
  · simp only [strncmp_eq, beq_iff_eq, cstr_eq_self _ hline0, cstr_eq_self _ hk0]
    rw [hshape, List.take_left' hklen, ← hklen, List.take_length]
  · obtain ⟨c, T, hT, h48, h57⟩ := decimal_head n []
    have hsp : isspace c = false := by
      simp only [isspace, Bool.or_eq_false_iff, Bool.and_eq_false_iff, beq_eq_false_iff_ne,
        decide_eq_false_iff_not]
      omega
    have hscan : scanLiteral (str "element face ")
        (str "element face" ++ 32 :: c :: T) = some (c :: T) := by
      have e1 : str "element face " =
          [101, 108, 101, 109, 101, 110, 116, 32, 102, 97, 99, 101, 32] := by decide
      have e2 : str "element face" =
          [101, 108, 101, 109, 101, 110, 116, 32, 102, 97, 99, 101] := by decide
      have hf : isspace 102 = false := by decide
      rw [e1, e2]
      simp only [List.cons_append, List.nil_append]
      rw [scanLiteral_match _ _ _ (by decide), scanLiteral_match _ _ _ (by decide),
        scanLiteral_match _ _ _ (by decide), scanLiteral_match _ _ _ (by decide),
        scanLiteral_match _ _ _ (by decide), scanLiteral_match _ _ _ (by decide),
        scanLiteral_match _ _ _ (by decide), scanLiteral_space, dropWhile_space _ _ hf,
        scanLiteral_match _ _ _ (by decide), scanLiteral_match _ _ _ (by decide),
        scanLiteral_match _ _ _ (by decide), scanLiteral_match _ _ _ (by decide),
        scanLiteral_space, dropWhile_space _ _ hsp, scanLiteral]
    rw [sscanf_llu, cstr_eq_self _ hline0, hshape, hT, hscan]
    simp only
    rw [← hT]
    exact scanULL_decimal n hn []

/-- The two count lines, written in decimal, in either order and followed by
the `end_header` line, give the two counts. -/
theorem readHeader_countLines (N nf : Nat) (rest : List Byte) (hN : N < 2 ^ 64)
    (hnf : nf < 2 ^ 64) :
    readHeader (countLine "element vertex" N ++ 10 ::
      (countLine "element face" nf ++ 10 :: (str "end_header\n" ++ rest))) = (N, nf, rest) ∧
    readHeader (countLine "element face" nf ++ 10 ::
      (countLine "element vertex" N ++ 10 :: (str "end_header\n" ++ rest))) = (N, nf, rest) := by
  obtain ⟨v1, v2, v3, v4⟩ := countLine_vertex N hN
  obtain ⟨f1, f2, f3, f4⟩ := countLine_face nf hnf
  exact readHeader_either_order _ _ rest N nf v1 f1 v2 f2 v3 f3 v4 f4

/-! ## The header, line by line -/

theorem joinLines_append (a b : List (List Byte)) :
    joinLines (a ++ b) = joinLines a ++ joinLines b := by
  simp [joinLines]

section LeniencyClaims

variable {F : Type} [FloatArith F] [FloatRepr F]

end LeniencyClaims

/-- The embedding writes `element vertex 12` as one expects. -/
theorem countLine_example : countLine "element vertex" 12 = str "element vertex 12" := by
  have h : decimal 12 = [49, 50] := by
    simp [decimal]
    decide
  rw [countLine, h]
  decide

section BoundsClaims

variable {F : Type} [FloatArith F] [FloatRepr F]

/-- C18. On a file that passes the format check and holds `nf` triangle
records, let the header declare `N` vertices. If `N ≤ 2 ^ 29`, the raw block of
`8 * N` floats is held in full and every corner is below `N`, then for every
corner `idx` the 32-bit product `idx * 8` is `8 * idx`, each of the reads
`base[0]`, `base[1]`, `base[2]`, `base[6]`, `base[7]` falls at a place below
`8 * N` that holds a float of the block, and the import returns a mesh. The code
does not test the precondition: when a read of some corner falls outside the
block no message is printed and `NULL` is not returned, the import is
undefined. -/
theorem expansion_reads_in_bounds (buff0 fp body data : List Byte) (N nf : Nat)
    (hfmt : checkFormat buff0 fp = .passed body)
    (hhdr : readHeader body = (N, nf, data))
    (hlen : 13 * nf ≤ (faceStream N data).length)
    (htri : ∀ k, k < nf → (faceStream N data)[13 * k]? = some 3) :
    (N ≤ 2 ^ 29 → rawCount N data = 8 * N →
      (∀ k, k < nf → ∀ j, j < 3 → cornerAt (faceStream N data) k j < N) →
      (∃ m : Mesh F, (import_ply buff0 (some fp) : ImportResult F) = .mesh m) ∧
      ∀ k, k < nf → ∀ j, j < 3 → ∀ o, o ∈ [0, 1, 2, 6, 7] →
        cornerAt (faceStream N data) k j * 8 % 2 ^ 32 + o =
          8 * cornerAt (faceStream N data) k j + o ∧
        8 * cornerAt (faceStream N data) k j + o < 8 * N ∧
        ∃ x : F, ((readRaw N data).1 : List F)[cornerAt (faceStream N data) k j * 8 % 2 ^ 32 + o]?
          = some x) ∧
    ((∃ k j, k < nf ∧ j < 3 ∧
        rawCount N data ≤ cornerAt (faceStream N data) k j * 8 % 2 ^ 32 + 7) →
      (import_ply buff0 (some fp) : ImportResult F) = .undefined) := by
  refine ⟨?_, ?_⟩
  · intro hN hraw hidx
    have hb : ∀ k, k < nf → ∀ j, j < 3 →
        cornerAt (faceStream N data) k j * 8 % 2 ^ 32 = 8 * cornerAt (faceStream N data) k j := by
      intro k hk j hj
      have := hidx k hk j hj
      omega
    refine ⟨?_, ?_⟩
    · obtain ⟨m, hm, -⟩ :=
        (import_ply_triangles buff0 fp body data N nf hfmt hhdr hlen htri (by
          intro k hk j hj
          have := hidx k hk j hj
          rw [hb k hk j hj, hraw]
          omega) : ∃ m : Mesh F, _ ∧ _)
      exact ⟨m, hm⟩
    · intro k hk j hj o ho
      have hlt := hidx k hk j hj
      have ho7 : o ≤ 7 := by
        simp only [List.mem_cons, List.mem_singleton, List.not_mem_nil, or_false] at ho
        omega
      refine ⟨by rw [hb k hk j hj], by omega, ?_⟩
      have hin : cornerAt (faceStream N data) k j * 8 % 2 ^ 32 + o <
          ((readRaw N data).1 : List F).length := by
        rw [readRaw_length, hraw, hb k hk j hj]
        omega
      exact ⟨_, List.getElem?_eq_getElem hin⟩
  · rintro ⟨k, j, hk, hj, hout⟩
    exact import_ply_outOfBounds buff0 fp body data N nf k j hfmt hhdr hlen htri hk hj hout

end BoundsClaims

set_option maxRecDepth 100000 in
/-- C18, at the sample file: three vertices and the corners 0, 1, 2. -/
theorem expansion_reads_in_bounds_witness :
    checkFormat [] samplePly = .passed (samplePly.drop 36) ∧
    readHeader (samplePly.drop 36) = (3, 1, samplePly.drop 79) ∧
    13 * 1 ≤ (faceStream 3 (samplePly.drop 79)).length ∧
    (∀ k, k < 1 → (faceStream 3 (samplePly.drop 79))[13 * k]? = some 3) ∧
    3 ≤ 2 ^ 29 ∧ rawCount 3 (samplePly.drop 79) = 8 * 3 ∧
    (∀ k, k < 1 → ∀ j, j < 3 → cornerAt (faceStream 3 (samplePly.drop 79)) k j < 3) ∧
    (∃ m : Mesh Float32, (import_ply [] (some samplePly) : ImportResult Float32) = .mesh m) ∧
    cornerAt (faceStream 3 (samplePly.drop 79)) 0 1 * 8 % 2 ^ 32 + 7 = 8 * 1 + 7 ∧
    ((readRaw 3 (samplePly.drop 79)).1 : List Float32)[8 * 1 + 7]? = some ⟨0⟩ :=
  have h := (expansion_reads_in_bounds (F := Float32) [] samplePly (samplePly.drop 36)
    (samplePly.drop 79) 3 1 (by decide) (by decide) (by decide) (by decide)).1
    (by decide) (by decide) (by decide)
  ⟨by decide, by decide, by decide, by decide, by decide, by decide, by decide, h.1,
   by decide, by decide⟩

set_option maxRecDepth 100000 in
/-- The import of the sample file with a corner `3` among three vertices is
undefined: the corner is not tested against the vertex count. -/
theorem import_ply_sampleStrayPly :
    rawCount 3 (sampleStrayPly.drop 79) = 24 ∧
    cornerAt (faceStream 3 (sampleStrayPly.drop 79)) 0 2 = 3 ∧
    (import_ply [] (some sampleStrayPly) : ImportResult Float32) = .undefined := by
  decide

section FaceFacts

variable {F : Type} [FloatArith F]

/-- The loop of lines 166-209 at face `k`: its three vertices receive the packed
normal of the face, and its three entries of `tangents_temp` the tangent of the
face, both computed from the three vertices as they were before the loop. -/
theorem faceLoop_face (k : Nat) (vs : List (Vertex F)) (v0 v1 v2 : Vertex F)
    (h0 : vs[3 * k]? = some v0) (h1 : vs[3 * k + 1]? = some v1)
    (h2 : vs[3 * k + 2]? = some v2) :
    ((faceLoop vs).1[3 * k]? = some { v0 with normal := faceNormal v0 v1 v2 } ∧
      (faceLoop vs).1[3 * k + 1]? = some { v1 with normal := faceNormal v0 v1 v2 } ∧
      (faceLoop vs).1[3 * k + 2]? = some { v2 with normal := faceNormal v0 v1 v2 }) ∧
    (faceLoop vs).2[3 * k]? = some (faceTangent v0 v1 v2) ∧
    (faceLoop vs).2[3 * k + 1]? = some (faceTangent v0 v1 v2) ∧
    (faceLoop vs).2[3 * k + 2]? = some (faceTangent v0 v1 v2) := by
  induction k generalizing vs with
  | zero =>
    match vs, h0, h1, h2 with
    | a :: b :: c :: rest, h0, h1, h2 =>
      simp at h0 h1 h2
      subst h0 h1 h2
      simp [faceLoop]
  | succ k ih =>
    have e0 : 3 * (k + 1) = 3 * k + 1 + 1 + 1 := by omega
    have e1 : 3 * (k + 1) + 1 = 3 * k + 1 + 1 + 1 + 1 := by omega
    have e2 : 3 * (k + 1) + 2 = 3 * k + 2 + 1 + 1 + 1 := by omega
    rw [e0] at h0
    rw [e1] at h1
    rw [e2] at h2
    rw [e2, e1, e0]
    match vs, h0, h1, h2 with
    | [], h0, _, _ => simp at h0
    | [_], h0, _, _ => simp at h0
    | [_, _], h0, _, _ => simp at h0
    | a :: b :: c :: rest, h0, h1, h2 =>
      simp only [List.getElem?_cons_succ] at h0 h1 h2
      have := ih rest h0 h1 h2
      simpa [faceLoop] using this

/-- The loop of lines 211-213 at place `i`. -/
theorem packTangents_getElem (vs : List (Vertex F)) (ts : List (Vec3 F)) (i : Nat)
    (v : Vertex F) (t : Vec3 F) (hv : vs[i]? = some v) (ht : ts[i]? = some t) :
    (packTangents vs ts)[i]? = some { v with tangent := encode_octahedral t } := by
  simp [packTangents, List.getElem?_zipWith, hv, ht]

/-- The vertices of face `k` in the mesh built from `face_indices`. -/
theorem buildMesh_face (raw : List F) (fi : List Nat) (m : Mesh F) (k a b c : Nat)
    (h : buildMesh raw fi = some m)
    (ha : fi[3 * k]? = some a) (hb : fi[3 * k + 1]? = some b) (hc : fi[3 * k + 2]? = some c) :
    ∃ v0 v1 v2 : Vertex F,
      initVertex raw a = some v0 ∧ initVertex raw b = some v1 ∧ initVertex raw c = some v2 ∧
      m.vertices[3 * k]? = some { v0 with normal := faceNormal v0 v1 v2,
                                          tangent := encode_octahedral (faceTangent v0 v1 v2) } ∧
      m.vertices[3 * k + 1]? = some { v1 with normal := faceNormal v0 v1 v2,
                                              tangent := encode_octahedral (faceTangent v0 v1 v2) } ∧
      m.vertices[3 * k + 2]? = some { v2 with normal := faceNormal v0 v1 v2,
                                              tangent := encode_octahedral (faceTangent v0 v1 v2) } := by
  unfold buildMesh at h
  cases hv : initVertices raw fi with
  | none => simp [hv] at h
  | some vs =>
    simp only [hv, Option.some.injEq] at h
    subst h
    obtain ⟨-, hget⟩ := initVertices_get raw fi vs hv
    obtain ⟨v0, g0, i0⟩ := hget _ _ ha
    obtain ⟨v1, g1, i1⟩ := hget _ _ hb
    obtain ⟨v2, g2, i2⟩ := hget _ _ hc
    obtain ⟨⟨n0, n1, n2⟩, t0, t1, t2⟩ := faceLoop_face k vs v0 v1 v2 g0 g1 g2
    exact ⟨v0, v1, v2, i0, i1, i2,
      packTangents_getElem _ _ _ _ _ n0 t0, packTangents_getElem _ _ _ _ _ n1 t1,
      packTangents_getElem _ _ _ _ _ n2 t2⟩

end FaceFacts

section FlatShading

variable {F : Type} [FloatArith F] [FloatRepr F]

/-- C12. Flat shading: in the mesh of a successful import, for every face `k`
of the `nf` read, the output vertices `3 * k`, `3 * k + 1` and `3 * k + 2` are
the expansions `v0`, `v1`, `v2` of that face's corners (in the order first,
third, second), and all three carry the same packed normal
`faceNormal v0 v1 v2` and the same packed tangent
`encode_octahedral (faceTangent v0 v1 v2)`, both functions of `v0`, `v1`, `v2`
alone. -/
theorem import_ply_flat_shading (buff0 fp body data : List Byte) (N nf : Nat) (m : Mesh F)
    (hfmt : checkFormat buff0 fp = .passed body)
    (hhdr : readHeader body = (N, nf, data))
    (himp : (import_ply buff0 (some fp) : ImportResult F) = .mesh m) :
    m.vertices_num = 3 * nf ∧
    ∀ k, k < nf →
      ∃ v0 v1 v2 : Vertex F,
        initVertex (readRaw N data).1 (cornerAt (faceStream N data) k 0) = some v0 ∧
        initVertex (readRaw N data).1 (cornerAt (faceStream N data) k 2) = some v1 ∧
        initVertex (readRaw N data).1 (cornerAt (faceStream N data) k 1) = some v2 ∧
        m.vertices[3 * k]? =
          some { v0 with normal := faceNormal v0 v1 v2,
                         tangent := encode_octahedral (faceTangent v0 v1 v2) } ∧
        m.vertices[3 * k + 1]? =
          some { v1 with normal := faceNormal v0 v1 v2,
                         tangent := encode_octahedral (faceTangent v0 v1 v2) } ∧
        m.vertices[3 * k + 2]? =
          some { v2 with normal := faceNormal v0 v1 v2,
                         tangent := encode_octahedral (faceTangent v0 v1 v2) } := by
  obtain ⟨fp', body', hfile, hfmt', hm⟩ := import_ply_mesh buff0 (some fp) m himp
  simp only [Option.some.injEq] at hfile
  subst hfile
  rw [hfmt] at hfmt'
  simp only [FormatCheck.passed.injEq] at hfmt'
  subst hfmt'
  simp only [hhdr] at hm
  refine ⟨?_, ?_⟩
  · rw [(buildMesh_some _ _ m hm).1, swappedCorners_length]
  · intro k hk
    obtain ⟨g0, g1, g2⟩ := swappedCorners_get (faceStream N data) nf k hk
    exact buildMesh_face _ _ m k _ _ _ hm g0 g1 g2

end FlatShading

set_option maxRecDepth 100000 in
/-- C12, at the sample file: its three output vertices carry the packed normal
`0xFF7F7F` and the packed tangent `0x80010000`. -/
theorem import_ply_flat_shading_witness :
    checkFormat [] samplePly = .passed (samplePly.drop 36) ∧
    readHeader (samplePly.drop 36) = (3, 1, samplePly.drop 79) ∧
    (import_ply [] (some samplePly) : ImportResult Float32) = .mesh sampleMesh ∧
    sampleMesh.vertices_num = 3 * 1 ∧
    ∃ v0 v1 v2 : Vertex Float32,
      faceNormal v0 v1 v2 = 0xFF7F7F ∧ encode_octahedral (faceTangent v0 v1 v2) = 0x80010000 ∧
      sampleMesh.vertices[3 * 0]? =
        some { v0 with normal := faceNormal v0 v1 v2,
                       tangent := encode_octahedral (faceTangent v0 v1 v2) } ∧
      sampleMesh.vertices[3 * 0 + 1]? =
        some { v1 with normal := faceNormal v0 v1 v2,
                       tangent := encode_octahedral (faceTangent v0 v1 v2) } ∧
      sampleMesh.vertices[3 * 0 + 2]? =
        some { v2 with normal := faceNormal v0 v1 v2,
                       tangent := encode_octahedral (faceTangent v0 v1 v2) } := by
  have h := import_ply_flat_shading (F := Float32) [] samplePly (samplePly.drop 36)
    (samplePly.drop 79) 3 1 sampleMesh (by decide) (by decide) (by decide)
  refine ⟨by decide, by decide, by decide, h.1, ?_⟩
  obtain ⟨v0, v1, v2, -, -, -, h0, h1, h2⟩ := h.2 0 (by decide)
  refine ⟨v0, v1, v2, ?_, ?_, h0, h1, h2⟩
  · have := congrArg (Option.map Vertex.normal) h0
    simpa [sampleMesh] using this.symm
  · have := congrArg (Option.map Vertex.tangent) h0
    simpa [sampleMesh] using this.symm

/-! ## Packing of the normal -/

theorem toUInt8_lt (z : Int) : toUInt8 z < 256 := by
  unfold toUInt8
  omega

theorem toUInt8_of_byte (z : Int) (h0 : 0 ≤ z) (h1 : z ≤ 255) : toUInt8 z = z.toNat := by
  unfold toUInt8
  omega

/-- Three bytes joined with `|` and shifts are their sum with weights `1`,
`2 ^ 8` and `2 ^ 16`: nothing reaches the top byte. -/
theorem or_shift_bytes (b0 b1 b2 : Nat) (h0 : b0 < 256) (h1 : b1 < 256) :
    b0 ||| (b1 <<< 8) ||| (b2 <<< 16) = b0 + 256 * b1 + 65536 * b2 := by
  have e1 : b0 ||| (b1 <<< 8) = 2 ^ 8 * b1 + b0 := by
    rw [Nat.lor_comm, Nat.shiftLeft_eq, Nat.mul_comm]
    exact (Nat.mul_add_lt_is_or (by omega) b1).symm
  have e2 : (2 ^ 8 * b1 + b0) ||| (b2 <<< 16) = 2 ^ 16 * b2 + (2 ^ 8 * b1 + b0) := by
    rw [Nat.lor_comm, Nat.shiftLeft_eq, Nat.mul_comm]
    exact (Nat.mul_add_lt_is_or (by omega) b2).symm
  rw [e1, e2]
  omega

section PackNormal

variable {F : Type} [FloatArith F]

theorem faceNormal_eq_packNormal (v0 v1 v2 : Vertex F) :
    faceNormal v0 v1 v2 = packNormal (normalize (cross (faceEdge v0 v1) (faceEdge v0 v2))) := rfl

theorem faceTangent_eq (v0 v1 v2 : Vertex F) :
    faceTangent v0 v1 v2 = normalize (rawTangent v0 v1 v2) := rfl

/-- The packed normal as a sum of its three bytes, in every arithmetic. -/
theorem packNormal_eq_sum (n : Vec3 F) :
    packNormal n =
      toUInt8 (toInt ((n.x + ofInt 1) * half * ofInt 255)) +
      256 * toUInt8 (toInt ((n.y + ofInt 1) * half * ofInt 255)) +
      65536 * toUInt8 (toInt ((n.z + ofInt 1) * half * ofInt 255)) := by
  have h0 := toUInt8_lt (toInt ((n.x + ofInt 1) * half * ofInt 255))
  have h1 := toUInt8_lt (toInt ((n.y + ofInt 1) * half * ofInt 255))
  have h2 := toUInt8_lt (toInt ((n.z + ofInt 1) * half * ofInt 255))
  unfold packNormal
  rw [or_shift_bytes _ _ _ h0 h1]
  omega

/-- The top byte of the packed normal is zero, in every arithmetic. -/
theorem packNormal_lt (n : Vec3 F) : packNormal n < 2 ^ 24 := by
  rw [packNormal_eq_sum]
  have h0 := toUInt8_lt (toInt ((n.x + ofInt 1) * half * ofInt 255))
  have h1 := toUInt8_lt (toInt ((n.y + ofInt 1) * half * ofInt 255))
  have h2 := toUInt8_lt (toInt ((n.z + ofInt 1) * half * ofInt 255))
  omega

end PackNormal

section ExactPackNormal

variable {K : Type} [LinearOrderedField K] [FloorRing K]

theorem truncate_of_nonneg (a : K) (h : 0 ≤ a) : truncate a = ⌊a⌋ := by
  simp [truncate, h]

/-- In exact arithmetic the byte of a component `c` of `[-1, 1]` is the floor of
`(c + 1) * 0.5 * 255`. -/
theorem normalByte_exact (sqrt : K → K) (c : K) (h0 : -1 ≤ c) (h1 : c ≤ 1) :
    toUInt8 ((exactArith K sqrt).toInt ((c + 1) * (1 / 2) * 255)) = ⌊(c + 1) * (1 / 2) * 255⌋₊ ∧
    ⌊(c + 1) * (1 / 2) * 255⌋₊ ≤ 255 := by
  have hx0 : 0 ≤ (c + 1) * (1 / 2) * 255 := by
    have : 0 ≤ c + 1 := by linarith
    positivity
  have hx1 : (c + 1) * (1 / 2) * 255 ≤ 255 := by linarith
  have hf1 : ⌊(c + 1) * (1 / 2) * 255⌋ ≤ 255 := by
    have := Int.floor_le ((c + 1) * (1 / 2) * 255)
    have h : ((⌊(c + 1) * (1 / 2) * 255⌋ : Int) : K) ≤ ((255 : Int) : K) := by
      push_cast
      linarith
    exact_mod_cast h
  have hf0 : 0 ≤ ⌊(c + 1) * (1 / 2) * 255⌋ := Int.floor_nonneg.mpr hx0
  show toUInt8 (truncate ((c + 1) * (1 / 2) * 255)) = _ ∧ _
  rw [truncate_of_nonneg _ hx0, toUInt8_of_byte _ hf0 hf1]
  refine ⟨rfl, ?_⟩
  show (⌊(c + 1) * (1 / 2) * 255⌋).toNat ≤ 255
  omega

/-- In exact arithmetic the packed normal of a normal with components in
`[-1, 1]` is the sum of the three floors with weights `1`, `2 ^ 8`, `2 ^ 16`. -/
theorem packNormal_exact_sum (sqrt : K → K) (n : Vec3 K)
    (hx : -1 ≤ n.x ∧ n.x ≤ 1) (hy : -1 ≤ n.y ∧ n.y ≤ 1) (hz : -1 ≤ n.z ∧ n.z ≤ 1) :
    @packNormal K (exactArith K sqrt) n =
      ⌊(n.x + 1) * (1 / 2) * 255⌋₊ + 256 * ⌊(n.y + 1) * (1 / 2) * 255⌋₊ +
        65536 * ⌊(n.z + 1) * (1 / 2) * 255⌋₊ := by
  obtain ⟨ex, -⟩ := normalByte_exact sqrt n.x hx.1 hx.2
  obtain ⟨ey, -⟩ := normalByte_exact sqrt n.y hy.1 hy.2
  obtain ⟨ez, -⟩ := normalByte_exact sqrt n.z hz.1 hz.2
  rw [@packNormal_eq_sum K (exactArith K sqrt) n, ← ex, ← ey, ← ez]
  simp [exactArith]

/-- C11, amended. In exact arithmetic, for a normal with every component in
`[-1, 1]`, the packed normal is `b0 | b1 << 8 | b2 << 16` where the byte of a
component `c` is `(c + 1) * 0.5 * 255` truncated toward zero, that is its floor
(the cast `(uint8_t)` does not round); each byte is at most 255 and is read
back from the packed word, whose top byte is zero. In every arithmetic, that of
the program included, the three bytes of the packed normal of a vector `m` are
the conversions `(uint8_t)` of the three products and the top byte is zero. -/
theorem packNormal_truncates {F : Type} [FloatArith F] (m : Vec3 F) (sqrt : K → K) (n : Vec3 K)
    (hx : -1 ≤ n.x ∧ n.x ≤ 1) (hy : -1 ≤ n.y ∧ n.y ≤ 1) (hz : -1 ≤ n.z ∧ n.z ≤ 1) :
    (@packNormal K (exactArith K sqrt) n =
        ⌊(n.x + 1) * (1 / 2) * 255⌋₊ ||| (⌊(n.y + 1) * (1 / 2) * 255⌋₊ <<< 8) |||
          (⌊(n.z + 1) * (1 / 2) * 255⌋₊ <<< 16) ∧
      (⌊(n.x + 1) * (1 / 2) * 255⌋₊ ≤ 255 ∧ ⌊(n.y + 1) * (1 / 2) * 255⌋₊ ≤ 255 ∧
        ⌊(n.z + 1) * (1 / 2) * 255⌋₊ ≤ 255) ∧
      @packNormal K (exactArith K sqrt) n % 256 = ⌊(n.x + 1) * (1 / 2) * 255⌋₊ ∧
      @packNormal K (exactArith K sqrt) n / 2 ^ 8 % 256 = ⌊(n.y + 1) * (1 / 2) * 255⌋₊ ∧
      @packNormal K (exactArith K sqrt) n / 2 ^ 16 % 256 = ⌊(n.z + 1) * (1 / 2) * 255⌋₊ ∧
      @packNormal K (exactArith K sqrt) n / 2 ^ 24 = 0) ∧
    (packNormal m % 256 = toUInt8 (toInt ((m.x + ofInt 1) * half * ofInt 255)) ∧
      packNormal m / 2 ^ 8 % 256 = toUInt8 (toInt ((m.y + ofInt 1) * half * ofInt 255)) ∧
      packNormal m / 2 ^ 16 % 256 = toUInt8 (toInt ((m.z + ofInt 1) * half * ofInt 255)) ∧
      packNormal m / 2 ^ 24 = 0) := by
  obtain ⟨-, bx⟩ := normalByte_exact sqrt n.x hx.1 hx.2
  obtain ⟨-, bY⟩ := normalByte_exact sqrt n.y hy.1 hy.2
  obtain ⟨-, bz⟩ := normalByte_exact sqrt n.z hz.1 hz.2
  have e := packNormal_exact_sum sqrt n hx hy hz
  have s := or_shift_bytes _ _ ⌊(n.z + 1) * (1 / 2) * 255⌋₊ (Nat.lt_succ_of_le bx)
    (Nat.lt_succ_of_le bY)
  have g := packNormal_eq_sum m
  have g0 := toUInt8_lt (toInt ((m.x + ofInt 1) * half * ofInt 255))
  have g1 := toUInt8_lt (toInt ((m.y + ofInt 1) * half * ofInt 255))
  have g2 := toUInt8_lt (toInt ((m.z + ofInt 1) * half * ofInt 255))
  refine ⟨⟨by rw [e, s], ⟨bx, bY, bz⟩, ?_, ?_, ?_, ?_⟩, ?_, ?_, ?_, ?_⟩
  iterate 4 rw [e]; omega
  all_goals rw [g]; omega

end ExactPackNormal

set_option maxRecDepth 100000 in
/-- C11, at the normal `(0, 1/2, 1)` in exact arithmetic, where the first byte
is 127, and at the normal `(0, 0, 1)` in binary32. -/
theorem packNormal_truncates_witness :
    (-1 ≤ (0 : ℚ) ∧ (0 : ℚ) ≤ 1) ∧ (-1 ≤ (1 / 2 : ℚ) ∧ (1 / 2 : ℚ) ≤ 1) ∧
    (-1 ≤ (1 : ℚ) ∧ (1 : ℚ) ≤ 1) ∧
    @packNormal ℚ exactRat ⟨0, 1 / 2, 1⟩ % 256 = ⌊((0 : ℚ) + 1) * (1 / 2) * 255⌋₊ ∧
    ⌊((0 : ℚ) + 1) * (1 / 2) * 255⌋₊ = 127 ∧
    @packNormal ℚ exactRat ⟨0, 1 / 2, 1⟩ / 2 ^ 24 = 0 ∧
    packNormal (⟨⟨0⟩, ⟨0⟩, ⟨0x3F800000⟩⟩ : Vec3 Float32) % 256 =
      toUInt8 (toInt (((⟨0⟩ : Float32) + ofInt 1) * half * ofInt 255)) ∧
    toUInt8 (toInt (((⟨0⟩ : Float32) + ofInt 1) * half * ofInt 255)) = 127 :=
  have h := packNormal_truncates (⟨⟨0⟩, ⟨0⟩, ⟨0x3F800000⟩⟩ : Vec3 Float32) sqrtRat
    (⟨0, 1 / 2, 1⟩ : Vec3 ℚ) (by norm_num) (by norm_num) (by norm_num)
  ⟨by norm_num, by norm_num, by norm_num, h.1.2.2.1,
   by norm_num [Nat.floor_eq_iff], h.1.2.2.2.2.2, h.2.1, by decide⟩

set_option maxRecDepth 100000 in
/-- C11 as stated fails: a zero component packs to 127, the truncation of 127.5,
while `round(127.5)` is 128. In exact arithmetic the normal `(0, 0, 1)` packs
to `0xFF7F7F`, and so does it in binary32; the zero normal of a degenerate
triangle (three corners at one place) packs to `0x7F7F7F`. -/
theorem packNormal_zero_component :
    @packNormal ℚ exactRat ⟨0, 0, 1⟩ = 0xFF7F7F ∧ 0xFF7F7F % 256 = 127 ∧
    round (((0 : ℚ) + 1) * (1 / 2) * 255) = 128 ∧
    packNormal (⟨⟨0⟩, ⟨0⟩, ⟨0x3F800000⟩⟩ : Vec3 Float32) = 0xFF7F7F ∧
    (∀ v : Vertex Float32, v ∈ sampleMesh.vertices → faceNormal v v v = 0x7F7F7F) := by
  refine ⟨?_, by decide, ?_, by decide, by decide⟩
  · rw [show @packNormal ℚ exactRat ⟨0, 0, 1⟩ = _ from
      packNormal_exact_sum sqrtRat (⟨0, 0, 1⟩ : Vec3 ℚ) (by norm_num) (by norm_num) (by norm_num)]
    have h0 : ⌊((0 : ℚ) + 1) * (1 / 2) * 255⌋₊ = 127 := by norm_num [Nat.floor_eq_iff]
    have h1 : ⌊((1 : ℚ) + 1) * (1 / 2) * 255⌋₊ = 255 := by norm_num [Nat.floor_eq_iff]
    simp only [h0, h1]
  · norm_num [round_eq, Int.floor_eq_iff]

/-! ## Octahedral round trip on the axes -/

set_option maxRecDepth 100000 in
/-- C16. In binary32, for each of the six axis-aligned unit vectors `a`,
decoding `encode_octahedral a` and encoding the result again gives the same
packed word; the six words are `0x7FFF0000`, `0x80010000`, `0x00007FFF`,
`0x00008001`, `0x00000000` and `0x7FFF7FFF`, the first being that of
`(1, 0, 0)`. -/
theorem encode_octahedral_axes :
    (∀ a ∈ (axisVectors : List (Vec3 Float32)),
      encode_octahedral (decode_octahedral (encode_octahedral a) : Vec3 Float32) =
        encode_octahedral a) ∧
    encode_octahedral (⟨ofInt 1, ofInt 0, ofInt 0⟩ : Vec3 Float32) = 0x7FFF0000 ∧
    (axisVectors : List (Vec3 Float32)).map encode_octahedral =
      [0x7FFF0000, 0x80010000, 0x00007FFF, 0x00008001, 0x00000000, 0x7FFF7FFF] := by
  decide

/-- The axis vectors in binary32, by their bit patterns. -/
theorem axisVectors_bits :
    (axisVectors : List (Vec3 Float32)) =
      [⟨⟨0x3F800000⟩, ⟨0⟩, ⟨0⟩⟩, ⟨⟨0xBF800000⟩, ⟨0⟩, ⟨0⟩⟩,
       ⟨⟨0⟩, ⟨0x3F800000⟩, ⟨0⟩⟩, ⟨⟨0⟩, ⟨0xBF800000⟩, ⟨0⟩⟩,
       ⟨⟨0⟩, ⟨0⟩, ⟨0x3F800000⟩⟩, ⟨⟨0⟩, ⟨0⟩, ⟨0xBF800000⟩⟩] := by
  decide

set_option maxRecDepth 100000 in
/-- On the axes the decoder gives back the vector itself, bit for bit. -/
theorem decode_octahedral_axes :
    (axisVectors : List (Vec3 Float32)).map
        (fun a => (decode_octahedral (encode_octahedral a) : Vec3 Float32)) =
      [⟨⟨0x3F800000⟩, ⟨0⟩, ⟨0⟩⟩, ⟨⟨0xBF800000⟩, ⟨0⟩, ⟨0⟩⟩,
       ⟨⟨0⟩, ⟨0x3F800000⟩, ⟨0⟩⟩, ⟨⟨0⟩, ⟨0xBF800000⟩, ⟨0⟩⟩,
       ⟨⟨0⟩, ⟨0⟩, ⟨0x3F800000⟩⟩, ⟨⟨0⟩, ⟨0⟩, ⟨0xBF800000⟩⟩] := by
  decide

/-! ## The packed tangent -/

theorem toUInt16_lt (z : Int) : toUInt16 z < 65536 := by
  unfold toUInt16
  omega

theorem toInt16_range (z : Int) : -32768 ≤ toInt16 z ∧ toInt16 z ≤ 32767 := by
  unfold toInt16
  omega

theorem toInt16_of_range (z : Int) (h0 : -32768 ≤ z) (h1 : z ≤ 32767) : toInt16 z = z := by
  unfold toInt16
  omega

theorem toInt16_toUInt16 (z : Int) (h0 : -32768 ≤ z) (h1 : z ≤ 32767) :
    toInt16 (toUInt16 z) = z := by
  unfold toInt16 toUInt16
  omega

/-- Two halves joined as `(a << 16) | (b & 0xFFFF)` are `a * 2 ^ 16 + b`. -/
theorem or_shift_halves (a b : Nat) (ha : a < 65536) (hb : b < 65536) :
    ((a <<< 16) ||| (b &&& 0xFFFF)) % 2 ^ 32 = a * 65536 + b ∧
    (a <<< 16) ||| b = a * 65536 + b := by
  have e : (a <<< 16) ||| b = a * 65536 + b := by
    rw [Nat.shiftLeft_eq, Nat.mul_comm]
    exact (Nat.mul_add_lt_is_or (by omega) a).symm
  have m : b &&& 0xFFFF = b := Nat.and_pow_two_sub_one_of_lt_two_pow (n := 16) (by omega)
  rw [m, e]
  exact ⟨by omega, rfl⟩

section EncodeFacts

variable {F : Type} [FloatArith F]

theorem float_to_int16_range (v : F) :
    -32768 ≤ float_to_int16 v ∧ float_to_int16 v ≤ 32767 :=
  toInt16_range _

theorem encode_octahedral_eq (n : Vec3 F) :
    encode_octahedral n =
      ((toUInt16 (float_to_int16 (octahedralPoint n).1) <<< 16) |||
        (toUInt16 (float_to_int16 (octahedralPoint n).2) &&& 0xFFFF)) % 2 ^ 32 := rfl

/-- In every arithmetic the packed tangent holds `ix` in its high half and `iy`
in its low half, each as a 16-bit two's complement. -/
theorem encode_octahedral_eq_sum (n : Vec3 F) :
    encode_octahedral n =
      toUInt16 (float_to_int16 (octahedralPoint n).1) * 65536 +
        toUInt16 (float_to_int16 (octahedralPoint n).2) := by
  rw [encode_octahedral_eq]
  exact (or_shift_halves _ _ (toUInt16_lt _) (toUInt16_lt _)).1

/-- In every arithmetic `ix` and `iy` are read back from the packed tangent. -/
theorem encode_octahedral_halves (n : Vec3 F) :
    encode_octahedral n / 2 ^ 16 = toUInt16 (float_to_int16 (octahedralPoint n).1) ∧
    encode_octahedral n % 2 ^ 16 = toUInt16 (float_to_int16 (octahedralPoint n).2) ∧
    toInt16 (encode_octahedral n / 2 ^ 16 : Nat) = float_to_int16 (octahedralPoint n).1 ∧
    toInt16 (encode_octahedral n % 2 ^ 16 : Nat) = float_to_int16 (octahedralPoint n).2 := by
  have hx := float_to_int16_range (octahedralPoint n).1
  have hy := float_to_int16_range (octahedralPoint n).2
  have ux := toUInt16_lt (float_to_int16 (octahedralPoint n).1)
  have uy := toUInt16_lt (float_to_int16 (octahedralPoint n).2)
  have d : encode_octahedral n / 2 ^ 16 = toUInt16 (float_to_int16 (octahedralPoint n).1) := by
    rw [encode_octahedral_eq_sum]
    omega
  have m : encode_octahedral n % 2 ^ 16 = toUInt16 (float_to_int16 (octahedralPoint n).2) := by
    rw [encode_octahedral_eq_sum]
    omega
  refine ⟨d, m, ?_, ?_⟩
  · rw [d]
    exact toInt16_toUInt16 _ hx.1 hx.2
  · rw [m]
    exact toInt16_toUInt16 _ hy.1 hy.2

end EncodeFacts
section ExactFacts

variable {K : Type} [LinearOrderedField K] [FloorRing K]

theorem float_to_int16_exact (sqrt : K → K) (v : K) :
    @float_to_int16 K (exactArith K sqrt) v =
      toInt16 (truncate (max (-1) (min v 1) * 32767)) := by
  simp [float_to_int16, exactArith]

/-- In exact arithmetic the code computes the point of the specification. -/
theorem octahedralPoint_exact (sqrt : K → K) (n : Vec3 K) :
    @octahedralPoint K (exactArith K sqrt) n = octahedralPointSpec n := by
  have e : ∀ a : K, a * (1 / (|n.x| + |n.y| + |n.z|)) = a / (|n.x| + |n.y| + |n.z|) :=
    fun a => mul_one_div a _
  by_cases h : 0 ≤ n.z / (|n.x| + |n.y| + |n.z|)
  · simp only [octahedralPoint, octahedralPointSpec, exactArith, Int.cast_one, Int.cast_zero,
      decide_eq_true_eq, if_pos h, e, if_neg (not_lt.mpr h)]
  · simp only [octahedralPoint, octahedralPointSpec, exactArith, Int.cast_one, Int.cast_zero,
      decide_eq_true_eq, if_neg h, e, if_pos (not_le.mp h), signOf]

/-- C15. In exact arithmetic, for a vector `n` with non-zero L1 norm `s`, the
point `n / s` lies on the octahedron `|x0| + |y0| + |z0| = 1`, and
`encode_octahedral n` is `((uint16) ix << 16) | (uint16) iy` with
`ix = float_to_int16 x`, `iy = float_to_int16 y`, where `(x, y)` is the point of
the specification: `(x0, y0)` if `z0 ≥ 0`, else
`((1 - |y0|) * sign x0, (1 - |x0|) * sign y0)`. The high 16 bits of the word are
the two's complement of `ix`, the low 16 bits that of `iy`, and `ix`, `iy` are
read back from the word. In every arithmetic, that of the program included, the
two halves of the packed word of a vector `m` are the two's complements of the
`ix` and `iy` the code computes, and both are read back from the word. -/
theorem encode_octahedral_formula {F : Type} [FloatArith F] (m : Vec3 F)
    (sqrt : K → K) (n : Vec3 K)
    (hs : |n.x| + |n.y| + |n.z| ≠ 0) (ix iy : Int)
    (hix : ix = @float_to_int16 K (exactArith K sqrt) (octahedralPointSpec n).1)
    (hiy : iy = @float_to_int16 K (exactArith K sqrt) (octahedralPointSpec n).2) :
    (|n.x / (|n.x| + |n.y| + |n.z|)| + |n.y / (|n.x| + |n.y| + |n.z|)| +
        |n.z / (|n.x| + |n.y| + |n.z|)| = 1 ∧
      @encode_octahedral K (exactArith K sqrt) n = (toUInt16 ix <<< 16) ||| toUInt16 iy ∧
      ((@encode_octahedral K (exactArith K sqrt) n / 2 ^ 16 : Nat) : Int) =
        (if 0 ≤ ix then ix else ix + 65536) ∧
      ((@encode_octahedral K (exactArith K sqrt) n % 2 ^ 16 : Nat) : Int) =
        (if 0 ≤ iy then iy else iy + 65536) ∧
      toInt16 (@encode_octahedral K (exactArith K sqrt) n / 2 ^ 16 : Nat) = ix ∧
      toInt16 (@encode_octahedral K (exactArith K sqrt) n % 2 ^ 16 : Nat) = iy) ∧
    (encode_octahedral m / 2 ^ 16 = toUInt16 (float_to_int16 (octahedralPoint m).1) ∧
      encode_octahedral m % 2 ^ 16 = toUInt16 (float_to_int16 (octahedralPoint m).2) ∧
      toInt16 (encode_octahedral m / 2 ^ 16 : Nat) = float_to_int16 (octahedralPoint m).1 ∧
      toInt16 (encode_octahedral m % 2 ^ 16 : Nat) = float_to_int16 (octahedralPoint m).2) := by
  have hx := @float_to_int16_range K (exactArith K sqrt) (octahedralPointSpec n).1
  have hy := @float_to_int16_range K (exactArith K sqrt) (octahedralPointSpec n).2
  rw [← hix] at hx
  rw [← hiy] at hy
  have e : @encode_octahedral K (exactArith K sqrt) n = toUInt16 ix * 65536 + toUInt16 iy := by
    rw [@encode_octahedral_eq_sum K (exactArith K sqrt) n, octahedralPoint_exact, hix, hiy]
  have hux := toUInt16_lt ix
  have huy := toUInt16_lt iy
  have tx := toInt16_toUInt16 ix hx.1 hx.2
  have ty := toInt16_toUInt16 iy hy.1 hy.2
  have cx : ((toUInt16 ix : Nat) : Int) = if 0 ≤ ix then ix else ix + 65536 := by
    unfold toUInt16
    split <;> omega
  have cy : ((toUInt16 iy : Nat) : Int) = if 0 ≤ iy then iy else iy + 65536 := by
    unfold toUInt16
    split <;> omega
  have d : (toUInt16 ix * 65536 + toUInt16 iy) / 2 ^ 16 = toUInt16 ix := by omega
  have r : (toUInt16 ix * 65536 + toUInt16 iy) % 2 ^ 16 = toUInt16 iy := by omega
  refine ⟨⟨?_, ?_, ?_, ?_, ?_, ?_⟩, encode_octahedral_halves m⟩
  · have hpos : 0 < |n.x| + |n.y| + |n.z| :=
      lt_of_le_of_ne (by positivity) (Ne.symm hs)
    rw [abs_div, abs_div, abs_div, abs_of_pos hpos, ← add_div, ← add_div, div_self hs]
  · rw [e, (or_shift_halves _ _ hux huy).2]
  · rw [e, d, cx]
  · rw [e, r, cy]
  · rw [e, d, tx]
  · rw [e, r, ty]

end ExactFacts
set_option maxRecDepth 100000 in
/-- C15, at the vector `(-1, 2, -1)` in exact arithmetic: `n / s` is
`(-1/4, 1/2, -1/4)`, folded to `(-1/2, 3/4)`, so `ix = -16383` and
`iy = 24575`, and the word is `0xC0015FFF`; and at the vector `(0, 0, -1)` in
binary32, whose word is `0x7FFF7FFF`. -/
theorem encode_octahedral_formula_witness :
    |(-1 : ℚ)| + |(2 : ℚ)| + |(-1 : ℚ)| ≠ 0 ∧
    (-16383 : Int) = @float_to_int16 ℚ exactRat (octahedralPointSpec (⟨-1, 2, -1⟩ : Vec3 ℚ)).1 ∧
    (24575 : Int) = @float_to_int16 ℚ exactRat (octahedralPointSpec (⟨-1, 2, -1⟩ : Vec3 ℚ)).2 ∧
    @encode_octahedral ℚ exactRat ⟨-1, 2, -1⟩ = (toUInt16 (-16383) <<< 16) ||| toUInt16 24575 ∧
    (toUInt16 (-16383) <<< 16) ||| toUInt16 24575 = 0xC0015FFF ∧
    toInt16 (@encode_octahedral ℚ exactRat ⟨-1, 2, -1⟩ / 2 ^ 16 : Nat) = -16383 ∧
    encode_octahedral (⟨⟨0⟩, ⟨0⟩, ⟨0xBF800000⟩⟩ : Vec3 Float32) = 0x7FFF7FFF ∧
    toInt16 (encode_octahedral (⟨⟨0⟩, ⟨0⟩, ⟨0xBF800000⟩⟩ : Vec3 Float32) / 2 ^ 16 : Nat) =
      float_to_int16 (octahedralPoint (⟨⟨0⟩, ⟨0⟩, ⟨0xBF800000⟩⟩ : Vec3 Float32)).1 :=
  have hp : octahedralPointSpec (⟨-1, 2, -1⟩ : Vec3 ℚ) = (-1 / 2, 3 / 4) := by
    norm_num [octahedralPointSpec, signOf, abs_of_pos]
  have hix : (-16383 : Int) =
      @float_to_int16 ℚ exactRat (octahedralPointSpec (⟨-1, 2, -1⟩ : Vec3 ℚ)).1 := by
    have hc : ⌈(-(32767 / 2) : ℚ)⌉ = -16383 := by
      rw [Int.ceil_eq_iff]
      norm_num
    rw [hp, float_to_int16_exact]
    norm_num [truncate, toInt16, hc]
  have hiy : (24575 : Int) =
      @float_to_int16 ℚ exactRat (octahedralPointSpec (⟨-1, 2, -1⟩ : Vec3 ℚ)).2 := by
    rw [hp, float_to_int16_exact]
    norm_num [truncate, toInt16, Int.floor_eq_iff]
  have h := encode_octahedral_formula (⟨⟨0⟩, ⟨0⟩, ⟨0xBF800000⟩⟩ : Vec3 Float32) sqrtRat
    (⟨-1, 2, -1⟩ : Vec3 ℚ) (by norm_num) (-16383) 24575 hix hiy
  ⟨by norm_num, hix, hiy, h.1.2.1, by decide, h.1.2.2.2.2.1, by decide, h.2.2.2.1⟩

/-! ## Normalisation and scale in exact arithmetic -/

section FieldFacts

variable {K : Type} [LinearOrderedField K]

/-- The point of the specification does not change when the vector is scaled by
a positive factor. -/
theorem octahedralPointSpec_scale (k : K) (hk : 0 < k) (n : Vec3 K) :
    octahedralPointSpec (scaleVec k n) = octahedralPointSpec n := by
  have hs : |k * n.x| + |k * n.y| + |k * n.z| = k * (|n.x| + |n.y| + |n.z|) := by
    rw [abs_mul, abs_mul, abs_mul, abs_of_pos hk]
    ring
  have e : ∀ a : K, k * a / (k * (|n.x| + |n.y| + |n.z|)) = a / (|n.x| + |n.y| + |n.z|) :=
    fun a => mul_div_mul_left a _ (ne_of_gt hk)
  simp only [octahedralPointSpec, scaleVec, hs, e]

theorem l1_scale_ne_zero (k : K) (hk : 0 < k) (n : Vec3 K)
    (hs : |n.x| + |n.y| + |n.z| ≠ 0) :
    |(scaleVec k n).x| + |(scaleVec k n).y| + |(scaleVec k n).z| ≠ 0 := by
  have e : |k * n.x| + |k * n.y| + |k * n.z| = k * (|n.x| + |n.y| + |n.z|) := by
    rw [abs_mul, abs_mul, abs_mul, abs_of_pos hk]
    ring
  show |k * n.x| + |k * n.y| + |k * n.z| ≠ 0
  rw [e]
  exact mul_ne_zero (ne_of_gt hk) hs

/-- A vector with non-zero L1 norm has a positive squared length. -/
theorem sq_length_pos (n : Vec3 K) (hs : |n.x| + |n.y| + |n.z| ≠ 0) :
    0 < n.x * n.x + n.y * n.y + n.z * n.z := by
  by_contra h
  have hx := mul_self_nonneg n.x
  have hy := mul_self_nonneg n.y
  have hz := mul_self_nonneg n.z
  have ex : n.x * n.x = 0 := by linarith
  have ey : n.y * n.y = 0 := by linarith
  have ez : n.z * n.z = 0 := by linarith
  rw [mul_self_eq_zero] at ex ey ez
  exact hs (by simp [ex, ey, ez])

end FieldFacts

section ExactScale

variable {K : Type} [LinearOrderedField K] [FloorRing K]

theorem encode_octahedral_scale (sqrt : K → K) (k : K) (hk : 0 < k) (n : Vec3 K) :
    @encode_octahedral K (exactArith K sqrt) (scaleVec k n) =
      @encode_octahedral K (exactArith K sqrt) n := by
  rw [@encode_octahedral_eq_sum K (exactArith K sqrt), @encode_octahedral_eq_sum K (exactArith K sqrt),
    octahedralPoint_exact, octahedralPoint_exact, octahedralPointSpec_scale k hk]

/-- In exact arithmetic, with the square root exact at the squared length `q`
of `v` and `q` non-zero, `normalize v` is `v` scaled by `1 / sqrt q`, a
positive factor. -/
theorem normalize_exact_scale (sqrt : K → K) (v : Vec3 K)
    (hq : v.x * v.x + v.y * v.y + v.z * v.z ≠ 0)
    (hsq : ExactAt sqrt (v.x * v.x + v.y * v.y + v.z * v.z)) :
    0 < sqrt (v.x * v.x + v.y * v.y + v.z * v.z) ∧
    @normalize K (exactArith K sqrt) v =
      scaleVec (1 / sqrt (v.x * v.x + v.y * v.y + v.z * v.z)) v := by
  obtain ⟨h0, h1⟩ := hsq
  have hne : sqrt (v.x * v.x + v.y * v.y + v.z * v.z) ≠ 0 := by
    intro h
    rw [h, mul_zero] at h1
    exact hq h1.symm
  refine ⟨lt_of_le_of_ne h0 (Ne.symm hne), ?_⟩
  simp only [normalize, exactArith, Int.cast_zero, decide_eq_true_eq, if_neg hne, scaleVec,
    one_div, inv_mul_eq_div]

/-- C19. In exact arithmetic, for a vector `n` with non-zero L1 norm and a
scalar `k > 0`, the vector `k * n` has non-zero L1 norm too and
`encode_octahedral (k * n) = encode_octahedral n`. Consequently, where the
square root is exact at the squared length of `n` (as the real square root is
everywhere), `normalize n` is `n` scaled by a positive factor and
`encode_octahedral (normalize n) = encode_octahedral n`: the normalisation of
the tangent does not change the packed value. -/
theorem encode_octahedral_scale_invariant (sqrt : K → K) (n : Vec3 K) (k : K)
    (hs : |n.x| + |n.y| + |n.z| ≠ 0) (hk : 0 < k) :
    |(scaleVec k n).x| + |(scaleVec k n).y| + |(scaleVec k n).z| ≠ 0 ∧
    @encode_octahedral K (exactArith K sqrt) (scaleVec k n) =
      @encode_octahedral K (exactArith K sqrt) n ∧
    (ExactAt sqrt (n.x * n.x + n.y * n.y + n.z * n.z) →
      @encode_octahedral K (exactArith K sqrt) (@normalize K (exactArith K sqrt) n) =
        @encode_octahedral K (exactArith K sqrt) n) := by
  refine ⟨l1_scale_ne_zero k hk n hs, encode_octahedral_scale sqrt k hk n, ?_⟩
  intro hsq
  obtain ⟨hpos, hn⟩ := normalize_exact_scale sqrt n (ne_of_gt (sq_length_pos n hs)) hsq
  rw [hn]
  exact encode_octahedral_scale sqrt _ (one_div_pos.mpr hpos) n

end ExactScale

theorem sqrtRat_25 : sqrtRat 25 = 5 := by
  have h : isqrt 25 = 5 := by decide
  have h1 : isqrt 1 = 1 := by decide
  simp [sqrtRat, h, h1]

theorem exactAt_sqrtRat_25 : ExactAt sqrtRat 25 := by
  unfold ExactAt
  rw [sqrtRat_25]
  norm_num

/-- C19, at the vector `(3, 4, 0)` and the factor `2` in exact arithmetic, where
the length is `5`. -/
theorem encode_octahedral_scale_invariant_witness :
    |(3 : ℚ)| + |(4 : ℚ)| + |(0 : ℚ)| ≠ 0 ∧ (0 : ℚ) < 2 ∧
    @encode_octahedral ℚ exactRat (scaleVec 2 ⟨3, 4, 0⟩) = @encode_octahedral ℚ exactRat ⟨3, 4, 0⟩ ∧
    ExactAt sqrtRat ((3 : ℚ) * 3 + 4 * 4 + 0 * 0) ∧
    @encode_octahedral ℚ exactRat (@normalize ℚ exactRat ⟨3, 4, 0⟩) =
      @encode_octahedral ℚ exactRat ⟨3, 4, 0⟩ :=
  have hq : ExactAt sqrtRat ((3 : ℚ) * 3 + 4 * 4 + 0 * 0) := by
    norm_num
    exact exactAt_sqrtRat_25
  have h := encode_octahedral_scale_invariant sqrtRat (⟨3, 4, 0⟩ : Vec3 ℚ) 2 (by norm_num)
    (by norm_num)
  ⟨by norm_num, by norm_num, h.2.1, hq, h.2.2 hq⟩
/-! ## Function `normalize` -/

section ExactNormalize

variable {K : Type} [LinearOrderedField K] [FloorRing K]

/-- In exact arithmetic `normalize` maps the zero vector to itself, whatever the
square root. -/
theorem normalize_exact_zero (sqrt : K → K) :
    @normalize K (exactArith K sqrt) ⟨0, 0, 0⟩ = ⟨0, 0, 0⟩ := by
  simp only [normalize, exactArith, Int.cast_zero, decide_eq_true_eq, zero_div]
  split <;> rfl

/-- C14. In exact arithmetic, for a vector `v` of non-zero length, with the
square root exact at the squared length of `v` and at `1` (as the real square
root is everywhere): `normalize v` has squared length `1`, so its Euclidean
length is `1`, and it is `v` scaled by a positive factor. The zero vector is
mapped to the zero vector, in exact arithmetic and in binary32. -/
theorem normalize_unit (sqrt : K → K) (v : Vec3 K)
    (hv : v.x * v.x + v.y * v.y + v.z * v.z ≠ 0)
    (hsq : ExactAt sqrt (v.x * v.x + v.y * v.y + v.z * v.z)) (hone : ExactAt sqrt 1) :
    (@normalize K (exactArith K sqrt) v).x * (@normalize K (exactArith K sqrt) v).x +
      (@normalize K (exactArith K sqrt) v).y * (@normalize K (exactArith K sqrt) v).y +
      (@normalize K (exactArith K sqrt) v).z * (@normalize K (exactArith K sqrt) v).z = 1 ∧
    sqrt ((@normalize K (exactArith K sqrt) v).x * (@normalize K (exactArith K sqrt) v).x +
      (@normalize K (exactArith K sqrt) v).y * (@normalize K (exactArith K sqrt) v).y +
      (@normalize K (exactArith K sqrt) v).z * (@normalize K (exactArith K sqrt) v).z) = 1 ∧
    (∃ c : K, 0 < c ∧ @normalize K (exactArith K sqrt) v = scaleVec c v) ∧
    @normalize K (exactArith K sqrt) ⟨0, 0, 0⟩ = ⟨0, 0, 0⟩ ∧
    normalize (⟨⟨0⟩, ⟨0⟩, ⟨0⟩⟩ : Vec3 Float32) = ⟨⟨0⟩, ⟨0⟩, ⟨0⟩⟩ := by
  obtain ⟨hpos, hn⟩ := normalize_exact_scale sqrt v hv hsq
  have hne := ne_of_gt hpos
  have hunit : (@normalize K (exactArith K sqrt) v).x * (@normalize K (exactArith K sqrt) v).x +
      (@normalize K (exactArith K sqrt) v).y * (@normalize K (exactArith K sqrt) v).y +
      (@normalize K (exactArith K sqrt) v).z * (@normalize K (exactArith K sqrt) v).z = 1 := by
    rw [hn]
    simp only [scaleVec]
    have h2 := hsq.2
    field_simp
    linear_combination (-1 : K) * h2
  have hroot : sqrt 1 = 1 := by
    obtain ⟨h0, h1⟩ := hone
    have : (sqrt 1 - 1) * (sqrt 1 + 1) = 0 := by linear_combination h1
    rcases mul_eq_zero.mp this with h | h
    · linarith
    · linarith
  refine ⟨hunit, by rw [hunit, hroot], ⟨_, one_div_pos.mpr hpos, hn⟩,
    normalize_exact_zero sqrt, by decide⟩

end ExactNormalize

theorem exactAt_sqrtRat_1 : ExactAt sqrtRat 1 := by
  have h1 : isqrt 1 = 1 := by decide
  simp [ExactAt, sqrtRat, h1]

/-- C14, at the vector `(3, 4, 0)` in exact arithmetic: its length is `5` and
`normalize` gives `(3/5, 4/5, 0)`. -/
theorem normalize_unit_witness :
    (3 : ℚ) * 3 + 4 * 4 + 0 * 0 ≠ 0 ∧
    ExactAt sqrtRat ((3 : ℚ) * 3 + 4 * 4 + 0 * 0) ∧ ExactAt sqrtRat 1 ∧
    @normalize ℚ exactRat ⟨3, 4, 0⟩ = ⟨3 / 5, 4 / 5, 0⟩ ∧
    (@normalize ℚ exactRat ⟨3, 4, 0⟩).x * (@normalize ℚ exactRat ⟨3, 4, 0⟩).x +
      (@normalize ℚ exactRat ⟨3, 4, 0⟩).y * (@normalize ℚ exactRat ⟨3, 4, 0⟩).y +
      (@normalize ℚ exactRat ⟨3, 4, 0⟩).z * (@normalize ℚ exactRat ⟨3, 4, 0⟩).z = 1 :=
  have hq : ExactAt sqrtRat ((3 : ℚ) * 3 + 4 * 4 + 0 * 0) := by
    norm_num
    exact exactAt_sqrtRat_25
  have h := normalize_unit sqrtRat (⟨3, 4, 0⟩ : Vec3 ℚ) (by norm_num) hq exactAt_sqrtRat_1
  have hn : @normalize ℚ exactRat ⟨3, 4, 0⟩ = ⟨3 / 5, 4 / 5, 0⟩ := by
    have e : (3 : ℚ) * 3 + 4 * 4 + 0 * 0 = 25 := by norm_num
    simp only [normalize, exactRat, exactArith, e, sqrtRat_25]
    norm_num
  ⟨by norm_num, hq, exactAt_sqrtRat_1, hn, h.1⟩

/-! ## The tangent of a face -/

section ExactTangent

variable {K : Type} [LinearOrderedField K] [FloorRing K]

/-- In exact arithmetic, with a non-zero UV determinant, the tangent before
`normalize` and the bitangent of the specification express the two edges in
the UV basis. -/
theorem rawTangent_uv (sqrt : K → K) (v0 v1 v2 : Vertex K)
    (hd : (v1.u - v0.u) * (v2.v - v0.v) - (v2.u - v0.u) * (v1.v - v0.v) ≠ 0) :
    @faceEdge K (exactArith K sqrt) v0 v1 =
      combine (v1.u - v0.u) (@rawTangent K (exactArith K sqrt) v0 v1 v2)
        (v1.v - v0.v) (bitangentSpec v0 v1 v2) ∧
    @faceEdge K (exactArith K sqrt) v0 v2 =
      combine (v2.u - v0.u) (@rawTangent K (exactArith K sqrt) v0 v1 v2)
        (v2.v - v0.v) (bitangentSpec v0 v1 v2) := by
  constructor <;>
  · simp only [faceEdge, rawTangent, deltaU, deltaV, bitangentSpec, combine, exactArith,
      Int.cast_one, Vec3.mk.injEq]
    refine ⟨?_, ?_, ?_⟩ <;>
    · field_simp
      ring

/-- C17. In every arithmetic, that of the program included, for the face `k` of
the vertex list `vs` (the output vertices after the expansion) with vertices
`v0`, `v1`, `v2`, the tangent stored in each of the three vertices of the face
is `encode_octahedral (normalize T)`, where `T = (1 / d) * (dV2 * e1 - dV1 * e2)`
is the tangent before `normalize`, its deltas and edges taken from `v0`, `v1`,
`v2`. In exact arithmetic, for vertices `w0`, `w1`, `w2` with a non-zero UV
determinant `d = dU1 * dV2 - dU2 * dV1`, that `T` and the bitangent
`B = (1 / d) * (dU1 * e2 - dU2 * e1)` satisfy `e1 = dU1 * T + dV1 * B` and
`e2 = dU2 * T + dV2 * B`. -/
theorem tangent_solves_uv {F : Type} [FloatArith F] (vs : List (Vertex F)) (k : Nat)
    (v0 v1 v2 : Vertex F)
    (h0 : vs[3 * k]? = some v0) (h1 : vs[3 * k + 1]? = some v1) (h2 : vs[3 * k + 2]? = some v2)
    (sqrt : K → K) (w0 w1 w2 : Vertex K)
    (hd : @deltaU K (exactArith K sqrt) w0 w1 * @deltaV K (exactArith K sqrt) w0 w2 -
      @deltaU K (exactArith K sqrt) w0 w2 * @deltaV K (exactArith K sqrt) w0 w1 ≠ 0) :
    (∀ j, j < 3 →
      ((packTangents (faceLoop vs).1 (faceLoop vs).2)[3 * k + j]?).map Vertex.tangent =
        some (encode_octahedral (normalize (rawTangent v0 v1 v2)))) ∧
    @faceEdge K (exactArith K sqrt) w0 w1 =
      combine (@deltaU K (exactArith K sqrt) w0 w1) (@rawTangent K (exactArith K sqrt) w0 w1 w2)
        (@deltaV K (exactArith K sqrt) w0 w1) (bitangentSpec w0 w1 w2) ∧
    @faceEdge K (exactArith K sqrt) w0 w2 =
      combine (@deltaU K (exactArith K sqrt) w0 w2) (@rawTangent K (exactArith K sqrt) w0 w1 w2)
        (@deltaV K (exactArith K sqrt) w0 w2) (bitangentSpec w0 w1 w2) := by
  obtain ⟨e1, e2⟩ := rawTangent_uv sqrt w0 w1 w2 hd
  refine ⟨?_, e1, e2⟩
  obtain ⟨⟨n0, n1, n2⟩, t0, t1, t2⟩ := faceLoop_face k vs v0 v1 v2 h0 h1 h2
  intro j hj
  rw [← faceTangent_eq]
  match j, hj with
  | 0, _ => rw [Nat.add_zero, packTangents_getElem _ _ _ _ _ n0 t0]; rfl
  | 1, _ => rw [packTangents_getElem _ _ _ _ _ n1 t1]; rfl
  | 2, _ => rw [packTangents_getElem _ _ _ _ _ n2 t2]; rfl

end ExactTangent

set_option maxRecDepth 100000 in
/-- C17, at the face of the sample file: in binary32 the stored tangent is
`0x80010000`; in exact arithmetic `d = 1`, the tangent before `normalize` is
`(-16, 0, 0)` and the bitangent `(0, -16, 0)`. -/
theorem tangent_solves_uv_witness :
    ∃ (v0 v1 v2 : Vertex Float32) (w0 w1 w2 : Vertex ℚ),
      sampleMesh.vertices[3 * 0]? = some v0 ∧ sampleMesh.vertices[3 * 0 + 1]? = some v1 ∧
      sampleMesh.vertices[3 * 0 + 2]? = some v2 ∧
      sampleCorners = [w0, w1, w2] ∧
      @deltaU ℚ exactRat w0 w1 * @deltaV ℚ exactRat w0 w2 -
        @deltaU ℚ exactRat w0 w2 * @deltaV ℚ exactRat w0 w1 = 1 ∧
      ((packTangents (faceLoop sampleMesh.vertices).1
          (faceLoop sampleMesh.vertices).2)[3 * 0 + 0]?).map Vertex.tangent =
        some (encode_octahedral (normalize (rawTangent v0 v1 v2))) ∧
      encode_octahedral (normalize (rawTangent v0 v1 v2)) = 0x80010000 ∧
      @rawTangent ℚ exactRat w0 w1 w2 = ⟨-16, 0, 0⟩ ∧
      bitangentSpec w0 w1 w2 = ⟨0, -16, 0⟩ ∧
      @faceEdge ℚ exactRat w0 w1 =
        combine (@deltaU ℚ exactRat w0 w1) (@rawTangent ℚ exactRat w0 w1 w2)
          (@deltaV ℚ exactRat w0 w1) (bitangentSpec w0 w1 w2) := by
  refine ⟨_, _, _, _, _, _, rfl, rfl, rfl, rfl, ?_⟩
  have hd : @deltaU ℚ exactRat sampleCorners[0] sampleCorners[1] *
        @deltaV ℚ exactRat sampleCorners[0] sampleCorners[2] -
      @deltaU ℚ exactRat sampleCorners[0] sampleCorners[2] *
        @deltaV ℚ exactRat sampleCorners[0] sampleCorners[1] = 1 := by
    norm_num [deltaU, deltaV, sampleCorners, exactRat, exactArith]
  have h := tangent_solves_uv sampleMesh.vertices 0 _ _ _ rfl rfl rfl sqrtRat
    sampleCorners[0] sampleCorners[1] sampleCorners[2] (by
    rw [hd]
    norm_num)
  refine ⟨hd, h.1 0 (by decide), by decide, ?_, ?_, h.2.1⟩
  · norm_num [rawTangent, faceEdge, deltaU, deltaV, sampleCorners, exactRat, exactArith]
  · norm_num [bitangentSpec, sampleCorners]

/-! ## Rounding to binary32 -/

theorem log2Aux_spec (fuel n : Nat) (hn : 1 ≤ n) (hf : n ≤ fuel) :
    2 ^ log2Aux fuel n ≤ n ∧ n < 2 ^ (log2Aux fuel n + 1) := by
  induction fuel generalizing n with
  | zero => omega
  | succ fuel ih =>
    unfold log2Aux
    split
    · constructor <;> simp <;> omega
    · obtain ⟨h1, h2⟩ := ih (n / 2) (by omega) (by omega)
      simp only [Nat.pow_succ] at h2 ⊢
      constructor <;> omega

/-- The binary logarithm brackets its argument. -/
theorem ilog2_spec (n : Nat) (hn : 1 ≤ n) : 2 ^ ilog2 n ≤ n ∧ n < 2 ^ (ilog2 n + 1) :=
  log2Aux_spec n n hn (Nat.le_refl n)

/-- The value of the fraction returned by `scaleFrac`. -/
theorem scaleFrac_val (num den : Nat) (k : Int) (hden : 0 < den) :
    0 < (scaleFrac num den k).2 ∧
    ((scaleFrac num den k).1 : ℚ) / ((scaleFrac num den k).2 : ℚ) =
      (num : ℚ) / (den : ℚ) * (2 : ℚ) ^ k := by
  have hd : (den : ℚ) ≠ 0 := by positivity
  unfold scaleFrac
  split
  · rename_i h
    refine ⟨hden, ?_⟩
    obtain ⟨j, rfl⟩ := Int.eq_ofNat_of_zero_le h
    simp only [Int.toNat_ofNat, zpow_natCast]
    push_cast
    ring
  · rename_i h
    refine ⟨by positivity, ?_⟩
    obtain ⟨j, hj⟩ := Int.eq_ofNat_of_zero_le (show 0 ≤ -k by omega)
    have hk : k = -(j : Int) := by omega
    subst hk
    simp only [neg_neg, Int.toNat_ofNat, zpow_neg, zpow_natCast]
    push_cast
    field_simp

/-- The binary logarithm of a fraction brackets its value. -/
theorem fracLog2_spec (num den : Nat) (hnum : 0 < num) (hden : 0 < den) :
    (2 : ℚ) ^ fracLog2 num den ≤ (num : ℚ) / (den : ℚ) ∧
    (num : ℚ) / (den : ℚ) < (2 : ℚ) ^ (fracLog2 num den + 1) := by
  obtain ⟨n1, n2⟩ := ilog2_spec num hnum
  obtain ⟨d1, d2⟩ := ilog2_spec den hden
  have hd : (0 : ℚ) < den := by positivity
  have qn1 : (2 : ℚ) ^ (ilog2 num : Int) ≤ num := by
    rw [zpow_natCast]; exact_mod_cast n1
  have qn2 : (num : ℚ) < (2 : ℚ) ^ ((ilog2 num : Int) + 1) := by
    rw [show ((ilog2 num : Int) + 1) = ((ilog2 num + 1 : Nat) : Int) from by push_cast; rfl,
      zpow_natCast]; exact_mod_cast n2
  have qd1 : (2 : ℚ) ^ (ilog2 den : Int) ≤ den := by
    rw [zpow_natCast]; exact_mod_cast d1
  have qd2 : (den : ℚ) < (2 : ℚ) ^ ((ilog2 den : Int) + 1) := by
    rw [show ((ilog2 den : Int) + 1) = ((ilog2 den + 1 : Nat) : Int) from by push_cast; rfl,
      zpow_natCast]; exact_mod_cast d2
  have two : (0 : ℚ) < 2 := by norm_num
  have two' : (2 : ℚ) ≠ 0 := by norm_num
  obtain ⟨sp, sv⟩ := scaleFrac_val num den (-((ilog2 num : Int) - (ilog2 den : Int))) hden
  have hs2 : (0 : ℚ) < ((scaleFrac num den (-((ilog2 num : Int) - (ilog2 den : Int)))).2 : ℚ) := by
    exact_mod_cast sp
  -- the comparison made by `fracLog2`
  have hcmp : (scaleFrac num den (-((ilog2 num : Int) - (ilog2 den : Int)))).2 ≤
        (scaleFrac num den (-((ilog2 num : Int) - (ilog2 den : Int)))).1 ↔
      (2 : ℚ) ^ ((ilog2 num : Int) - (ilog2 den : Int)) ≤ (num : ℚ) / (den : ℚ) := by
    rw [← Nat.cast_le (α := ℚ), ← one_le_div hs2, sv, zpow_neg,
      ← div_eq_mul_inv, one_le_div (zpow_pos two _)]
  unfold fracLog2
  simp only
  split
  · rename_i h
    refine ⟨hcmp.mp h, ?_⟩
    rw [div_lt_iff₀ hd]
    calc (num : ℚ) < (2 : ℚ) ^ ((ilog2 num : Int) + 1) := qn2
      _ = (2 : ℚ) ^ ((ilog2 num : Int) - (ilog2 den : Int) + 1) * (2 : ℚ) ^ (ilog2 den : Int) := by
        rw [← zpow_add₀ two']; congr 1; ring
      _ ≤ (2 : ℚ) ^ ((ilog2 num : Int) - (ilog2 den : Int) + 1) * den :=
        mul_le_mul_of_nonneg_left qd1 (le_of_lt (zpow_pos two _))
  · rename_i h
    have h' := lt_of_not_le (fun c => h (hcmp.mpr c))
    refine ⟨?_, by rw [sub_add_cancel]; exact h'⟩
    rw [le_div_iff₀ hd]
    calc (2 : ℚ) ^ ((ilog2 num : Int) - (ilog2 den : Int) - 1) * den
        ≤ (2 : ℚ) ^ ((ilog2 num : Int) - (ilog2 den : Int) - 1) * (2 : ℚ) ^ ((ilog2 den : Int) + 1) :=
        mul_le_mul_of_nonneg_left (le_of_lt qd2) (le_of_lt (zpow_pos two _))
      _ = (2 : ℚ) ^ (ilog2 num : Int) := by
        rw [← zpow_add₀ two']; congr 1; ring
      _ ≤ num := qn1
/-- The last steps of `roundBits`, for a scaled fraction `A / B` below `2 ^ 24`
(exponent at most 13) or at most `32767 * 2 ^ 9` (exponent 14): the pattern is
at most that of `32767.0f`. -/
theorem roundBits_le_aux (e : Int) (A B : Nat) (hB : 0 < B) (he : -126 ≤ e)
    (h : (e ≤ 13 ∧ A < 2 ^ 24 * B) ∨ (e = 14 ∧ A ≤ 16776704 * B)) :
    (if 0x7F800000 ≤ (e + 126).toNat * 2 ^ 23 +
        (if B < 2 * (A % B) ∨ (2 * (A % B) = B ∧ A / B % 2 = 1) then A / B + 1 else A / B)
      then 0x7F800000
      else (e + 126).toNat * 2 ^ 23 +
        (if B < 2 * (A % B) ∨ (2 * (A % B) = B ∧ A / B % 2 = 1) then A / B + 1 else A / B)) ≤
      0x46FFFE00 := by
  have hdm : B * (A / B) + A % B = A := Nat.div_add_mod A B
  have hr : A % B < B := Nat.mod_lt A hB
  generalize hm : A / B = m at hdm ⊢
  generalize hrr : A % B = r at hdm hr ⊢
  have key : (e + 126).toNat * 2 ^ 23 +
      (if B < 2 * r ∨ (2 * r = B ∧ m % 2 = 1) then m + 1 else m) ≤ 0x46FFFE00 := by
    rcases h with ⟨h13, hA⟩ | ⟨h14, hA⟩
    · have hm24 : m < 2 ^ 24 := by
        rw [← hm]
        exact Nat.div_lt_of_lt_mul (by rw [Nat.mul_comm]; exact hA)
      split <;> omega
    · subst h14
      have hm' : m ≤ 16776704 := by
        rw [← hm]
        exact Nat.div_le_of_le_mul (by rw [Nat.mul_comm]; exact hA)
      rcases Nat.lt_or_eq_of_le hm' with hlt | heq
      · split <;> omega
      · subst heq
        have hr0 : r = 0 := by omega
        subst hr0
        rw [if_neg (by omega)]
        decide
  rw [if_neg (Nat.not_le.mpr (lt_of_le_of_lt key (by decide)))]
  exact key

/-- The pattern of a fraction that is at most `32767` is at most that of
`32767.0f`. -/
theorem roundBits_le (num den : Nat) (hnum : 0 < num) (hden : 0 < den)
    (h : num ≤ 32767 * den) : roundBits num den ≤ 0x46FFFE00 := by
  obtain ⟨l1, l2⟩ := fracLog2_spec num den hnum hden
  have hd : (0 : ℚ) < den := by positivity
  have hval : (num : ℚ) / (den : ℚ) ≤ 32767 := by
    rw [div_le_iff₀ hd]
    exact_mod_cast h
  have two : (1 : ℚ) < 2 := by norm_num
  have hL : fracLog2 num den ≤ 14 := by
    by_contra hc
    have h15 : (15 : Int) ≤ fracLog2 num den := by omega
    have : (2 : ℚ) ^ (15 : Int) ≤ (2 : ℚ) ^ fracLog2 num den :=
      zpow_le_zpow_right₀ (le_of_lt two) h15
    have h2 : (2 : ℚ) ^ (15 : Int) = 32768 := by norm_num
    linarith
  obtain ⟨sp, sv⟩ := scaleFrac_val num den (23 - max (fracLog2 num den) (-126)) hden
  unfold roundBits
  simp only
  refine roundBits_le_aux _ _ _ sp (le_max_right _ _) ?_
  by_cases h14 : max (fracLog2 num den) (-126) = 14
  · right
    refine ⟨h14, ?_⟩
    rw [h14]
    have e9 : scaleFrac num den 9 = (num * 512, den) := by
      unfold scaleFrac
      simp
    show (scaleFrac num den 9).1 ≤ 16776704 * (scaleFrac num den 9).2
    rw [e9]
    show num * 512 ≤ 16776704 * den
    omega
  · left
    have hle : max (fracLog2 num den) (-126) ≤ 13 := by
      have : max (fracLog2 num den) (-126) ≤ 14 := max_le hL (by norm_num)
      omega
    refine ⟨hle, ?_⟩
    have hs2 : (0 : ℚ) <
        ((scaleFrac num den (23 - max (fracLog2 num den) (-126))).2 : ℚ) := by
      exact_mod_cast sp
    have hlt : ((scaleFrac num den (23 - max (fracLog2 num den) (-126))).1 : ℚ) /
        ((scaleFrac num den (23 - max (fracLog2 num den) (-126))).2 : ℚ) < (2 : ℚ) ^ (24 : Int) := by
      rw [sv]
      have two0 : (0 : ℚ) < 2 := by norm_num
      have two' : (2 : ℚ) ≠ 0 := by norm_num
      calc (num : ℚ) / (den : ℚ) * (2 : ℚ) ^ (23 - max (fracLog2 num den) (-126))
          < (2 : ℚ) ^ (fracLog2 num den + 1) * (2 : ℚ) ^ (23 - max (fracLog2 num den) (-126)) :=
            mul_lt_mul_of_pos_right l2 (zpow_pos two0 _)
        _ ≤ (2 : ℚ) ^ (max (fracLog2 num den) (-126) + 1) *
              (2 : ℚ) ^ (23 - max (fracLog2 num den) (-126)) :=
            mul_le_mul_of_nonneg_right
              (zpow_le_zpow_right₀ (le_of_lt two) (by have := le_max_left (fracLog2 num den) (-126); omega))
              (le_of_lt (zpow_pos two0 _))
        _ = (2 : ℚ) ^ (24 : Int) := by
            rw [← zpow_add₀ two']; congr 1; ring
    rw [div_lt_iff₀ hs2] at hlt
    have h24 : (2 : ℚ) ^ (24 : Int) = ((2 ^ 24 : Nat) : ℚ) := by norm_num
    rw [h24] at hlt
    exact_mod_cast hlt
/-! ## Function `float_to_int16` in binary32 -/

/-- The conversion to an integer of a pattern at most that of `32767.0f`, with
either sign. -/
theorem toInt_pack_le (s : Bool) (b : Nat) (hb : b ≤ 0x46FFFE00) :
    -32767 ≤ (Float32.pack s b).toInt ∧ (Float32.pack s b).toInt ≤ 32767 := by
  have hbits : (Float32.pack s b).bits = (if s then 2 ^ 31 else 0) + b := rfl
  have hexpo : (Float32.pack s b).expo = b / 2 ^ 23 := by
    unfold Float32.expo
    rw [hbits]
    split <;> omega
  have hfrac : (Float32.pack s b).frac = b % 2 ^ 23 := by
    unfold Float32.frac
    rw [hbits]
    split <;> omega
  have he : b / 2 ^ 23 ≤ 141 := by omega
  have hnan : (Float32.pack s b).isNaN = false := by
    simp only [Float32.isNaN, hexpo, Bool.and_eq_false_imp, beq_iff_eq]
    omega
  have hinf : (Float32.pack s b).isInf = false := by
    simp only [Float32.isInf, hexpo, Bool.and_eq_false_imp, beq_iff_eq]
    omega
  have hmant : (Float32.pack s b).mant ≤ 2 ^ 24 ∧
      (b / 2 ^ 23 = 141 → (Float32.pack s b).mant ≤ 16776704) := by
    unfold Float32.mant
    rw [hexpo, hfrac]
    split <;> omega
  -- the quotient taken by `toInt`
  have hq : ((scaleFrac (Float32.pack s b).mant 1 (Float32.pack s b).scale).1 /
      (scaleFrac (Float32.pack s b).mant 1 (Float32.pack s b).scale).2) ≤ 32767 := by
    have hsc : (Float32.pack s b).scale = -((150 - max (b / 2 ^ 23) 1 : Nat) : Int) := by
      unfold Float32.scale
      rw [hexpo]
      omega
    rw [hsc]
    unfold scaleFrac
    rw [if_neg (by omega)]
    simp only [neg_neg, Int.toNat_ofNat, Nat.one_mul]
    by_cases h141 : b / 2 ^ 23 = 141
    · rw [h141]
      have := hmant.2 h141
      show (Float32.pack s b).mant / 2 ^ 9 ≤ 32767
      omega
    · have hp : 2 ^ 10 ≤ 2 ^ (150 - max (b / 2 ^ 23) 1) :=
        Nat.pow_le_pow_right (by decide) (by omega)
      calc (Float32.pack s b).mant / 2 ^ (150 - max (b / 2 ^ 23) 1)
          ≤ (Float32.pack s b).mant / 2 ^ 10 := Nat.div_le_div_left hp (by decide)
        _ ≤ 32767 := by have := hmant.1; omega
  unfold Float32.toInt
  rw [hnan, hinf]
  simp only [Bool.or_self, Bool.false_eq_true, if_false]
  generalize ((scaleFrac (Float32.pack s b).mant 1 (Float32.pack s b).scale).1 /
      (scaleFrac (Float32.pack s b).mant 1 (Float32.pack s b).scale).2) = q at hq ⊢
  split <;> split <;> omega
theorem Float32.le_iff (a b : Float32) :
    Float32.le a b = true ↔ a.isNaN = false ∧ b.isNaN = false ∧ a.key ≤ b.key := by
  simp [Float32.le, and_assoc]

theorem Float32.lt_iff (a b : Float32) :
    Float32.lt a b = true ↔ a.isNaN = false ∧ b.isNaN = false ∧ a.key < b.key := by
  simp [Float32.lt, and_assoc]

/-- The magnitude pattern of a value is the absolute value of its order key. -/
theorem Float32.key_abs (a : Float32) :
    (a.key = ((a.bits % 2 ^ 31 : Nat) : Int) ∨ a.key = -((a.bits % 2 ^ 31 : Nat) : Int)) := by
  unfold Float32.key
  split
  · exact Or.inr rfl
  · exact Or.inl rfl

/-- The clamped value `fmaxf(-1.0f, fminf(v, 1.0f))` is not a NaN and its
magnitude is at most `1.0f`, whatever `v`. -/
theorem clamp_binary32 (v : Float32) :
    (Float32.max ⟨0xBF800000⟩ (Float32.min v ⟨0x3F800000⟩)).isNaN = false ∧
    (Float32.max ⟨0xBF800000⟩ (Float32.min v ⟨0x3F800000⟩)).bits % 2 ^ 31 ≤ 0x3F800000 := by
  have k1 : Float32.key ⟨0x3F800000⟩ = 1065353216 := by decide
  have km : Float32.key ⟨0xBF800000⟩ = -1065353216 := by decide
  have n1 : Float32.isNaN ⟨0x3F800000⟩ = false := by decide
  have nm : Float32.isNaN ⟨0xBF800000⟩ = false := by decide
  -- the inner minimum is not a NaN and is at most `1.0f`
  have hmin : (Float32.min v ⟨0x3F800000⟩).isNaN = false ∧
      (Float32.min v ⟨0x3F800000⟩).key ≤ 1065353216 := by
    unfold Float32.min
    rw [n1, Bool.or_false]
    by_cases h : Float32.le v ⟨0x3F800000⟩ = true
    · rw [if_pos h]
      obtain ⟨hv, -, hk⟩ := (Float32.le_iff _ _).mp h
      exact ⟨hv, by rw [k1] at hk; exact hk⟩
    · rw [if_neg h]
      exact ⟨n1, by rw [k1]⟩
  generalize Float32.min v ⟨0x3F800000⟩ = m at hmin
  unfold Float32.max
  rw [hmin.1, Bool.or_false]
  by_cases h : Float32.le m ⟨0xBF800000⟩ = true
  · rw [if_pos h]
    exact ⟨nm, by decide⟩
  · rw [if_neg h]
    refine ⟨hmin.1, ?_⟩
    have hk : ¬ m.key ≤ -1065353216 := by
      intro hc
      exact h ((Float32.le_iff _ _).mpr ⟨hmin.1, nm, by rw [km]; exact hc⟩)
    have := hmin.2
    rcases Float32.key_abs m with e | e <;> omega

/-- The product of a value of magnitude at most `1.0f` with `32767.0f`,
converted to an integer, lies in `[-32767, 32767]`. -/
theorem toInt_mul_32767 (c : Float32) (hnan : c.isNaN = false)
    (hmag : c.bits % 2 ^ 31 ≤ 0x3F800000) :
    -32767 ≤ (Float32.mul c ⟨0x46FFFE00⟩).toInt ∧ (Float32.mul c ⟨0x46FFFE00⟩).toInt ≤ 32767 := by
  have hexpo : c.expo ≤ 127 := by
    unfold Float32.expo
    omega
  have hfrac : c.expo = 127 → c.frac = 0 := by
    unfold Float32.expo Float32.frac
    omega
  have hfr : c.frac < 2 ^ 23 := by
    unfold Float32.frac
    omega
  have hinf : c.isInf = false := by
    simp only [Float32.isInf, Bool.and_eq_false_imp, beq_iff_eq]
    omega
  have kn : Float32.isNaN ⟨0x46FFFE00⟩ = false := by decide
  have ki : Float32.isInf ⟨0x46FFFE00⟩ = false := by decide
  have kz : Float32.isZero ⟨0x46FFFE00⟩ = false := by decide
  have km : Float32.mant ⟨0x46FFFE00⟩ = 16776704 := by decide
  have ks : Float32.scale ⟨0x46FFFE00⟩ = -9 := by decide
  unfold Float32.mul
  rw [hnan, kn, hinf, ki, kz, km, ks]
  simp only [Bool.false_eq_true, if_false, Bool.false_and, Bool.and_false, Bool.or_self]
  by_cases hm0 : c.mant = 0
  · simp only [hm0, Nat.zero_eq, decide_True, Bool.true_or, if_true]
    cases (c.sign != Float32.sign ⟨0x46FFFE00⟩) <;> decide
  · have hsc : c.scale + -9 = -((159 - max c.expo 1 : Nat) : Int) := by
      unfold Float32.scale
      omega
    have hmant : c.mant * 16776704 ≤ 32767 * 2 ^ (159 - max c.expo 1) := by
      unfold Float32.mant
      by_cases h127 : c.expo = 127
      · rw [h127, hfrac h127]
        decide
      · have hp : 2 ^ 33 ≤ 2 ^ (159 - max c.expo 1) :=
          Nat.pow_le_pow_right (by decide) (by omega)
        split <;> omega
    simp only [hm0, decide_False, Bool.or_false, Bool.false_eq_true, if_false]
    unfold Float32.round
    refine toInt_pack_le _ _ (roundBits_le _ _ ?_ ?_ ?_)
    · rw [hsc]
      unfold scaleFrac
      rw [if_neg (by omega)]
      exact Nat.mul_pos (Nat.pos_of_ne_zero hm0) (by decide)
    · rw [hsc]
      unfold scaleFrac
      rw [if_neg (by omega)]
      exact Nat.mul_pos (by decide) (by positivity)
    · rw [hsc]
      unfold scaleFrac
      rw [if_neg (by omega)]
      simp only [neg_neg, Int.toNat_ofNat, Nat.one_mul]
      exact hmant

/-- Function `float_to_int16` on binary32, with its constants as bit
patterns. -/
theorem float_to_int16_binary32 (v : Float32) :
    float_to_int16 v =
      toInt16 (Float32.toInt (Float32.mul (Float32.max ⟨0xBF800000⟩
        (Float32.min v ⟨0x3F800000⟩)) ⟨0x46FFFE00⟩)) := by
  have h1 : (ofInt 1 : Float32) = ⟨0x3F800000⟩ := by decide
  have hk : (ofInt 32767 : Float32) = ⟨0x46FFFE00⟩ := by decide
  have hm : (-(⟨0x3F800000⟩ : Float32)) = ⟨0xBF800000⟩ := by decide
  unfold float_to_int16
  rw [h1, hk, hm]
  rfl

/-- In binary32 `float_to_int16` lies in `[-32767, 32767]` for every argument,
NaN and the infinities included, and the cast to `int16_t` does not wrap. -/
theorem float_to_int16_binary32_range (v : Float32) :
    (-32767 ≤ float_to_int16 v ∧ float_to_int16 v ≤ 32767) ∧
    float_to_int16 v =
      Float32.toInt (Float32.mul (Float32.max ⟨0xBF800000⟩
        (Float32.min v ⟨0x3F800000⟩)) ⟨0x46FFFE00⟩) := by
  obtain ⟨cn, cm⟩ := clamp_binary32 v
  obtain ⟨t0, t1⟩ := toInt_mul_32767 _ cn cm
  rw [float_to_int16_binary32, toInt16_of_range _ (by omega) (by omega)]
  exact ⟨⟨t0, t1⟩, rfl⟩
/-- A 32-bit pattern is determined by its order key, away from zero. -/
theorem Float32.eq_of_key (v : Float32) (hv : v.bits < 2 ^ 32) (k : Nat) (hk : 0 < k) :
    (v.key = (k : Int) → v = ⟨k⟩) ∧ (v.key = -(k : Int) → v = ⟨2 ^ 31 + k⟩) := by
  obtain ⟨b⟩ := v
  simp only [Float32.key, Float32.sign, beq_iff_eq, Float32.mk.injEq] at *
  constructor
  · intro h
    split at h <;> omega
  · intro h
    split at h <;> omega

/-- In binary32, for a 32-bit pattern that is not a NaN,
`fmaxf(-1.0f, fminf(v, 1.0f))` is `clamp(v, -1, 1)`. -/
theorem clamp_binary32_eq (v : Float32) (hv : v.bits < 2 ^ 32) (hnan : v.isNaN = false) :
    Float32.max ⟨0xBF800000⟩ (Float32.min v ⟨0x3F800000⟩) = clampBinary32 v := by
  have k1 : Float32.key ⟨0x3F800000⟩ = 1065353216 := by decide
  have km : Float32.key ⟨0xBF800000⟩ = -1065353216 := by decide
  have n1 : Float32.isNaN ⟨0x3F800000⟩ = false := by decide
  have nm : Float32.isNaN ⟨0xBF800000⟩ = false := by decide
  unfold clampBinary32 Float32.min
  rw [n1, Bool.or_false]
  by_cases hlt1 : Float32.lt ⟨0x3F800000⟩ v = true
  · -- above `1.0f`
    have hk := ((Float32.lt_iff _ _).mp hlt1).2.2
    rw [k1] at hk
    have hle : ¬ Float32.le v ⟨0x3F800000⟩ = true := by
      intro h
      have := ((Float32.le_iff _ _).mp h).2.2
      rw [k1] at this
      omega
    have hltm : ¬ Float32.lt v ⟨0xBF800000⟩ = true := by
      intro h
      have := ((Float32.lt_iff _ _).mp h).2.2
      rw [km] at this
      omega
    rw [if_neg hle, if_neg hltm, if_pos hlt1]
    decide
  · have hk : v.key ≤ 1065353216 := by
      by_contra hc
      exact hlt1 ((Float32.lt_iff _ _).mpr ⟨n1, hnan, by rw [k1]; omega⟩)
    have hle : Float32.le v ⟨0x3F800000⟩ = true :=
      (Float32.le_iff _ _).mpr ⟨hnan, n1, by rw [k1]; exact hk⟩
    rw [if_pos hle, if_neg hlt1]
    unfold Float32.max
    rw [hnan, Bool.or_false]
    by_cases hltm : Float32.lt v ⟨0xBF800000⟩ = true
    · have hk' := ((Float32.lt_iff _ _).mp hltm).2.2
      rw [km] at hk'
      rw [if_pos hltm, if_pos ((Float32.le_iff _ _).mpr ⟨hnan, nm, by rw [km]; omega⟩)]
    · rw [if_neg hltm]
      have hk' : -1065353216 ≤ v.key := by
        by_contra hc
        exact hltm ((Float32.lt_iff _ _).mpr ⟨hnan, nm, by rw [km]; omega⟩)
      by_cases hlem : Float32.le v ⟨0xBF800000⟩ = true
      · have hk2 := ((Float32.le_iff _ _).mp hlem).2.2
        rw [km] at hk2
        have hkey : v.key = -((1065353216 : Nat) : Int) := by omega
        rw [if_pos hlem]
        exact ((Float32.eq_of_key v hv 1065353216 (by decide)).2 hkey).symm
      · rw [if_neg hlem]

/-- In binary32, `float_to_int16 v` is 32767 for every `v ≥ 1.0f`, plus
infinity included. -/
theorem float_to_int16_binary32_ge_one (v : Float32) (hv : v.bits < 2 ^ 32)
    (h : Float32.le ⟨0x3F800000⟩ v = true) : float_to_int16 v = 32767 := by
  obtain ⟨-, hnan, hk⟩ := (Float32.le_iff _ _).mp h
  have k1 : Float32.key ⟨0x3F800000⟩ = 1065353216 := by decide
  rw [k1] at hk
  have hc : clampBinary32 v = ⟨0x3F800000⟩ := by
    unfold clampBinary32
    have hltm : ¬ Float32.lt v ⟨0xBF800000⟩ = true := by
      intro c
      have := ((Float32.lt_iff _ _).mp c).2.2
      have km : Float32.key ⟨0xBF800000⟩ = -1065353216 := by decide
      rw [km] at this
      omega
    rw [if_neg hltm]
    by_cases hlt1 : Float32.lt ⟨0x3F800000⟩ v = true
    · rw [if_pos hlt1]
    · rw [if_neg hlt1]
      have hkey : v.key = ((1065353216 : Nat) : Int) := by
        by_contra hne
        exact hlt1 ((Float32.lt_iff _ _).mpr ⟨by decide, hnan, by rw [k1]; omega⟩)
      exact (Float32.eq_of_key v hv 1065353216 (by decide)).1 hkey
  rw [float_to_int16_binary32, clamp_binary32_eq v hv hnan, hc]
  decide

/-- In binary32, `float_to_int16 v` is -32767 for every `v ≤ -1.0f`, minus
infinity included. -/
theorem float_to_int16_binary32_le_neg_one (v : Float32) (hv : v.bits < 2 ^ 32)
    (h : Float32.le v ⟨0xBF800000⟩ = true) : float_to_int16 v = -32767 := by
  obtain ⟨hnan, -, hk⟩ := (Float32.le_iff _ _).mp h
  have km : Float32.key ⟨0xBF800000⟩ = -1065353216 := by decide
  rw [km] at hk
  have hc : clampBinary32 v = ⟨0xBF800000⟩ := by
    unfold clampBinary32
    by_cases hltm : Float32.lt v ⟨0xBF800000⟩ = true
    · rw [if_pos hltm]
    · rw [if_neg hltm]
      have hlt1 : ¬ Float32.lt ⟨0x3F800000⟩ v = true := by
        intro c
        have := ((Float32.lt_iff _ _).mp c).2.2
        have k1 : Float32.key ⟨0x3F800000⟩ = 1065353216 := by decide
        rw [k1] at this
        omega
      rw [if_neg hlt1]
      have hkey : v.key = -((1065353216 : Nat) : Int) := by
        by_contra hne
        exact hltm ((Float32.lt_iff _ _).mpr ⟨hnan, by decide, by rw [km]; omega⟩)
      exact (Float32.eq_of_key v hv 1065353216 (by decide)).2 hkey
  rw [float_to_int16_binary32, clamp_binary32_eq v hv hnan, hc]
  decide
/-! ## Function `float_to_int16` -/

section ExactClamp

variable {K : Type} [LinearOrderedField K] [FloorRing K]

/-- Function `truncate` rounds toward zero: the integer part lies between zero
and the value, less than one away from it. -/
theorem truncate_spec (a : K) :
    (0 ≤ a → 0 ≤ truncate a ∧ (truncate a : K) ≤ a ∧ a < (truncate a : K) + 1) ∧
    (a ≤ 0 → truncate a ≤ 0 ∧ a ≤ (truncate a : K) ∧ (truncate a : K) - 1 < a) := by
  constructor
  · intro h
    rw [truncate_of_nonneg a h]
    exact ⟨Int.floor_nonneg.mpr h, Int.floor_le a, Int.lt_floor_add_one a⟩
  · intro h
    rcases eq_or_lt_of_le h with h0 | hlt
    · subst h0
      simp [truncate]
    · have e : truncate a = ⌈a⌉ := by simp [truncate, not_le.mpr hlt]
      rw [e]
      refine ⟨Int.ceil_le.mpr (by simpa using h), Int.le_ceil a, ?_⟩
      have := Int.ceil_lt_add_one a
      linarith

/-- The truncation of a value of `[-n, n]` lies in `[-n, n]`. -/
theorem truncate_bounds (a : K) (n : Int) (h0 : -(n : K) ≤ a) (h1 : a ≤ (n : K)) :
    -n ≤ truncate a ∧ truncate a ≤ n := by
  rcases le_total 0 a with h | h
  · obtain ⟨t0, t1, -⟩ := (truncate_spec a).1 h
    have : ((truncate a : Int) : K) ≤ (n : K) := le_trans t1 h1
    have hn : truncate a ≤ n := by exact_mod_cast this
    omega
  · obtain ⟨t0, t1, -⟩ := (truncate_spec a).2 h
    have : ((-n : Int) : K) ≤ ((truncate a : Int) : K) := by
      push_cast
      exact le_trans h0 t1
    have hn : -n ≤ truncate a := by exact_mod_cast this
    omega

omit [FloorRing K] in
/-- The maximum and minimum taken by `float_to_int16` are the clamp of the
specification. -/
theorem max_min_eq_clamp (v : K) : max (-1) (min v 1) = clamp v (-1) 1 := by
  unfold clamp
  split
  · rename_i h
    rw [min_eq_left (by linarith), max_eq_left (le_of_lt h)]
  · rename_i h
    split
    · rename_i h'
      rw [min_eq_right (le_of_lt h'), max_eq_right (by norm_num)]
    · rename_i h'
      rw [min_eq_left (not_lt.mp h'), max_eq_right (not_lt.mp h)]

/-- Function `float_to_int16` in exact arithmetic. -/
theorem float_to_int16_exact_spec (sqrt : K → K) (v : K) :
    (1 ≤ v → @float_to_int16 K (exactArith K sqrt) v = 32767) ∧
    (v ≤ -1 → @float_to_int16 K (exactArith K sqrt) v = -32767) ∧
    (-32767 ≤ @float_to_int16 K (exactArith K sqrt) v ∧
      @float_to_int16 K (exactArith K sqrt) v ≤ 32767) ∧
    @float_to_int16 K (exactArith K sqrt) v = truncate (clamp v (-1) 1 * 32767) := by
  have hc : -1 ≤ clamp v (-1) 1 ∧ clamp v (-1) 1 ≤ 1 := by
    rw [← max_min_eq_clamp]
    exact ⟨le_max_left _ _, max_le (by norm_num) (min_le_right _ _)⟩
  have hb := truncate_bounds (clamp v (-1) 1 * 32767) 32767
    (by push_cast; linarith [hc.1]) (by push_cast; linarith [hc.2])
  have e : @float_to_int16 K (exactArith K sqrt) v = truncate (clamp v (-1) 1 * 32767) := by
    rw [float_to_int16_exact, max_min_eq_clamp, toInt16_of_range _ (by omega) (by omega)]
  refine ⟨?_, ?_, ?_, e⟩
  · intro h
    have hcl : clamp v (-1) 1 = 1 := by
      rw [← max_min_eq_clamp, min_eq_right h, max_eq_right (by norm_num)]
    rw [e, hcl, one_mul, truncate_of_nonneg _ (by norm_num),
      show (32767 : K) = ((32767 : Int) : K) by norm_num, Int.floor_intCast]
  · intro h
    have hcl : clamp v (-1) 1 = -1 := by
      rw [← max_min_eq_clamp, min_eq_left (by linarith), max_eq_left h]
    have hneg : ¬ (0 : K) ≤ -1 * 32767 := by norm_num
    rw [e, hcl]
    simp only [truncate, if_neg hneg]
    have : (-1 * 32767 : K) = ((-32767 : Int) : K) := by push_cast; ring
    rw [this, Int.ceil_intCast]
  · rw [e]
    exact hb

end ExactClamp

/-- C13. Function `float_to_int16` clamps. In binary32, for a 32-bit pattern
`v`: the result is 32767 when `v ≥ 1.0f` and -32767 when `v ≤ -1.0f`; it lies in
`[-32767, 32767]`; and when `v` is not a NaN it is the single-precision product
`clamp(v, -1, 1) * 32767.0f` converted to an integer, which truncates toward
zero. In exact arithmetic, for every `w`: the result is 32767 when `w ≥ 1` and
-32767 when `w ≤ -1`, it lies in `[-32767, 32767]`, and it is
`clamp(w, -1, 1) * 32767` truncated toward zero. -/
theorem float_to_int16_clamps (v : Float32) (hv : v.bits < 2 ^ 32)
    (K : Type) [LinearOrderedField K] [FloorRing K] (sqrt : K → K) (w : K) :
    ((Float32.le (ofInt 1) v = true → float_to_int16 v = 32767) ∧
      (Float32.le v (-(ofInt 1)) = true → float_to_int16 v = -32767) ∧
      (-32767 ≤ float_to_int16 v ∧ float_to_int16 v ≤ 32767) ∧
      (v.isNaN = false →
        float_to_int16 v = Float32.toInt (Float32.mul (clampBinary32 v) (ofInt 32767)))) ∧
    ((1 ≤ w → @float_to_int16 K (exactArith K sqrt) w = 32767) ∧
      (w ≤ -1 → @float_to_int16 K (exactArith K sqrt) w = -32767) ∧
      (-32767 ≤ @float_to_int16 K (exactArith K sqrt) w ∧
        @float_to_int16 K (exactArith K sqrt) w ≤ 32767) ∧
      @float_to_int16 K (exactArith K sqrt) w = truncate (clamp w (-1) 1 * 32767)) := by
  have h1 : (ofInt 1 : Float32) = ⟨0x3F800000⟩ := by decide
  have hk : (ofInt 32767 : Float32) = ⟨0x46FFFE00⟩ := by decide
  have hm : (-(⟨0x3F800000⟩ : Float32)) = ⟨0xBF800000⟩ := by decide
  rw [h1, hk, hm]
  refine ⟨⟨float_to_int16_binary32_ge_one v hv, float_to_int16_binary32_le_neg_one v hv,
    (float_to_int16_binary32_range v).1, ?_⟩, float_to_int16_exact_spec sqrt w⟩
  intro hnan
  rw [(float_to_int16_binary32_range v).2, clamp_binary32_eq v hv hnan]

set_option maxRecDepth 100000 in
/-- C13, at the arguments `2.0f`, `1.0f`, `-2.0f`, `-1.0f` and `0.5f` in
binary32, and at `2` and `1/2` in exact arithmetic. -/
theorem float_to_int16_clamps_witness :
    (⟨0x40000000⟩ : Float32).bits < 2 ^ 32 ∧
    Float32.le (ofInt 1) ⟨0x40000000⟩ = true ∧
    (ofInt 2 : Float32) = ⟨0x40000000⟩ ∧
    float_to_int16 (⟨0x40000000⟩ : Float32) = 32767 ∧
    float_to_int16 (ofInt 1 : Float32) = 32767 ∧
    float_to_int16 (-(ofInt 2) : Float32) = -32767 ∧
    float_to_int16 (-(ofInt 1) : Float32) = -32767 ∧
    float_to_int16 (half : Float32) = 16383 ∧
    @float_to_int16 ℚ exactRat 2 = 32767 ∧
    @float_to_int16 ℚ exactRat (1 / 2) = truncate (clamp (1 / 2 : ℚ) (-1) 1 * 32767) :=
  have h := float_to_int16_clamps ⟨0x40000000⟩ (by decide) ℚ sqrtRat 2
  have h' := float_to_int16_clamps ⟨0x40000000⟩ (by decide) ℚ sqrtRat (1 / 2)
  ⟨by decide, by decide, by decide, h.1.1 (by decide), by decide, by decide, by decide,
   by decide, h.2.1 (by norm_num), h'.2.2.2.2⟩

set_option maxRecDepth 100000 in
/-- In binary32 the product is rounded to single precision before it is
truncated: at `v = 0x3F4A0394`, which is `13239188 / 2 ^ 24`, the product
rounds up to `25857.0f` and the result is 25857, while the exact product
`v * 32767` lies just below 25857 and truncates to 25856. -/
theorem float_to_int16_rounds_product :
    float_to_int16 (⟨0x3F4A0394⟩ : Float32) = 25857 ∧
    Float32.mant ⟨0x3F4A0394⟩ = 13239188 ∧ Float32.scale ⟨0x3F4A0394⟩ = -24 ∧
    @float_to_int16 ℚ exactRat (13239188 / 2 ^ 24) = 25856 := by
  refine ⟨by decide, by decide, by decide, ?_⟩
  have hf : ⌊(13239188 / 2 ^ 24 * 32767 : ℚ)⌋ = 25856 := by
    rw [Int.floor_eq_iff]
    norm_num
  have hc : clamp (13239188 / 2 ^ 24 : ℚ) (-1) 1 = 13239188 / 2 ^ 24 := by
    unfold clamp
    norm_num
  rw [(float_to_int16_exact_spec sqrtRat (13239188 / 2 ^ 24 : ℚ)).2.2.2, hc,
    truncate_of_nonneg _ (by norm_num), hf]

section ExactFormula

variable {K : Type} [LinearOrderedField K] [FloorRing K]

/-- In exact arithmetic the formula of the specification is what the code
computes. -/
theorem octahedralFormula_exact (sqrt : K → K) (n : Vec3 K) :
    @octahedralFormula K (exactArith K sqrt) n = @encode_octahedral K (exactArith K sqrt) n := by
  rw [@encode_octahedral_eq_sum K (exactArith K sqrt) n, octahedralPoint_exact,
    ← (or_shift_halves _ _ (toUInt16_lt _) (toUInt16_lt _)).2]
  by_cases h : 0 ≤ n.z / (|n.x| + |n.y| + |n.z|)
  · simp only [octahedralFormula, octahedralPointSpec, exactArith, Int.cast_zero,
      decide_eq_true_eq, if_pos h]
  · simp only [octahedralFormula, octahedralPointSpec, exactArith, Int.cast_zero, Int.cast_one,
      decide_eq_true_eq, if_neg h, signOf]

end ExactFormula

/-- The exact word of the vector `(6, 0, -1)`: the point is `(1, 1/7)` and
`32767 / 7 = 4681`. -/
theorem octahedralFormula_exact_6_0_m1 :
    @octahedralFormula ℚ exactRat ⟨6, 0, -1⟩ = 0x7FFF1249 := by
  have hp : octahedralPointSpec (⟨6, 0, -1⟩ : Vec3 ℚ) = (1, 1 / 7) := by
    norm_num [octahedralPointSpec, signOf, abs_of_pos]
  have hx : @float_to_int16 ℚ exactRat 1 = 32767 :=
    (float_to_int16_exact_spec sqrtRat (1 : ℚ)).1 (le_refl 1)
  have hy : @float_to_int16 ℚ exactRat (1 / 7) = 4681 := by
    rw [float_to_int16_exact]
    norm_num [truncate, toInt16, Int.floor_eq_iff]
  rw [show @octahedralFormula ℚ exactRat ⟨6, 0, -1⟩ = _ from octahedralFormula_exact sqrtRat _,
    @encode_octahedral_eq_sum ℚ exactRat, show @octahedralPoint ℚ exactRat ⟨6, 0, -1⟩ = _ from
      octahedralPoint_exact sqrtRat _, hp, hx, hy]
  decide

set_option maxRecDepth 100000 in
/-- C15 as stated fails in the arithmetic of the program. The code multiplies
by the rounded reciprocal `1 / s` and rounds every product: the vector
`(6, 0, -1)` packs to `0x7FFF1248`, while the formula of the claim gives
`0x7FFF1249` in exact arithmetic (`iy = 32767 / 7 = 4681`); and the vector
`(-17, -14, 0)` packs to `0xB9D0C632`, while the formula of the claim with
`n / s` gives `0xB9CFC632`, in single precision too. -/
theorem encode_octahedral_rounds :
    encode_octahedral (⟨ofInt 6, ofInt 0, -(ofInt 1)⟩ : Vec3 Float32) = 0x7FFF1248 ∧
    @octahedralFormula ℚ exactRat ⟨6, 0, -1⟩ = 0x7FFF1249 ∧
    encode_octahedral (⟨-(ofInt 17), -(ofInt 14), ofInt 0⟩ : Vec3 Float32) = 0xB9D0C632 ∧
    octahedralFormula (⟨-(ofInt 17), -(ofInt 14), ofInt 0⟩ : Vec3 Float32) = 0xB9CFC632 :=
  ⟨by decide, octahedralFormula_exact_6_0_m1, by decide, by decide⟩

end MeshConverter
